import Mathlib

/-!
# grppi: distributed task back end (`parallel_execution_dist_task`)

A shallow embedding of `include/task_dist/parallel_execution_dist_task.h`:
the stage functions that `divide_conquer` and `pipeline` register with the
scheduler, written as state transformers over an explicit scheduler state,
and the properties of the runs they produce.

The scheduler itself (`dist_pool.h`) is an external collaborator of that
header; its operations are modelled from the specification and every such
definition says so in its doc comment.  `long` counters are modelled by
unbounded naturals.
-/

namespace Grppi

/-! ## Data model -/

/-- Data reference: handle of one cell of the distributed store. -/
structure DR where
  node_id : Nat
  slot_id : Nat
deriving DecidableEq, Repr

/-- Task descriptor (`task_type`).  `stage_id` is what the code reads with
`get_id()`; the two dependency sets are `std::set<long>`, kept here as
strictly increasing lists. -/
structure TD where
  stage_id : Nat
  task_id : Nat
  order : Nat
  local_ids : List Nat
  is_hard : Bool
  data_location : List DR
  before_dep : List Nat
  after_dep : List Nat
deriving DecidableEq, Repr

/-- Insertion into a `std::set<long>`: ordered, without duplicates. -/
def set_insert (a : Nat) : List Nat → List Nat
  | [] => [a]
  | b :: bs =>
    if a < b then a :: b :: bs
    else if a = b then b :: bs
    else b :: set_insert a bs

/-- One call into the scheduler interface, as it appears in the trace. -/
inductive Call (C : Type) where
  | set (v : C) (dr : DR)
  | set_at (v : C) (dr : DR)
  | get (dr : DR) (v : C)
  | get_release (dr : DR) (v : C)
  | get_release_all (dr : DR) (v : C)
  | set_task (td : TD) (self_submit : Bool)
  | finish_task (count : Option Nat)
  | allocate_tokens (n : Nat) (ok : Bool)

/-- Trace entry: the task whose stage function made the call, and the call. -/
structure Entry (C : Type) where
  caller : TD
  call : Call C

/-- Scheduler state seen from one node.  `C` is the type of the stored
cells, `E` the variables captured by reference by the stage closures.
`alloc` gives the outcome of the successive `allocate_tokens` calls. -/
structure State (C E : Type) where
  node : Nat
  store : DR → Option C
  next_slot : Nat
  next_task : Nat
  alloc : Nat → Bool
  alloc_calls : Nat
  submitted : List TD
  pending : List TD
  finished : List Nat
  terminal : Option TD
  trace : List (Entry C)
  env : E

/-- Stage function: the body of a registered task closure; `none` is a
failed task (a store miss, an out-of-range index, a diverging callable). -/
abbrev StageFn (C E : Type) := TD → State C E → Option (State C E)

/-- Registered stage: its kind and its function. -/
structure Stage (C E : Type) where
  parallel : Bool
  is_source : Bool
  fn : StageFn C E

section Scheduler

variable {C E : Type}

/-! ## Scheduler interface -/

/-- Modelled from the spec: `set(value)` stores the value in a fresh cell of
this node and returns its reference. -/
def State.set (s : State C E) (t : TD) (v : C) : DR × State C E :=
  (⟨s.node, s.next_slot⟩,
   { s with store := Function.update s.store ⟨s.node, s.next_slot⟩ (some v),
            next_slot := s.next_slot + 1,
            trace := s.trace ++ [⟨t, Call.set v ⟨s.node, s.next_slot⟩⟩] })

/-- Modelled from the spec: `set(value, ref)` stores the value back into an
existing cell. -/
def State.set_at (s : State C E) (t : TD) (v : C) (dr : DR) : State C E :=
  { s with store := Function.update s.store dr (some v),
           trace := s.trace ++ [⟨t, Call.set_at v dr⟩] }

/-- Modelled from the spec: `get(ref)` reads a cell without releasing it; a
released or unknown reference is a store miss. -/
def State.get (s : State C E) (t : TD) (dr : DR) : Option (C × State C E) :=
  match s.store dr with
  | none => none
  | some v => some (v, { s with trace := s.trace ++ [⟨t, Call.get dr v⟩] })

/-- Modelled from the spec: `get_release(ref)` reads a cell and releases
it. -/
def State.get_release (s : State C E) (t : TD) (dr : DR) : Option (C × State C E) :=
  match s.store dr with
  | none => none
  | some v =>
    some (v, { s with store := Function.update s.store dr none,
                      trace := s.trace ++ [⟨t, Call.get_release dr v⟩] })

/-- Modelled from the spec: `get_release_all(ref)` reads a cell and releases
it together with the residual tokens of its chain. -/
def State.get_release_all (s : State C E) (t : TD) (dr : DR) : Option (C × State C E) :=
  match s.store dr with
  | none => none
  | some v =>
    some (v, { s with store := Function.update s.store dr none,
                      trace := s.trace ++ [⟨t, Call.get_release_all dr v⟩] })

/-- Modelled from the spec: `set_task(td, self_submit)` submits a task; the
tasks submitted by a stage function are queued when it returns. -/
def State.set_task (s : State C E) (t : TD) (td : TD) (self_submit : Bool) : State C E :=
  { s with submitted := s.submitted ++ [td],
           trace := s.trace ++ [⟨t, Call.set_task td self_submit⟩] }

/-- Modelled from the spec: `finish_task(td, count)` completes the task, which
unblocks the tasks that wait for its identifier; `count` is `none` when the
call leaves the argument to its default. -/
def State.finish_task (s : State C E) (td : TD) (count : Option Nat) : State C E :=
  { s with finished := td.task_id :: s.finished,
           terminal := some td,
           trace := s.trace ++ [⟨td, Call.finish_task count⟩] }

/-- Modelled from the spec: `allocate_tokens(n)` either reserves `n` tokens or
fails; the outcome of the k-th call is `alloc k`. -/
def State.allocate_tokens (s : State C E) (t : TD) (n : Nat) : Bool × State C E :=
  (s.alloc s.alloc_calls,
   { s with alloc_calls := s.alloc_calls + 1,
            trace := s.trace ++ [⟨t, Call.allocate_tokens n (s.alloc s.alloc_calls)⟩] })

/-- Modelled from the spec: `get_task_id()` returns a fresh identifier. -/
def State.get_task_id (s : State C E) : Nat × State C E :=
  (s.next_task, { s with next_task := s.next_task + 1 })

/-- Modelled from the spec: `get_node_id()`. -/
def State.get_node_id (s : State C E) : Nat := s.node

/-! ## Scheduler run loop -/

/-- A task may run once every identifier of its `before_dep` has finished. -/
def ready (fin : List Nat) (t : TD) : Bool :=
  t.before_dep.all (fun b => decide (b ∈ fin))

/-- First task of the queue that may run, and the queue without it. -/
def pick (fin : List Nat) : List TD → Option (TD × List TD)
  | [] => none
  | t :: ts =>
    if ready fin t then some (t, ts)
    else
      match pick fin ts with
      | none => none
      | some (u, r) => some (u, t :: r)

/-- Modelled from the spec: the tasks a stage function submitted are queued,
in submission order, ahead of the older ones. -/
def State.enqueue (s : State C E) : State C E :=
  { s with pending := s.submitted ++ s.pending, submitted := [] }

/-- Modelled from the spec: one dispatch.  The scheduler takes the first
runnable task off the queue, runs the stage function registered under its
`stage_id` to completion, then queues the tasks it submitted, in submission
order, ahead of the older ones.  Every submitted task is dispatched exactly
once and never before its `before_dep` have finished. -/
def step (stages : List (Stage C E)) (s : State C E) : Option (State C E) :=
  match pick s.finished s.pending with
  | none => none
  | some (t, rest) =>
    match stages.get? t.stage_id with
    | none => none
    | some st =>
      match st.fn t { s with pending := rest } with
      | none => none
      | some s' => some s'.enqueue

/-- Exactly `n` dispatches. -/
def steps (stages : List (Stage C E)) : Nat → State C E → Option (State C E)
  | 0, s => some s
  | n + 1, s =>
    match step stages s with
    | none => none
    | some s' => steps stages n s'

/-- The queue holds no runnable task. -/
def drained (s : State C E) : Bool := (pick s.finished s.pending).isNone

/-- Dispatch until the graph is drained; `none` when a task fails or the fuel
runs out first. -/
def drain (stages : List (Stage C E)) : Nat → State C E → Option (State C E)
  | 0, s => if drained s then some s else none
  | n + 1, s =>
    if drained s then some s
    else
      match step stages s with
      | none => none
      | some s' => drain stages n s'

/-- Fresh scheduler state of node `node`. -/
def State.fresh (node : Nat) (alloc : Nat → Bool) (env : E) : State C E :=
  { node := node, store := fun _ => none, next_slot := 0, next_task := 0,
    alloc := alloc, alloc_calls := 0, submitted := [], pending := [],
    finished := [], terminal := none, trace := [], env := env }

/-- Modelled from the spec: the first task of a run, submitted by the
scheduler itself for the source stage registered first (stage 0). -/
def State.launch (s : State C E) : State C E :=
  { s with next_task := s.next_task + 1,
           pending := [⟨0, s.next_task, 0, [s.node], false, [], [], []⟩] }

/-- Modelled from the spec: `run()` launches the first task, dispatches until
the graph is drained and returns the terminal task, the last one to
finish. -/
def run (stages : List (Stage C E)) (fuel : Nat) (s : State C E) : Option (TD × State C E) :=
  match drain stages fuel s.launch with
  | none => none
  | some s' =>
    match s'.terminal with
    | none => none
    | some t => some (t, s')

end Scheduler

/-! ## Divide and conquer -/

/-- The callables of a `divide_conquer` call; `empty_result` is the
value-initialised `result_type{}`. -/
structure DCOps (P R : Type) where
  divide : P → List P
  predicate : P → Bool
  solve : P → R
  combine : R → R → R
  empty_result : R

section DivideConquer

variable {P R E : Type}

/-- Results of a list of recursive calls, when all of them returned. -/
def all_some : List (Option R) → Option (List R)
  | [] => some []
  | none :: _ => none
  | some r :: rs =>
    match all_some rs with
    | none => none
    | some l => some (r :: l)

/-- Modelled from the spec: the sequential execution policy's
`divide_conquer` (`seq.divide_conquer`, defined outside this header):
`solve(x)` when `predicate(x)`, otherwise the `combine`-fold of the recursive
results of `divide(x)` starting from the first sub-result.  The fuel bounds
the recursion depth; there is no value when it runs out or when `divide`
returns no sub-problem. -/
def seq_divide_conquer (ops : DCOps P R) : Nat → P → Option R
  | 0, _ => none
  | fuel + 1, x =>
    if ops.predicate x then some (ops.solve x)
    else
      match all_some ((ops.divide x).map (seq_divide_conquer ops fuel)) with
      | some (r :: rs) => some (rs.foldl ops.combine r)
      | _ => none

/-- Loop of `merge_function`: read-release the partial results in
`data_location` order and combine each into the running `data.second`. -/
def merge_loop (ops : DCOps P R) (task : TD) :
    List DR → P × R → State (P × R) E → Option ((P × R) × State (P × R) E)
  | [], data, s => some (data, s)
  | d :: ds, data, s =>
    match s.get_release task d with
    | none => none
    | some (input, s1) => merge_loop ops task ds (data.1, ops.combine data.2 input.2) s1

/-- The closure `merge_function` of `divide_conquer`. -/
def merge_function (ops : DCOps P R) : StageFn (P × R) E := fun task s =>
  match task.data_location with
  | [] => none
  | d0 :: ds =>
    match s.get task d0 with
    | none => none
    | some (data, s1) =>
      match merge_loop ops task ds data s1 with
      | none => none
      | some (data1, s2) =>
        some ((s2.set_at task data1 d0).finish_task task (some (task.data_location.length - 1)))

/-- Loop of the parallel case of `normal_divide_function`: one stored cell
and one submitted task per sub-problem, the merger's data locations and
dependency set growing alongside. -/
def spawn_loop (ops : DCOps P R) (normal_divide_id : Nat) (task merger_task : TD) :
    List P → List DR → List Nat → State (P × R) E → List DR × List Nat × State (P × R) E
  | [], merger_data_loc, merger_task_before_dep, s => (merger_data_loc, merger_task_before_dep, s)
  | sub :: subs, merger_data_loc, merger_task_before_dep, s =>
    let (ref, s1) := s.set task (sub, ops.empty_result)
    let (tid, s2) := s1.get_task_id
    let new_task : TD :=
      { stage_id := normal_divide_id, task_id := tid, order := task.order,
        local_ids := [s2.get_node_id], is_hard := false, data_location := [ref],
        before_dep := [], after_dep := set_insert merger_task.task_id [] }
    spawn_loop ops normal_divide_id task merger_task subs
      (merger_data_loc ++ [ref]) (set_insert new_task.task_id merger_task_before_dep)
      (s2.set_task task new_task false)

/-- The closure `normal_divide_function` of `divide_conquer`; `fuel` bounds
the recursion of the sequential fall-back. -/
def normal_divide_function (ops : DCOps P R) (fuel : Nat) (merger_id normal_divide_id : Nat) :
    StageFn (P × R) E := fun task s =>
  match task.data_location with
  | [] => none
  | d0 :: _ =>
    match s.get task d0 with
    | none => none
    | some (data, s1) =>
      if ops.predicate data.1 then
        some ((s1.set_at task (data.1, ops.solve data.1) d0).finish_task task (some 0))
      else
        let subproblems := ops.divide data.1
        let (ok, s2) := s1.allocate_tokens task subproblems.length
        if ok = false then
          match seq_divide_conquer ops fuel data.1 with
          | none => none
          | some r => some ((s2.set_at task (data.1, r) d0).finish_task task (some 0))
        else
          let merger_task : TD :=
            { stage_id := merger_id, task_id := task.task_id, order := task.order,
              local_ids := task.local_ids, is_hard := task.is_hard, data_location := [],
              before_dep := [], after_dep := task.after_dep }
          let spawned :=
            spawn_loop ops normal_divide_id task merger_task subproblems task.data_location [] s2
          let merger_data_loc := spawned.1
          let merger_task_before_dep := spawned.2.1
          some (spawned.2.2.set_task task
            { merger_task with data_location := merger_data_loc,
                               before_dep := merger_task_before_dep } false)

/-- The closure `init_divide_function` of `divide_conquer`. -/
def init_divide_function (ops : DCOps P R) (fuel : Nat) (merger_id normal_divide_id ending_id : Nat)
    (input : P) : StageFn (P × R) E := fun task s =>
  let (ref, s1) := s.set task (input, ops.empty_result)
  let task1 : TD :=
    { task with data_location := [ref], local_ids := [s1.get_node_id], is_hard := false }
  let (eid, s2) := s1.get_task_id
  let end_task : TD :=
    { stage_id := ending_id, task_id := eid, order := task1.order,
      local_ids := [s2.get_node_id], is_hard := false, data_location := [ref],
      before_dep := set_insert task1.task_id [], after_dep := [] }
  let task2 : TD := { task1 with after_dep := set_insert end_task.task_id [] }
  normal_divide_function ops fuel merger_id normal_divide_id task2 (s2.set_task task2 end_task true)

/-- The closure `ending_function` of `divide_conquer`. -/
def ending_function : StageFn (P × R) E := fun task s =>
  some (s.finish_task task (some 2))

/-- Stage table of a `divide_conquer` call on a fresh scheduler: the four
registrations, in the order the code makes them, so that the identifiers
they return are 0, 1, 2, 3. -/
def divide_conquer_stages (ops : DCOps P R) (fuel : Nat) (input : P) : List (Stage (P × R) E) :=
  let init_divide_id := 0
  let normal_divide_id := init_divide_id + 1
  let merger_id := normal_divide_id + 1
  let ending_id := merger_id + 1
  [ ⟨true, true, init_divide_function ops fuel merger_id normal_divide_id ending_id input⟩,
    ⟨true, true, normal_divide_function ops fuel merger_id normal_divide_id⟩,
    ⟨true, false, merge_function ops⟩,
    ⟨true, false, ending_function⟩ ]

/-- The member `divide_conquer`: register the four stages, run, read the cell
of the terminal task and return its second field.  `fuel` bounds the number
of dispatches and the depth of the sequential fall-back. -/
def divide_conquer (ops : DCOps P R) (fuel : Nat) (node : Nat) (alloc : Nat → Bool)
    (input : P) : Option R :=
  match run (divide_conquer_stages ops fuel input) fuel
      (State.fresh node alloc () : State (P × R) Unit) with
  | none => none
  | some (task, s) =>
    match task.data_location with
    | [] => none
    | d0 :: _ =>
      match s.get_release_all task d0 with
      | none => none
      | some (result, _) => some result.2

end DivideConquer

/-- References of the cells the spawn loop stores: `n` consecutive slots of
node `node` from `slot` on. -/
def spawned_refs (node : Nat) : Nat → Nat → List DR
  | _, 0 => []
  | slot, n + 1 => ⟨node, slot⟩ :: spawned_refs node (slot + 1) n

/-- Tasks the spawn loop submits for `n` sub-problems, the first one with cell
`slot` and identifier `tid`. -/
def spawned_tasks (normal_divide_id order node merger : Nat) : Nat → Nat → Nat → List TD
  | _, _, 0 => []
  | slot, tid, n + 1 =>
    { stage_id := normal_divide_id, task_id := tid, order := order, local_ids := [node],
      is_hard := false, data_location := [⟨node, slot⟩], before_dep := [],
      after_dep := set_insert merger [] } ::
    spawned_tasks normal_divide_id order node merger (slot + 1) (tid + 1) n

/-- The cells of node `node` from `slot` on hold the given values. -/
def cells_hold {C : Type} (store : DR → Option C) (node : Nat) : Nat → List C → Prop
  | _, [] => True
  | slot, c :: cs => store ⟨node, slot⟩ = some c ∧ cells_hold store node (slot + 1) cs

/-- Upper bound on the dispatches a sub-tree takes: one per base problem, two
per divided problem. -/
def tree_steps {P R : Type} (ops : DCOps P R) : Nat → P → Nat
  | 0, _ => 0
  | f + 1, x =>
    if ops.predicate x then 1
    else 2 + ((ops.divide x).map (tree_steps ops f)).sum

/-- What the run of the sub-tree of a DIVIDE task with identifier `tid` and
cell `d` leaves behind, from state `s` to state `s'`. -/
structure SubtreeDone {C E : Type} (s s' : State C E) (tid : Nat) (d : DR) (cell : C)
    (queue : List TD) : Prop where
  pending_eq : s'.pending = queue
  submitted_eq : s'.submitted = []
  cell_eq : s'.store d = some cell
  frame : ∀ d' : DR, d'.slot_id < s.next_slot → d' ≠ d → s'.store d' = s.store d'
  slot_le : s.next_slot ≤ s'.next_slot
  task_le : s.next_task ≤ s'.next_task
  node_eq : s'.node = s.node
  done : tid ∈ s'.finished
  fin_mono : ∀ b ∈ s.finished, b ∈ s'.finished
  fin_new : ∀ b ∈ s'.finished, b ∈ s.finished ∨ b = tid ∨ s.next_task ≤ b

/-- Every task of the list waits for an identifier below `bound` that has not
finished. -/
def Blocked (fin : List Nat) (bound : Nat) (ts : List TD) : Prop :=
  ∀ u ∈ ts, ∃ b ∈ u.before_dep, b ∉ fin ∧ b < bound

/-- Every DIVIDE task whose problem the sequential algorithm solves within
depth `f` runs, with the tasks it spawns, to completion: the queue is left as
it was without the task, and the cell holds the sequential result. -/
def SubtreeRuns {P R E : Type} (stages : List (Stage (P × R) E)) (ops : DCOps P R)
    (f : Nat) : Prop :=
  ∀ (x : P) (v : R), seq_divide_conquer ops f x = some v →
  ∀ (s : State (P × R) E) (T : TD) (d : DR) (pre rest : List TD),
    s.pending = pre ++ T :: rest → s.submitted = [] →
    Blocked s.finished T.task_id pre →
    T.stage_id = 1 → T.data_location = [d] → T.before_dep = [] →
    T.task_id < s.next_task → d.slot_id < s.next_slot →
    s.store d = some (x, ops.empty_result) →
    ∃ (n : Nat) (s' : State (P × R) E), steps stages n s = some s' ∧
      n ≤ tree_steps ops f x ∧ SubtreeDone s s' T.task_id d (x, v) (pre ++ rest)

/-- Divide of the sum example: the two halves of the list. -/
def halves (xs : List Int) : List (List Int) :=
  [xs.take (xs.length / 2), xs.drop (xs.length / 2)]

/-- Callables of the sum example: split in halves, stop at length at most one,
solve by returning the element, combine with `+`. -/
def sum_ops : DCOps (List Int) Int :=
  { divide := halves,
    predicate := fun xs => decide (xs.length ≤ 1),
    solve := fun xs => xs.headD 0,
    combine := fun a b => a + b,
    empty_result := 0 }

/-- The sum example with the product as combiner. -/
def prod_ops : DCOps (List Int) Int :=
  { sum_ops with combine := fun a b => a * b }

/-- Callables whose divide returns a single sub-problem: count down to zero. -/
def countdown_ops : DCOps Nat Nat :=
  { divide := fun n => [n - 1],
    predicate := fun n => decide (n = 0),
    solve := fun _ => 1,
    combine := fun a b => a + b,
    empty_result := 0 }

/-- State of a node that holds one cell, slot 0, with a problem and the
value-initialised result. -/
def sample_state {P R : Type} (x : P) (e : R) (alloc : Nat → Bool) : State (P × R) Unit :=
  { (State.fresh 0 alloc () : State (P × R) Unit) with
    store := fun d => if d = ⟨0, 0⟩ then some (x, e) else none,
    next_slot := 1, next_task := 1 }

/-- A DIVIDE task on the cell of `sample_state`. -/
def sample_task : TD :=
  { stage_id := 1, task_id := 0, order := 0, local_ids := [0], is_hard := false,
    data_location := [⟨0, 0⟩], before_dep := [], after_dep := [] }

/-! ## Pipeline -/

/-- Interface of the reduce pattern object (`add_item`, `reduction_needed`,
`reduce_window`), with the state a fresh object starts from. -/
structure Reducer (α Rd : Type) where
  init : Rd
  add_item : Rd → α → Rd
  reduction_needed : Rd → Bool
  reduce_window : Rd → α × Rd

/-- Element of a pipeline chain, by pattern kind.  A plain callable may act on
the user state `U` and returns a value, which is ignored when the callable is
the consumer. -/
inductive Pattern (α U Rd : Type) where
  | plain (op : α → U → α × U)
  | farm (transformer : α → U → α × U)
  | filter (predicate : α → Bool)
  | reduce (reduce_obj : Reducer α Rd)
  | iteration (transform : α → α) (predicate : α → Bool)
  | iteration_pipeline (transformers : List (Pattern α U Rd)) (predicate : α → Bool)
  | pipeline (transformers : List (Pattern α U Rd))

/-- Plain callable without side effect. -/
def pure_op {α U : Type} (f : α → α) : α → U → α × U := fun x u => (f x, u)

/-- Plain callable that only acts on the user state. -/
def sink_op {α U : Type} (c : α → U → U) : α → U → α × U := fun x u => (x, c x u)

/-- Variables the stage closures of a pipeline capture by reference: the
generator callable's state, the `order` counter of `pipeline`, the user state,
and for the reduce stage registered under each identifier its pattern object
and its own `order` counter. -/
structure PipeEnv (G U Rd : Type) where
  gen : G
  order : Nat
  user : U
  red : Nat → Rd
  red_order : Nat → Nat

/-- The task closures `pipeline` and `do_pipeline` register, by overload. -/
inductive StageKind (α G U Rd : Type) where
  | generator (generate_op : G → Option α × G)
  | consumer (consume_op : α → U → α × U)
  | no_pattern (transform_op : α → U → α × U)
  | no_pattern_end (transform_op : α → U → α × U)
  | farm_consumer (farm_obj : α → U → α × U)
  | filter (filter_obj : α → Bool)
  | reduce (reduce_obj : Reducer α Rd)
  | iteration (transform : α → α) (predicate : α → Bool)

/-- What the translation of a pipeline does with the scheduler, in order. -/
inductive Action (α G U Rd : Type) where
  | register (parallel : Bool) (is_source : Bool) (kind : StageKind α G U Rd)
  | run

section Pipeline

variable {α G U Rd : Type}

/-- Abbreviation for the scheduler state of a pipeline run. -/
abbrev PState (α G U Rd : Type) := State (α × Nat) (PipeEnv G U Rd)

/-- Task closure of `pipeline`: the generator stage. -/
def generator_task_func (generate_op : G → Option α × G) :
    StageFn (α × Nat) (PipeEnv G U Rd) := fun t s =>
  let item := generate_op s.env.gen
  let s0 : PState α G U Rd := { s with env := { s.env with gen := item.2 } }
  match item.1 with
  | some v =>
    let (ref, s1) := s0.set t (v, s0.env.order)
    let (tid, s2) := s1.get_task_id
    let next_task : TD :=
      { stage_id := t.stage_id + 1, task_id := tid, order := s2.env.order,
        local_ids := [s2.get_node_id], is_hard := false, data_location := [ref],
        before_dep := [], after_dep := [] }
    let s3 := s2.set_task t next_task false
    let s4 : PState α G U Rd := { s3 with env := { s3.env with order := s3.env.order + 1 } }
    let (gid, s5) := s4.get_task_id
    let gen_task : TD :=
      { stage_id := t.stage_id, task_id := gid, order := s5.env.order,
        local_ids := [s5.get_node_id], is_hard := false, data_location := [],
        before_dep := [], after_dep := [] }
    some (s5.set_task t gen_task true)
  | none => some (s0.finish_task t none)

/-- Task closure of the terminal plain callable. -/
def consumer_task_func (consume_op : α → U → α × U) :
    StageFn (α × Nat) (PipeEnv G U Rd) := fun t s =>
  match t.data_location with
  | [] => none
  | d0 :: _ =>
    match s.get_release t d0 with
    | none => none
    | some (item, s1) =>
      let s2 : PState α G U Rd :=
        { s1 with env := { s1.env with user := (consume_op item.1 s1.env.user).2 } }
      some (s2.finish_task t none)

/-- Task closure of a plain callable followed by other stages; the closure of
the farm transformer (`check` overload) has the same body. -/
def no_pattern_task_func (transform_op : α → U → α × U) :
    StageFn (α × Nat) (PipeEnv G U Rd) := fun t s =>
  match t.data_location with
  | [] => none
  | d0 :: _ =>
    match s.get_release t d0 with
    | none => none
    | some (item, s1) =>
      let out := transform_op item.1 s1.env.user
      let s2 : PState α G U Rd := { s1 with env := { s1.env with user := out.2 } }
      let (ref, s3) := s2.set t (out.1, item.2)
      let (tid, s4) := s3.get_task_id
      let next_task : TD :=
        { stage_id := t.stage_id + 1, task_id := tid, order := t.order,
          local_ids := [s4.get_node_id], is_hard := false, data_location := [ref],
          before_dep := [], after_dep := [] }
      some (s4.set_task t next_task false)

/-- Task closure of the filter stage. -/
def filter_task_func (filter_obj : α → Bool) :
    StageFn (α × Nat) (PipeEnv G U Rd) := fun t s =>
  match t.data_location with
  | [] => none
  | d0 :: _ =>
    match s.get_release t d0 with
    | none => none
    | some (item, s1) =>
      if filter_obj item.1 then
        let (ref, s2) := s1.set t item
        let (tid, s3) := s2.get_task_id
        let next_task : TD :=
          { stage_id := t.stage_id + 1, task_id := tid, order := t.order,
            local_ids := [s3.get_node_id], is_hard := false, data_location := [ref],
            before_dep := [], after_dep := [] }
        some (s3.set_task t next_task false)
      else
        some (s1.finish_task t none)

/-- Task closure of the reduce stage; `key` selects the pattern object and
the `order` counter this closure captured. -/
def reduce_task_func (key : Nat) (reduce_obj : Reducer α Rd) :
    StageFn (α × Nat) (PipeEnv G U Rd) := fun t s =>
  match t.data_location with
  | [] => none
  | d0 :: _ =>
    match s.get_release t d0 with
    | none => none
    | some (item, s1) =>
      let rd := reduce_obj.add_item (s1.env.red key) item.1
      if reduce_obj.reduction_needed rd then
        let red := reduce_obj.reduce_window rd
        let order := s1.env.red_order key
        let s2 : PState α G U Rd :=
          { s1 with env := { s1.env with red := Function.update s1.env.red key red.2,
                                         red_order := Function.update s1.env.red_order key (order + 1) } }
        let (ref, s3) := s2.set t (red.1, order)
        let (tid, s4) := s3.get_task_id
        some (s4.set_task t
          { stage_id := t.stage_id + 1, task_id := tid, order := t.order,
            local_ids := [s4.get_node_id], is_hard := false, data_location := [ref],
            before_dep := [], after_dep := [] } false)
      else
        let s2 : PState α G U Rd :=
          { s1 with env := { s1.env with red := Function.update s1.env.red key rd } }
        some (s2.finish_task t none)

/-- Task closure of the iteration stage. -/
def iteration_task_func (transform : α → α) (predicate : α → Bool) :
    StageFn (α × Nat) (PipeEnv G U Rd) := fun t s =>
  match t.data_location with
  | [] => none
  | d0 :: _ =>
    match s.get_release t d0 with
    | none => none
    | some (item, s1) =>
      let value := transform item.1
      let new_item := (value, item.2)
      if predicate value then
        let (ref, s2) := s1.set t new_item
        let (tid, s3) := s2.get_task_id
        let next_task : TD :=
          { stage_id := t.stage_id + 1, task_id := tid, order := t.order,
            local_ids := [s3.get_node_id], is_hard := false, data_location := [ref],
            before_dep := [], after_dep := [] }
        some (s3.set_task t next_task false)
      else
        let (ref, s2) := s1.set t new_item
        some (s2.set_task t { t with data_location := [ref] } false)

/-- The closure behind a registration; `key` is the identifier the
registration returns. -/
def task_func (key : Nat) : StageKind α G U Rd → StageFn (α × Nat) (PipeEnv G U Rd)
  | .generator generate_op => generator_task_func generate_op
  | .consumer consume_op => consumer_task_func consume_op
  | .no_pattern transform_op => no_pattern_task_func transform_op
  | .no_pattern_end transform_op => no_pattern_task_func transform_op
  | .farm_consumer farm_obj => consumer_task_func farm_obj
  | .filter filter_obj => filter_task_func filter_obj
  | .reduce reduce_obj => reduce_task_func key reduce_obj
  | .iteration transform predicate => iteration_task_func transform predicate

/-- Initial value of the variables a closure captures. -/
def init_closure (key : Nat) : StageKind α G U Rd → PipeEnv G U Rd → PipeEnv G U Rd
  | .generator _, e => { e with order := 0 }
  | .reduce reduce_obj, e =>
    { e with red := Function.update e.red key reduce_obj.init,
             red_order := Function.update e.red_order key 0 }
  | _, e => e

/-- Registration, sequential or parallel after `is_farm`. -/
def register_by (is_farm : Bool) (kind : StageKind α G U Rd) : Action α G U Rd :=
  if is_farm then Action.register true false kind else Action.register false false kind

mutual
/-- Number of constructors of a pattern. -/
def Pattern.weight : Pattern α U Rd → Nat
  | .plain _ => 1
  | .farm _ => 1
  | .filter _ => 1
  | .reduce _ => 1
  | .iteration _ _ => 1
  | .iteration_pipeline ts _ => 1 + Pattern.weights ts
  | .pipeline ts => 1 + Pattern.weights ts
/-- Number of constructors of a chain. -/
def Pattern.weights : List (Pattern α U Rd) → Nat
  | [] => 0
  | t :: ts => Pattern.weight t + Pattern.weights ts
end

/-- The overload set `do_pipeline`, resolved on the first element of the
chain; `none` is a chain the header does not compile (no overload for an empty
remainder, `static_assert` on an iteration over a pipeline).  The fuel bounds
the number of overload resolutions. -/
def do_pipeline_aux : Nat → Bool → List (Pattern α U Rd) → Option (List (Action α G U Rd))
  | 0, _, _ => none
  | _ + 1, _, [] => none
  | _ + 1, _, [.plain consume_op] =>
    some [Action.register false false (.consumer consume_op), Action.run]
  | n + 1, is_farm, .plain transform_op :: other_ops =>
    match do_pipeline_aux n is_farm other_ops with
    | none => none
    | some acts => some (register_by is_farm (.no_pattern transform_op) :: acts)
  | _ + 1, _, [.farm farm_obj] =>
    some [Action.register true false (.farm_consumer farm_obj), Action.run]
  | n + 1, is_farm, .farm farm_obj :: other_ops =>
    match do_pipeline_aux n is_farm other_ops with
    | none => none
    | some acts => some (register_by true (.no_pattern_end farm_obj) :: acts)
  | n + 1, is_farm, .filter filter_obj :: other_ops =>
    match do_pipeline_aux n is_farm other_ops with
    | none => none
    | some acts => some (register_by is_farm (.filter filter_obj) :: acts)
  | n + 1, is_farm, .reduce reduce_obj :: other_ops =>
    match do_pipeline_aux n is_farm other_ops with
    | none => none
    | some acts => some (Action.register false false (.reduce reduce_obj) :: acts)
  | n + 1, is_farm, .iteration transform predicate :: other_ops =>
    match do_pipeline_aux n is_farm other_ops with
    | none => none
    | some acts => some (register_by is_farm (.iteration transform predicate) :: acts)
  | _ + 1, _, .iteration_pipeline _ _ :: _ => none
  | n + 1, is_farm, .pipeline transformers :: other_ops =>
    do_pipeline_aux n is_farm (transformers ++ other_ops)

/-- The private member `do_pipeline` on a chain. -/
def do_pipeline (is_farm : Bool) (chain : List (Pattern α U Rd)) :
    Option (List (Action α G U Rd)) :=
  do_pipeline_aux (Pattern.weights chain + 1) is_farm chain

/-- The member `pipeline`, as the actions it performs: register the generator
stage, then translate the chain. -/
def pipeline (generate_op : G → Option α × G) (chain : List (Pattern α U Rd)) :
    Option (List (Action α G U Rd)) :=
  match do_pipeline false chain with
  | none => none
  | some acts => some (Action.register false true (.generator generate_op) :: acts)

/-- Perform the actions of a translation on a scheduler: a registration
appends to the stage table, `run` runs the table registered so far. -/
def perform (fuel : Nat) : List (Action α G U Rd) → List (Stage (α × Nat) (PipeEnv G U Rd)) →
    PState α G U Rd → Option (PState α G U Rd)
  | [], _, s => some s
  | .register parallel is_source kind :: acts, tbl, s =>
    perform fuel acts (tbl ++ [⟨parallel, is_source, task_func tbl.length kind⟩])
      { s with env := init_closure tbl.length kind s.env }
  | .run :: acts, tbl, s =>
    match run tbl fuel s with
    | none => none
    | some (_, s1) => perform fuel acts tbl s1

/-- The stage table a list of actions registers. -/
def table_of : List (Action α G U Rd) → List (Stage (α × Nat) (PipeEnv G U Rd)) →
    List (Stage (α × Nat) (PipeEnv G U Rd))
  | [], tbl => tbl
  | .register parallel is_source kind :: acts, tbl =>
    table_of acts (tbl ++ [⟨parallel, is_source, task_func tbl.length kind⟩])
  | .run :: acts, tbl => table_of acts tbl

/-- A whole pipeline call on a fresh scheduler of node `node`: the generator
callable starts in state `g0`, the user state in `u0`, every reduce object in
`rd0` until its registration. -/
def pipeline_run (fuel node : Nat) (alloc : Nat → Bool) (g0 : G) (u0 : U) (rd0 : Rd)
    (generate_op : G → Option α × G) (chain : List (Pattern α U Rd)) :
    Option (PState α G U Rd) :=
  match pipeline generate_op chain with
  | none => none
  | some acts =>
    perform fuel acts []
      (State.fresh node alloc ⟨g0, 0, u0, fun _ => rd0, fun _ => 0⟩)

/-- Whether a registered closure is the generator's. -/
def StageKind.is_generator : StageKind α G U Rd → Bool
  | .generator _ => true
  | _ => false

/-- The captured variables after the registrations of a list of actions, the
first of which gets identifier `key`. -/
def env_of : List (Action α G U Rd) → Nat → PipeEnv G U Rd → PipeEnv G U Rd
  | [], _, e => e
  | .register _ _ kind :: acts, key, e => env_of acts (key + 1) (init_closure key kind e)
  | .run :: acts, key, e => env_of acts key e

/-- The scheduler state `run` is called on at the end of a translation. -/
def pipeline_start (acts : List (Action α G U Rd)) (node : Nat) (alloc : Nat → Bool)
    (g0 : G) (u0 : U) (rd0 : Rd) : PState α G U Rd :=
  State.fresh node alloc (env_of acts 0 ⟨g0, 0, u0, fun _ => rd0, fun _ => 0⟩)

/-- Generator callable that yields the elements of a list, then "done". -/
def list_generator : List α → Option α × List α
  | [] => (none, [])
  | x :: xs => (some x, xs)

/-- Values a stage read from its input cells, in the order it read them. -/
def reads_of (stage : Nat) (tr : List (Entry (α × Nat))) : List (α × Nat) :=
  tr.filterMap (fun e =>
    if e.caller.stage_id = stage then
      match e.call with
      | Call.get_release _ v => some v
      | _ => none
    else none)

/-- Tasks a stage submitted, in submission order. -/
def submissions_of {C : Type} (stage : Nat) (tr : List (Entry C)) : List TD :=
  tr.filterMap (fun e =>
    if e.caller.stage_id = stage then
      match e.call with
      | Call.set_task td _ => some td
      | _ => none
    else none)

/-- Cells a stage stored with `set`, in the order it stored them. -/
def stores_of {C : Type} (stage : Nat) (tr : List (Entry C)) : List C :=
  tr.filterMap (fun e =>
    if e.caller.stage_id = stage then
      match e.call with
      | Call.set v _ => some v
      | _ => none
    else none)

/-- Orders under which the generator stage stored its items, and orders of the
successor tasks it submitted, both in emission order. -/
def emitted_orders (s : PState α G U Rd) : List Nat × List Nat :=
  ((stores_of 0 s.trace).map Prod.snd,
   ((submissions_of 0 s.trace).filter (fun t => decide (t.stage_id = 1))).map TD.order)

end Pipeline

/-- A task of stage 0 whose input is the cell of slot 0. -/
def sample_item_task : TD :=
  { stage_id := 0, task_id := 0, order := 0, local_ids := [0], is_hard := false,
    data_location := [⟨0, 0⟩], before_dep := [], after_dep := [] }

/-- State of a node whose queue holds `sample_item_task` and whose slot 0 holds
the item `(x, 0)`. -/
def sample_item_state (x : Int) : PState Int (List Int) (List Int) (List Int) :=
  { (State.fresh 0 (fun _ => true) ⟨[], 0, [], fun _ => [], fun _ => 0⟩ :
      PState Int (List Int) (List Int) (List Int)) with
    store := fun d => if d = ⟨0, 0⟩ then some (x, 0) else none,
    next_slot := 1, next_task := 1, pending := [sample_item_task] }

/-- Consumer that appends what it receives to a list. -/
def collect : Int → List Int → Int × List Int := sink_op (fun x u => u ++ [x])

/-- Chain of the iteration scenario: halve until the predicate `x > 0` holds,
then collect. -/
def halving_chain : List (Pattern Int (List Int) (List Int)) :=
  [Pattern.iteration (fun x => x / 2) (fun x => decide (x > 0)), Pattern.plain collect]

/-- What a finished run of a collecting pipeline shows: the collected values,
and for stage 1 the stage identifiers and the orders of the tasks it submitted
and the cells it stored. -/
def stage_one_summary (s : PState Int (List Int) (List Int) (List Int)) :
    List Int × List Nat × List Nat × List (Int × Nat) :=
  (s.env.user, (submissions_of 1 s.trace).map TD.stage_id,
   (submissions_of 1 s.trace).map TD.order, stores_of 1 s.trace)

/-- Reducer with a window of `w` items and an offset equal to the window:
collects items and reduces them with `+` from `0` once `w` are there. -/
def window_sum (w : Nat) : Reducer Int (List Int) :=
  { init := [],
    add_item := fun items x => items ++ [x],
    reduction_needed := fun items => decide (w ≤ items.length),
    reduce_window := fun items => (items.foldl (fun a b => a + b) 0, []) }

/-- Chain of the reduce scenario: sum every two items, then collect. -/
def pair_sum_chain : List (Pattern Int (List Int) (List Int)) :=
  [Pattern.reduce (window_sum 2), Pattern.plain collect]

/-! ## Observations on translations and traces -/

section Observations

variable {α G U Rd : Type}

mutual
/-- The stages of a pattern once nested pipelines are spliced in. -/
def Pattern.leaves : Pattern α U Rd → List (Pattern α U Rd)
  | .plain op => [.plain op]
  | .farm transformer => [.farm transformer]
  | .filter predicate => [.filter predicate]
  | .reduce reduce_obj => [.reduce reduce_obj]
  | .iteration transform predicate => [.iteration transform predicate]
  | .iteration_pipeline ts predicate => [.iteration_pipeline ts predicate]
  | .pipeline ts => Pattern.leaves_of ts
/-- The stages of a chain once nested pipelines are spliced in. -/
def Pattern.leaves_of : List (Pattern α U Rd) → List (Pattern α U Rd)
  | [] => []
  | t :: ts => Pattern.leaves t ++ Pattern.leaves_of ts
end

/-- The registration `a` is the one of the stage `leaf` under the policy
`outer`: parallel for the transformer of a farm, sequential for a reduce stage
and for the terminal plain callable, `outer` for a plain callable with
successors, a filter and an iteration. -/
def registers_stage (outer : Bool) (a : Action α G U Rd) (leaf : Pattern α U Rd) : Prop :=
  match leaf with
  | .plain op =>
    a = Action.register outer false (.no_pattern op) ∨
    a = Action.register false false (.consumer op)
  | .farm transformer =>
    a = Action.register true false (.no_pattern_end transformer) ∨
    a = Action.register true false (.farm_consumer transformer)
  | .filter predicate => a = Action.register outer false (.filter predicate)
  | .reduce reduce_obj => a = Action.register false false (.reduce reduce_obj)
  | .iteration transform predicate =>
    a = Action.register outer false (.iteration transform predicate)
  | .iteration_pipeline _ _ => False
  | .pipeline _ => False

/-- The `finish_task` calls of a trace: the task each was made on, and its
count argument. -/
def finish_calls {C : Type} (tr : List (Entry C)) : List (TD × Option Nat) :=
  tr.filterMap (fun e =>
    match e.call with
    | Call.finish_task count => some (e.caller, count)
    | _ => none)

/-- The cells a trace released by name: one entry per `get_release` or
`get_release_all` call, in call order. -/
def released_cells {C : Type} (tr : List (Entry C)) : List DR :=
  tr.filterMap (fun e =>
    match e.call with
    | Call.get_release dr _ => some dr
    | Call.get_release_all dr _ => some dr
    | _ => none)

/-- Modelled from the spec: the cells a `finish_task(td, keep_count)` call
releases, which is the scheduler's business (`dist_pool.h`): all input DRs of
`td` except the first `keep_count`, and `keep_count` is 0 when the call leaves
it to its default. -/
def finish_task_releases (td : TD) (keep_count : Option Nat) : List DR :=
  td.data_location.drop (keep_count.getD 0)

/-- Modelled from the spec: the cells one call of a trace releases.
`get_release` releases the cell it reads, and so does `get_release_all`;
`finish_task` releases the cells `finish_task_releases` gives for the task it
is called on; `set`, `get`, `set_task` and `allocate_tokens` release
nothing. -/
def Entry.releases {C : Type} (e : Entry C) : List DR :=
  match e.call with
  | Call.get_release dr _ => [dr]
  | Call.get_release_all dr _ => [dr]
  | Call.finish_task count => finish_task_releases e.caller count
  | _ => []

/-- Modelled from the spec: what a call does to the token pool, which is the
scheduler's (`dist_pool.h`).  Only `allocate_tokens` takes tokens out of the
pool, the `n` it reserves when it succeeds; every release of a cell gives one
token back. -/
def Entry.token_change {C : Type} (e : Entry C) : Int :=
  match e.call with
  | Call.allocate_tokens n ok => if ok then -(n : Int) else 0
  | _ => (e.releases.length : Int)

/-- Modelled from the spec: level of the token pool after a trace, from the
level `initial`. -/
def token_pool {C : Type} (initial : Int) (tr : List (Entry C)) : Int :=
  initial + (tr.map (fun e => e.token_change)).sum

end Observations

/-! ## The execution policy object -/

/-- The data members of the class `parallel_execution_dist_task`.  `Cfg` is the
type of `config_` (`configuration<>`, defined outside this header), `S` the
scheduler that the handle `scheduler_` points to. -/
structure parallel_execution_dist_task (Cfg S : Type) where
  config_ : Cfg
  ordering_ : Bool
  scheduler_ : S

section Facade

variable {Cfg S : Type}

/-- Constructor from a scheduler: the ordering mode is the configured one.
`default_config` is the value-initialised `configuration<>` and
`config_ordering` its member `ordering()`. -/
def parallel_execution_dist_task.of_scheduler (default_config : Cfg)
    (config_ordering : Cfg → Bool) (scheduler : S) : parallel_execution_dist_task Cfg S :=
  { config_ := default_config, ordering_ := config_ordering default_config,
    scheduler_ := scheduler }

/-- Constructor from a scheduler and an explicit ordering flag. -/
def parallel_execution_dist_task.of_scheduler_ordering (default_config : Cfg)
    (scheduler : S) (ordering : Bool) : parallel_execution_dist_task Cfg S :=
  { config_ := default_config, ordering_ := ordering, scheduler_ := scheduler }

/-- The member `enable_ordering`. -/
def parallel_execution_dist_task.enable_ordering (ex : parallel_execution_dist_task Cfg S) :
    parallel_execution_dist_task Cfg S :=
  { ex with ordering_ := true }

/-- The member `disable_ordering`. -/
def parallel_execution_dist_task.disable_ordering (ex : parallel_execution_dist_task Cfg S) :
    parallel_execution_dist_task Cfg S :=
  { ex with ordering_ := false }

/-- The member `is_ordered`. -/
def parallel_execution_dist_task.is_ordered (ex : parallel_execution_dist_task Cfg S) : Bool :=
  ex.ordering_

end Facade

/-! ## Observations on divide and conquer runs -/

/-- The tasks submitted with `set_task`, each with the task whose stage
function submitted it, in submission order. -/
def submission_log {C : Type} (tr : List (Entry C)) : List (TD × TD) :=
  tr.filterMap (fun e =>
    match e.call with
    | Call.set_task td _ => some (e.caller, td)
    | _ => none)

/-- Identifiers of the tasks of a trace that were submitted for a stage other
than MERGE (stage 2 of `divide_conquer`): the child DIVIDE tasks and the END
task. -/
def issued_task_ids {C : Type} (tr : List (Entry C)) : List Nat :=
  ((submission_log tr).filter (fun p => decide (p.2.stage_id ≠ 2))).map (fun p => p.2.task_id)

/-- Identifiers of the MERGE tasks (stage 2 of `divide_conquer`) submitted in
a trace. -/
def merge_task_ids {C : Type} (tr : List (Entry C)) : List Nat :=
  ((submission_log tr).filter (fun p => decide (p.2.stage_id = 2))).map (fun p => p.2.task_id)

/-- Identifiers of the queued INIT and DIVIDE tasks (stages 0 and 1). -/
def queued_divide_ids (pending : List TD) : List Nat :=
  (pending.filter (fun t => decide (t.stage_id ≤ 1))).map TD.task_id

/-- Invariant of a `divide_conquer` run on task identifiers. -/
structure IdsInv {C E : Type} (s : State C E) : Prop where
  submitted_nil : s.submitted = []
  issued_nodup : (0 :: issued_task_ids s.trace).Nodup
  issued_lt : ∀ i ∈ issued_task_ids s.trace, i < s.next_task
  next_pos : 0 < s.next_task
  merge_nodup : (merge_task_ids s.trace).Nodup
  merge_lt : ∀ i ∈ merge_task_ids s.trace, i < s.next_task
  merge_caller : ∀ p ∈ submission_log s.trace, p.2.stage_id = 2 →
    p.2.task_id = p.1.task_id ∧ p.1.stage_id ≤ 1
  stage_range : ∀ p ∈ submission_log s.trace, p.2.stage_id = 1 ∨ p.2.stage_id = 2 ∨ p.2.stage_id = 3
  queued_nodup : (queued_divide_ids s.pending).Nodup
  queued_lt : ∀ i ∈ queued_divide_ids s.pending, i < s.next_task
  queued_unmerged : ∀ i ∈ queued_divide_ids s.pending, i ∉ merge_task_ids s.trace

/-- Invariant of a `divide_conquer` run on the dependencies of the submitted
tasks. -/
structure DepsInv {C E : Type} (s : State C E) : Prop where
  submitted_nil : s.submitted = []
  queued_logged : ∀ T ∈ s.pending, T.stage_id = 1 →
    ∃ parent, (parent, T) ∈ submission_log s.trace
  child_dep : ∀ p ∈ submission_log s.trace, p.2.stage_id = 1 →
    (∃ d, p.2.data_location = [d]) ∧
    ∃ M, (p.1, M) ∈ submission_log s.trace ∧ M.stage_id = 2 ∧ p.2.after_dep = [M.task_id]
  merge_dep : ∀ p ∈ submission_log s.trace, p.2.stage_id = 2 →
    p.2.after_dep = p.1.after_dep ∧
    ((p.1.stage_id = 0 ∧ ∃ END, (p.1, END) ∈ submission_log s.trace ∧ END.stage_id = 3 ∧
        p.2.after_dep = [END.task_id]) ∨
      (p.1.stage_id = 1 ∧ ∃ parent M, (parent, p.1) ∈ submission_log s.trace ∧
        (parent, M) ∈ submission_log s.trace ∧ M.stage_id = 2 ∧
        p.2.after_dep = [M.task_id]))

/-- A MERGE task on the cells of slots 0, 1 and 2. -/
def sample_merge_task : TD :=
  { stage_id := 2, task_id := 0, order := 0, local_ids := [0], is_hard := false,
    data_location := [⟨0, 0⟩, ⟨0, 1⟩, ⟨0, 2⟩], before_dep := [1, 2], after_dep := [] }

/-- State of a node whose slot 0 holds the problem `[1, 2]` with the partial
result 10, and whose slots 1 and 2 hold the solved halves. -/
def sample_merge_state : State (List Int × Int) Unit :=
  { (State.fresh 0 (fun _ => true) () : State (List Int × Int) Unit) with
    store := fun d =>
      if d = ⟨0, 0⟩ then some ([1, 2], 10)
      else if d = ⟨0, 1⟩ then some ([1], 1)
      else if d = ⟨0, 2⟩ then some ([2], 2)
      else none,
    next_slot := 3, next_task := 3, finished := [2, 1] }

/-- The sum example with the difference as combiner. -/
def diff_ops : DCOps (List Int) Int :=
  { sum_ops with combine := fun a b => a - b }

/-! ## Observations on stage closures and chains -/

section StageDefs
variable {α G U Rd : Type}

/-- Whether a registered closure is that of a reduce stage. -/
def StageKind.is_reduce : StageKind α G U Rd → Bool
  | .reduce _ => true
  | _ => false

/-- Whether a registered closure is that of the last stage of a chain: the
terminal plain callable or the terminal farm. -/
def StageKind.is_terminal : StageKind α G U Rd → Bool
  | .consumer _ => true
  | .farm_consumer _ => true
  | _ => false

end StageDefs

section OrderDefs
variable {α G U Rd : Type}

/-- Whether a chain element is a reduce stage. -/
def Pattern.is_reduce : Pattern α U Rd → Bool
  | .reduce _ => true
  | _ => false

/-- The cells stored with `set` in the trace of a pipeline, each with the
order stored in it. -/
def stored_orders (tr : List (Entry (α × Nat))) : List (DR × Nat) :=
  tr.filterMap (fun e =>
    match e.call with
    | Call.set v dr => some (dr, v.2)
    | _ => none)

/-- The submitted tasks of a trace that have an input cell: the cell the
stage of the task will read, `data_location[0]`, and the order of the task. -/
def submitted_inputs {C : Type} (tr : List (Entry C)) : List (DR × Nat) :=
  tr.filterMap (fun e =>
    match e.call with
    | Call.set_task td _ => td.data_location.head?.map (fun d => (d, td.order))
    | _ => none)

/-- Input cells of the queued tasks. -/
def queued_inputs (pending : List TD) : List DR :=
  pending.filterMap (fun T => T.data_location.head?)

/-- Invariant of the run of a pipeline without reduce stages: the input cell
of every queued task holds an item with the order of the task. -/
structure OrderInv (s : PState α G U Rd) : Prop where
  submitted_nil : s.submitted = []
  queued_cell : ∀ T ∈ s.pending, ∀ d ds, T.data_location = d :: ds →
    (∃ x, s.store d = some (x, T.order)) ∧ d.slot_id < s.next_slot
  queued_distinct : (queued_inputs s.pending).Nodup
  logged : ∀ p ∈ submitted_inputs s.trace, p ∈ stored_orders s.trace
  stored_once : ((stored_orders s.trace).map Prod.fst).Nodup
  stored_lt : ∀ p ∈ stored_orders s.trace, p.1.slot_id < s.next_slot

end OrderDefs

section ChainDefs
variable {α G U Rd : Type}

mutual
/-- Whether the header has an overload for a pattern: not for an iteration
over a pipeline (`static_assert`), and a nested pipeline has at least one
transformer. -/
def Pattern.supported : Pattern α U Rd → Bool
  | .plain _ => true
  | .farm _ => true
  | .filter _ => true
  | .reduce _ => true
  | .iteration _ _ => true
  | .iteration_pipeline _ _ => false
  | .pipeline ts => !ts.isEmpty && Pattern.supported_of ts
/-- Whether the header has an overload for every pattern of a chain. -/
def Pattern.supported_of : List (Pattern α U Rd) → Bool
  | [] => true
  | t :: ts => Pattern.supported t && Pattern.supported_of ts
end

/-- Whether a chain element can end a chain: a plain callable, which is then
the consumer, or a farm. -/
def Pattern.is_terminal : Pattern α U Rd → Bool
  | .plain _ => true
  | .farm _ => true
  | _ => false

end ChainDefs

/-! ## OpenMP back end: `map_reduce` -/

/-- The OpenMP execution policy `parallel_execution_omp`, as far as
`omp/mapreduce.h` uses it: its member `map_reduce`, defined outside that
header, called on a tuple of iterators, one to the first element of each input
sequence, the sequence size, the identity value, the transformer and the
combiner. -/
structure parallel_execution_omp (It Identity Transformer Combiner Result : Type) where
  map_reduce : List It → Int → Identity → Transformer → Combiner → Result

section MapReduce

variable {It Identity Transformer Combiner Result : Type}

/-- The free function `map_reduce` on a single data sequence; `distance` is
`std::distance` on the iterator type. -/
def map_reduce (distance : It → It → Int)
    (ex : parallel_execution_omp It Identity Transformer Combiner Result)
    (first last : It) (identity : Identity) (transform_op : Transformer)
    (combine_op : Combiner) : Result :=
  ex.map_reduce [first] (distance first last) identity transform_op combine_op

/-- The free function `map_reduce` on multiple data sequences;
`other_firsts` is the parameter pack of the iterators to the other
sequences. -/
def map_reduce_multi (distance : It → It → Int)
    (ex : parallel_execution_omp It Identity Transformer Combiner Result)
    (first last : It) (identity : Identity) (transform_op : Transformer)
    (combine_op : Combiner) (other_firsts : List It) : Result :=
  ex.map_reduce (first :: other_firsts) (distance first last) identity transform_op combine_op

end MapReduce

/-- The sum example with a combiner that is not associative and has 0 as a
left identity. -/
def skew_ops : DCOps (List Int) Int :=
  { sum_ops with combine := fun a b => 2 * a + b }

/-! ## A scheduler free in its order, and the flow of one pipeline -/

section AnyOrder
variable {C E : Type}

/-- Modelled from the spec: one dispatch by a scheduler that is free to take
any runnable task off the queue, here the one at position `i`.  It runs the
stage function registered under the `stage_id` of the task to completion, then
queues the tasks it submitted.  A position outside the queue, or a task whose
`before_dep` have not all finished, is no dispatch. -/
def dispatch (stages : List (Stage C E)) (i : Nat) (s : State C E) : Option (State C E) :=
  match s.pending.get? i with
  | none => none
  | some t =>
    if ready s.finished t then
      match stages.get? t.stage_id with
      | none => none
      | some st =>
        match st.fn t { s with pending := s.pending.eraseIdx i } with
        | none => none
        | some s' => some s'.enqueue
    else none

/-- Modelled from the spec: the dispatches of a schedule, the list of the
queue positions the scheduler takes its tasks from.  A task leaves the queue
when it is dispatched, so none runs twice, and a run that ends on an empty
queue has run every submitted task exactly once. -/
def dispatches (stages : List (Stage C E)) : List Nat → State C E → Option (State C E)
  | [], s => some s
  | i :: sched, s =>
    match dispatch stages i s with
    | none => none
    | some s' => dispatches stages sched s'

end AnyOrder

section FlowDefs
variable {α U Rd : Type}

/-- The items the consumer of (generator, farm(f), filter(p), consumer) is to
receive from the generator sequence `xs` numbered from `k`: each `f x` that
passes `p`, with the number of `x`. -/
def survivors (f : α → α) (p : α → Bool) (k : Nat) (xs : List α) : List (α × Nat) :=
  (((xs.map f).enumFrom k).filter (fun iy => p iy.2)).map (fun iy => (iy.2, iy.1))

/-- The items the consumer of (generator, farm(f), filter(p), consumer) is
still to receive on account of one queued task: for the generator task what
the rest of the sequence yields, for a task of the farm, of the filter or of
the consumer the item of its input cell if it passes what is left of the
chain. -/
def owed (f : α → α) (p : α → Bool) (s : PState α (List α) U Rd) (t : TD) : List (α × Nat) :=
  match t.stage_id, t.data_location.head?.bind s.store with
  | 0, _ => survivors f p s.env.order s.env.gen
  | 1, some (x, i) => if p (f x) then [(f x, i)] else []
  | 2, some (y, i) => if p y then [(y, i)] else []
  | 3, some (y, i) => [(y, i)]
  | _, _ => []

/-- The number of dispatches one queued task of (generator, farm(f),
filter(p), consumer) can still cause, itself included. -/
def work (s : PState α (List α) U Rd) (t : TD) : Nat :=
  match t.stage_id with
  | 0 => 4 * s.env.gen.length + 1
  | 1 => 3
  | 2 => 2
  | 3 => 1
  | _ => 0

/-- Invariant of the run of (generator, farm(f), filter(p), consumer) under
any schedule: what the consumer has read, together with what the queued tasks
still owe it, is the list `target` up to order. -/
structure FlowInv (f : α → α) (p : α → Bool) (c : α → U → U) (u0 : U)
    (target : List (α × Nat)) (s : PState α (List α) U Rd) : Prop where
  submitted_nil : s.submitted = []
  queued_ready : ∀ t ∈ s.pending, t.before_dep = [] ∧ t.stage_id ≤ 3
  source_once : (s.pending.filter (fun t => decide (t.stage_id = 0))).length ≤ 1
  queued_cell : ∀ t ∈ s.pending, t.stage_id ≠ 0 →
    ∃ d, t.data_location = [d] ∧ ∃ v, s.store d = some v
  queued_old : ∀ d ∈ queued_inputs s.pending, d.slot_id < s.next_slot
  queued_distinct : (queued_inputs s.pending).Nodup
  account : List.Perm (reads_of 3 s.trace ++ s.pending.flatMap (owed f p s)) target
  user : s.env.user = (reads_of 3 s.trace).foldl (fun u y => c y.1 u) u0

end FlowDefs


/-- The schedule that lets the generator of ten items run to its end before
any item task, then takes the item tasks youngest first. -/
def generator_first_schedule : List Nat :=
  0 :: (List.replicate 10 1 ++ List.replicate 25 0)


/-! ## Scheduler lemmas -/

section SchedulerLemmas

variable {C E : Type}

theorem mem_set_insert (x a : Nat) (l : List Nat) : x ∈ set_insert a l ↔ x = a ∨ x ∈ l := by
  induction l with
  | nil => simp [set_insert]
  | cons b bs ih =>
    unfold set_insert
    split_ifs with h1 h2
    · simp
    · subst h2; simp
    · simp [ih]; tauto

theorem steps_add (stages : List (Stage C E)) (m n : Nat) (s : State C E) :
    steps stages (m + n) s = (steps stages m s).bind (steps stages n) := by
  induction m generalizing s with
  | zero => simp [steps]
  | succ m ih =>
    rw [Nat.succ_add]
    simp only [steps]
    cases h : step stages s with
    | none => simp
    | some s1 => simpa using ih s1

theorem steps_trans {stages : List (Stage C E)} {m n : Nat} {s s1 s2 : State C E}
    (h1 : steps stages m s = some s1) (h2 : steps stages n s1 = some s2) :
    steps stages (m + n) s = some s2 := by
  rw [steps_add, h1]; simpa using h2

theorem drained_false_of_step {stages : List (Stage C E)} {s s1 : State C E}
    (h : step stages s = some s1) : drained s = false := by
  unfold step at h
  unfold drained
  cases hp : pick s.finished s.pending with
  | none => simp [hp] at h
  | some p => simp

theorem drain_of_steps {stages : List (Stage C E)} {n : Nat} {s s1 : State C E}
    (h : steps stages n s = some s1) (m : Nat) :
    drain stages (n + m) s = drain stages m s1 := by
  induction n generalizing s with
  | zero => simp [steps] at h; subst h; simp
  | succ n ih =>
    simp only [steps] at h
    cases hs : step stages s with
    | none => simp [hs] at h
    | some s2 =>
      rw [hs] at h
      rw [Nat.succ_add]
      simp only [drain, drained_false_of_step hs, hs]
      simpa using ih h

theorem drain_of_drained (stages : List (Stage C E)) (m : Nat) {s : State C E}
    (h : drained s = true) : drain stages m s = some s := by
  cases m <;> simp [drain, h]

theorem drain_of_steps_drained {stages : List (Stage C E)} {n : Nat} {s s1 : State C E}
    (h : steps stages n s = some s1) (hd : drained s1 = true) (m : Nat) (hm : n ≤ m) :
    drain stages m s = some s1 := by
  obtain ⟨k, rfl⟩ := Nat.exists_eq_add_of_le hm
  rw [drain_of_steps h, drain_of_drained stages k hd]

theorem ready_false_of_blocked {fin : List Nat} {bound : Nat} {ts : List TD}
    (h : Blocked fin bound ts) : ∀ u ∈ ts, ready fin u = false := by
  intro u hu
  obtain ⟨b, hb, hnf, _⟩ := h u hu
  simp only [ready, Bool.eq_false_iff, ne_eq, List.all_eq_true, decide_eq_true_eq, not_forall]
  exact ⟨b, hb, hnf⟩

theorem pick_skip (fin : List Nat) (pre rest : List TD) (t : TD)
    (hpre : ∀ u ∈ pre, ready fin u = false) (ht : ready fin t = true) :
    pick fin (pre ++ t :: rest) = some (t, pre ++ rest) := by
  induction pre with
  | nil => simp [pick, ht]
  | cons u us ih =>
    have hu : ready fin u = false := hpre u (by simp)
    have := ih (fun v hv => hpre v (by simp [hv]))
    simp [pick, hu, this]

theorem pick_none_of_blocked (fin : List Nat) (pre : List TD)
    (hpre : ∀ u ∈ pre, ready fin u = false) : pick fin pre = none := by
  induction pre with
  | nil => simp [pick]
  | cons u us ih =>
    have hu : ready fin u = false := hpre u (by simp)
    have := ih (fun v hv => hpre v (by simp [hv]))
    simp [pick, hu, this]

theorem ready_of_before_dep_nil (fin : List Nat) (t : TD) (h : t.before_dep = []) :
    ready fin t = true := by
  simp [ready, h]

end SchedulerLemmas

/-! ## Divide and conquer: the run of a sub-tree -/

section DCLemmas
variable {P R E : Type}

theorem all_some_map_mono {g g' : P → Option R}
    (h : ∀ y v, g y = some v → g' y = some v) :
    ∀ (l : List P) (rs : List R), all_some (l.map g) = some rs → all_some (l.map g') = some rs := by
  intro l
  induction l with
  | nil => intro rs hrs; simpa [all_some] using hrs
  | cons y ys ih =>
    intro rs hrs
    simp only [List.map_cons] at hrs ⊢
    cases hy : g y with
    | none => simp [hy, all_some] at hrs
    | some v =>
      rw [hy] at hrs
      rw [h y v hy]
      simp only [all_some] at hrs ⊢
      cases hys : all_some (ys.map g) with
      | none => simp [hys] at hrs
      | some l =>
        rw [hys] at hrs
        rw [ih l hys]
        exact hrs

theorem seq_divide_conquer_succ (ops : DCOps P R) (f : Nat) :
    ∀ (x : P) (v : R), seq_divide_conquer ops f x = some v →
      seq_divide_conquer ops (f + 1) x = some v := by
  induction f with
  | zero => intro x v h; simp [seq_divide_conquer] at h
  | succ f ih =>
    intro x v h
    rw [seq_divide_conquer] at h ⊢
    by_cases hp : ops.predicate x = true
    · simpa [hp] using h
    · simp only [hp, if_false] at h ⊢
      cases ha : all_some ((ops.divide x).map (seq_divide_conquer ops f)) with
      | none => simp [ha] at h
      | some rs =>
        rw [ha] at h
        rw [all_some_map_mono ih _ rs ha]
        exact h

theorem seq_divide_conquer_mono (ops : DCOps P R) {f g : Nat} (hfg : f ≤ g) {x : P} {v : R}
    (h : seq_divide_conquer ops f x = some v) : seq_divide_conquer ops g x = some v := by
  induction hfg with
  | refl => exact h
  | step _ ih => exact seq_divide_conquer_succ ops _ x v ih

theorem all_some_length : ∀ (l : List (Option R)) (rs : List R),
    all_some l = some rs → rs.length = l.length := by
  intro l
  induction l with
  | nil => intro rs h; simp [all_some] at h; subst h; rfl
  | cons o os ih =>
    intro rs h
    cases o with
    | none => simp [all_some] at h
    | some r =>
      simp only [all_some] at h
      cases hos : all_some os with
      | none => simp [hos] at h
      | some l' =>
        rw [hos] at h
        simp at h
        subst h
        simp [ih l' hos]

theorem cells_hold_congr {C : Type} {store store' : DR → Option C} {node : Nat} :
    ∀ (cells : List C) (slot : Nat),
      (∀ j, slot ≤ j → j < slot + cells.length → store' ⟨node, j⟩ = store ⟨node, j⟩) →
      cells_hold store node slot cells → cells_hold store' node slot cells := by
  intro cells
  induction cells with
  | nil => intro slot _ _; trivial
  | cons c cs ih =>
    intro slot hag h
    obtain ⟨h1, h2⟩ := h
    refine ⟨?_, ih (slot + 1) ?_ h2⟩
    · rw [hag slot (le_refl _) (by simp)]; exact h1
    · intro j hj hj2
      exact hag j (by omega) (by simp; omega)

theorem spawn_loop_spec (ops : DCOps P R) (nid : Nat) (task merger : TD) :
    ∀ (subs : List P) (locs : List DR) (deps : List Nat) (s : State (P × R) E),
      (spawn_loop ops nid task merger subs locs deps s).1
          = locs ++ spawned_refs s.node s.next_slot subs.length ∧
      (∀ x, x ∈ (spawn_loop ops nid task merger subs locs deps s).2.1 ↔
          x ∈ deps ∨ (s.next_task ≤ x ∧ x < s.next_task + subs.length)) ∧
      (spawn_loop ops nid task merger subs locs deps s).2.2.submitted
          = s.submitted ++ spawned_tasks nid task.order s.node merger.task_id
              s.next_slot s.next_task subs.length ∧
      (spawn_loop ops nid task merger subs locs deps s).2.2.next_slot
          = s.next_slot + subs.length ∧
      (spawn_loop ops nid task merger subs locs deps s).2.2.next_task
          = s.next_task + subs.length ∧
      (spawn_loop ops nid task merger subs locs deps s).2.2.node = s.node ∧
      (spawn_loop ops nid task merger subs locs deps s).2.2.pending = s.pending ∧
      (spawn_loop ops nid task merger subs locs deps s).2.2.finished = s.finished ∧
      cells_hold (spawn_loop ops nid task merger subs locs deps s).2.2.store s.node s.next_slot
          (subs.map (fun x => (x, ops.empty_result))) ∧
      (∀ d' : DR, d'.slot_id < s.next_slot →
          (spawn_loop ops nid task merger subs locs deps s).2.2.store d' = s.store d') := by
  intro subs
  induction subs with
  | nil =>
    intro locs deps s
    simp [spawn_loop, spawned_refs, spawned_tasks, cells_hold]
  | cons sub subs ih =>
    intro locs deps s
    obtain ⟨h1, h2, h3, h4, h5, h6, h7, h8, h9, h10⟩ := ih (locs ++ [⟨s.node, s.next_slot⟩])
      (set_insert s.next_task deps)
      (((s.set task (sub, ops.empty_result)).2.get_task_id.2).set_task task
        (TD.mk nid s.next_task task.order [s.node] false [⟨s.node, s.next_slot⟩] []
          (set_insert merger.task_id [])) false)
    simp only [spawn_loop, State.set, State.get_task_id, State.set_task, State.get_node_id]
    simp only [State.set, State.get_task_id, State.set_task, State.get_node_id]
      at h1 h2 h3 h4 h5 h6 h7 h8 h9 h10
    refine ⟨?_, ?_, ?_, ?_, ?_, h6, h7, h8, ?_, ?_⟩
    · rw [h1]; simp [spawned_refs]
    · intro x; rw [h2, mem_set_insert]; simp only [List.length_cons]
      constructor
      · rintro ((h | h) | h)
        · right; omega
        · left; exact h
        · right; omega
      · rintro (h | h)
        · left; right; exact h
        · by_cases hx : x = s.next_task
          · left; left; exact hx
          · right; omega
    · rw [h3]; simp [spawned_tasks]
    · rw [h4]; simp; omega
    · rw [h5]; simp; omega
    · refine ⟨?_, h9⟩
      rw [h10 ⟨s.node, s.next_slot⟩ (by simp)]
      simp
    · intro d' hd'
      rw [h10 d' (by omega)]
      have : d' ≠ ⟨s.node, s.next_slot⟩ := by
        intro h; rw [h] at hd'; simp at hd'
      simp [Function.update_noteq this]
theorem merge_loop_spec (ops : DCOps P R) (task : TD) (node : Nat) :
    ∀ (cells : List (P × R)) (slot : Nat) (data : P × R) (s : State (P × R) E),
      cells_hold s.store node slot cells →
      ∃ s' : State (P × R) E,
        merge_loop ops task (spawned_refs node slot cells.length) data s
          = some ((data.1, (cells.map Prod.snd).foldl ops.combine data.2), s') ∧
        s'.pending = s.pending ∧ s'.submitted = s.submitted ∧ s'.finished = s.finished ∧
        s'.next_slot = s.next_slot ∧ s'.next_task = s.next_task ∧ s'.node = s.node ∧
        (∀ d' : DR, (d'.node_id ≠ node ∨ d'.slot_id < slot ∨ slot + cells.length ≤ d'.slot_id) →
          s'.store d' = s.store d') := by
  intro cells
  induction cells with
  | nil =>
    intro slot data s _
    exact ⟨s, by simp [merge_loop, spawned_refs]⟩
  | cons c cs ih =>
    intro slot data s h
    obtain ⟨h1, h2⟩ := h
    have hs1 : cells_hold (Function.update s.store ⟨node, slot⟩ none) node (slot + 1) cs := by
      refine cells_hold_congr cs (slot + 1) ?_ h2
      intro j hj _
      have : (⟨node, j⟩ : DR) ≠ ⟨node, slot⟩ := by
        intro h; injection h with _ h; omega
      simp [Function.update_noteq this]
    obtain ⟨s', e1, e2, e3, e4, e5, e6, e7, e8⟩ := ih (slot + 1) (data.1, ops.combine data.2 c.2)
      { s with store := Function.update s.store ⟨node, slot⟩ none,
               trace := s.trace ++ [⟨task, Call.get_release ⟨node, slot⟩ c⟩] } hs1
    refine ⟨s', ?_, e2, e3, e4, e5, e6, e7, ?_⟩
    · simp only [List.length_cons, spawned_refs, merge_loop, State.get_release, h1]
      rw [e1]; simp
    · intro d' hd'
      rw [e8 d' (by simp only [List.length_cons] at hd'; omega)]
      have : d' ≠ ⟨node, slot⟩ := by
        intro h; rw [h] at hd'; simp at hd'
      simp [Function.update_noteq this]

theorem children_run (stages : List (Stage (P × R) E)) (ops : DCOps P R) (f : Nat)
    (hA : SubtreeRuns stages ops f) :
    ∀ (subs : List P) (rs : List R),
      all_some (subs.map (seq_divide_conquer ops f)) = some rs →
    ∀ (s : State (P × R) E) (slot tid order mid : Nat) (pre rest : List TD),
      s.pending = pre ++ spawned_tasks 1 order s.node mid slot tid subs.length ++ rest →
      s.submitted = [] → Blocked s.finished tid pre →
      tid + subs.length ≤ s.next_task → slot + subs.length ≤ s.next_slot →
      cells_hold s.store s.node slot (subs.map (fun x => (x, ops.empty_result))) →
      ∃ (n : Nat) (s' : State (P × R) E), steps stages n s = some s' ∧
        n ≤ (subs.map (tree_steps ops f)).sum ∧
        s'.pending = pre ++ rest ∧ s'.submitted = [] ∧
        cells_hold s'.store s.node slot (subs.zip rs) ∧
        (∀ d' : DR, d'.slot_id < s.next_slot →
          (d'.node_id ≠ s.node ∨ d'.slot_id < slot ∨ slot + subs.length ≤ d'.slot_id) →
          s'.store d' = s.store d') ∧
        s.next_slot ≤ s'.next_slot ∧ s.next_task ≤ s'.next_task ∧ s'.node = s.node ∧
        (∀ i, tid ≤ i → i < tid + subs.length → i ∈ s'.finished) ∧
        (∀ b ∈ s.finished, b ∈ s'.finished) ∧
        (∀ b ∈ s'.finished, b ∈ s.finished ∨ tid ≤ b) := by
  intro subs
  induction subs with
  | nil =>
    intro rs _ s slot tid order mid pre rest hp hsub _ _ _ _
    refine ⟨0, s, rfl, by simp, ?_, hsub, trivial, ?_, le_refl _, le_refl _, rfl, ?_, ?_, ?_⟩
    · simpa [spawned_tasks] using hp
    · intro d' _ _; rfl
    · intro i h1 h2; simp at h2; omega
    · intro b hb; exact hb
    · intro b hb; exact Or.inl hb
  | cons x xs ih =>
    intro rs hrs s slot tid order mid pre rest hp hsub hbl htid hslot hcells
    simp only [List.map_cons] at hrs
    cases hx : seq_divide_conquer ops f x with
    | none => simp [hx, all_some] at hrs
    | some r =>
      rw [hx] at hrs
      simp only [all_some] at hrs
      cases hxs : all_some (xs.map (seq_divide_conquer ops f)) with
      | none => simp [hxs] at hrs
      | some rs' =>
        rw [hxs] at hrs
        simp only [Option.some.injEq] at hrs
        subst hrs
        simp only [List.length_cons] at htid hslot hp
        simp only [List.map_cons, cells_hold] at hcells
        obtain ⟨hc1, hc2⟩ := hcells
        simp only [spawned_tasks, List.cons_append, List.append_assoc] at hp
        obtain ⟨n1, s1, hst1, hn1, hd1⟩ := hA x r hx s _ ⟨s.node, slot⟩ pre _ hp hsub hbl rfl rfl rfl
          (by simp only []; omega) (by simp only []; omega) hc1
        have hbl1 : Blocked s1.finished (tid + 1) pre := by
          intro u hu
          obtain ⟨b, hb, hnf, hlt⟩ := hbl u hu
          refine ⟨b, hb, ?_, by omega⟩
          intro hb1
          rcases hd1.fin_new b hb1 with h | h | h
          · exact hnf h
          · simp only [] at h; omega
          · omega
        have hcells1 : cells_hold s1.store s1.node (slot + 1)
            (xs.map (fun x => (x, ops.empty_result))) := by
          rw [hd1.node_eq]
          refine cells_hold_congr _ (slot + 1) ?_ hc2
          intro j hj hj2
          simp only [List.length_map] at hj2
          apply hd1.frame
          · simp only []; omega
          · intro h; injection h with _ h; omega
        obtain ⟨n2, s2, hst2, hn2, hp2, hsub2, hcells2, hfr2, hsl2, htk2, hnode2, hfin2, hmono2, hnew2⟩ :=
          ih rs' hxs s1 (slot + 1) (tid + 1) order mid pre rest
            (by rw [hd1.pending_eq, hd1.node_eq]; simp)
            hd1.submitted_eq hbl1
            (by have := hd1.task_le; omega) (by have := hd1.slot_le; omega) hcells1
        refine ⟨n1 + n2, s2, steps_trans hst1 hst2, ?_, hp2, hsub2, ?_, ?_, ?_, ?_, ?_, ?_, ?_, ?_⟩
        · simp only [List.map_cons, List.sum_cons]; omega
        · simp only [List.zip_cons_cons, cells_hold]
          refine ⟨?_, ?_⟩
          · rw [hfr2 ⟨s.node, slot⟩ (by have := hd1.slot_le; simp only []; omega)
              (by right; left; simp)]
            exact hd1.cell_eq
          · rw [← hd1.node_eq]; exact hcells2
        · intro d' hd' hout
          simp only [List.length_cons] at hout
          rw [hfr2 d' (by have := hd1.slot_le; omega) (by rw [hd1.node_eq]; omega)]
          apply hd1.frame d' hd'
          intro h; rw [h] at hout; simp at hout
        · have := hd1.slot_le; omega
        · have := hd1.task_le; omega
        · rw [hnode2, hd1.node_eq]
        · intro i hi1 hi2
          simp only [List.length_cons] at hi2
          by_cases hi : i = tid
          · subst hi; exact hmono2 _ hd1.done
          · exact hfin2 i (by omega) (by omega)
        · intro b hb; exact hmono2 b (hd1.fin_mono b hb)
        · intro b hb
          rcases hnew2 b hb with h | h
          · rcases hd1.fin_new b h with h | h | h
            · exact Or.inl h
            · right; simp only [] at h; omega
            · right; omega
          · right; omega
theorem stages_get_one (ops : DCOps P R) (fuel : Nat) (input : P) :
    (divide_conquer_stages ops fuel input : List (Stage (P × R) E)).get? 1
      = some ⟨true, true, normal_divide_function ops fuel 2 1⟩ := rfl

theorem stages_get_two (ops : DCOps P R) (fuel : Nat) (input : P) :
    (divide_conquer_stages ops fuel input : List (Stage (P × R) E)).get? 2
      = some ⟨true, false, merge_function ops⟩ := rfl

theorem step_of_pick {C E : Type} (stages : List (Stage C E)) (s s1 : State C E) (t : TD)
    (pre rest : List TD) (st : Stage C E)
    (hp : s.pending = pre ++ t :: rest)
    (hpre : ∀ u ∈ pre, ready s.finished u = false) (ht : ready s.finished t = true)
    (hst : stages.get? t.stage_id = some st)
    (hfn : st.fn t { s with pending := pre ++ rest } = some s1) :
    step stages s = some s1.enqueue := by
  unfold step
  rw [hp, pick_skip s.finished pre rest t hpre ht]
  simp only [hst, hfn]

theorem steps_one {C E : Type} {stages : List (Stage C E)} {s s1 : State C E}
    (h : step stages s = some s1) : steps stages 1 s = some s1 := by
  simp [steps, h]

theorem foldl_left_id (ops : DCOps P R) (h_id : ∀ r, ops.combine ops.empty_result r = r)
    (r : R) (rs : List R) :
    (r :: rs).foldl ops.combine ops.empty_result = rs.foldl ops.combine r := by
  simp [List.foldl, h_id]

theorem subtree_done_of_fields {C E : Type} {s s' : State C E} {tid : Nat} {d : DR} {cell : C}
    {q : List TD} (hp : s'.pending = q) (hs : s'.submitted = [])
    (hstore : s'.store = Function.update s.store d (some cell))
    (h1 : s'.next_slot = s.next_slot) (h2 : s'.next_task = s.next_task) (h3 : s'.node = s.node)
    (h4 : s'.finished = tid :: s.finished) : SubtreeDone s s' tid d cell q := by
  constructor
  · exact hp
  · exact hs
  · rw [hstore]; simp
  · intro d' _ hne; rw [hstore]; simp [Function.update_noteq hne]
  · rw [h1]
  · rw [h2]
  · exact h3
  · rw [h4]; simp
  · intro b hb; rw [h4]; simp [hb]
  · intro b hb; rw [h4] at hb; simp at hb; tauto

theorem divide_node_run (ops : DCOps P R) (h_id : ∀ r, ops.combine ops.empty_result r = r)
    (fuel : Nat) (input : P) (f : Nat) (hf : f + 1 ≤ fuel)
    (hA : SubtreeRuns (divide_conquer_stages ops fuel input : List (Stage (P × R) E)) ops f)
    (x : P) (v : R) (hv : seq_divide_conquer ops (f + 1) x = some v)
    (sa : State (P × R) E) (T : TD) (d : DR)
    (hloc : T.data_location = [d]) (hstore : sa.store d = some (x, ops.empty_result))
    (hslot : d.slot_id < sa.next_slot)
    (hbl : Blocked sa.finished sa.next_task sa.submitted) :
    ∃ s4 : State (P × R) E, normal_divide_function ops fuel 2 1 T sa = some s4 ∧
      ∃ (n : Nat) (s' : State (P × R) E),
        steps (divide_conquer_stages ops fuel input) n s4.enqueue = some s' ∧
        n + 1 ≤ tree_steps ops (f + 1) x ∧
        SubtreeDone sa s' T.task_id d (x, v) (sa.submitted ++ sa.pending) := by
  have hvfuel := seq_divide_conquer_mono ops hf hv
  rw [seq_divide_conquer] at hv
  by_cases hp : ops.predicate x = true
  · -- base problem
    simp only [hp, if_true, Option.some.injEq] at hv
    subst hv
    refine ⟨_, by simp [normal_divide_function, hloc, State.get, hstore, hp]; rfl, 0, _, rfl, ?_, ?_⟩
    · simp [tree_steps, hp]
    · exact subtree_done_of_fields rfl rfl rfl rfl rfl rfl rfl
  · simp only [Bool.not_eq_true] at hp
    simp only [hp, Bool.false_eq_true, if_false] at hv
    cases hall : all_some ((ops.divide x).map (seq_divide_conquer ops f)) with
    | none => simp [hall] at hv
    | some rs0 =>
      rw [hall] at hv
      cases rs0 with
      | nil => simp at hv
      | cons r rs' =>
        simp only [Option.some.injEq] at hv
        have hlen := all_some_length _ _ hall
        simp only [List.length_map, List.length_cons] at hlen
        by_cases hal : sa.alloc sa.alloc_calls = true
        · -- parallel case
          obtain ⟨h1, h2, h3, h4, h5, h6, h7, h8, h9, h10⟩ :=
            spawn_loop_spec ops 1 T
              (TD.mk 2 T.task_id T.order T.local_ids T.is_hard [] [] T.after_dep)
              (ops.divide x) [d] []
              ((State.allocate_tokens
                ({ sa with trace := sa.trace ++ [⟨T, Call.get d (x, ops.empty_result)⟩] } :
                  State (P × R) E) T (ops.divide x).length).2)
          have hfn : normal_divide_function ops fuel 2 1 T sa = some
              (State.set_task (spawn_loop ops 1 T
                (TD.mk 2 T.task_id T.order T.local_ids T.is_hard [] [] T.after_dep)
                (ops.divide x) [d] []
                ((State.allocate_tokens
                  ({ sa with trace := sa.trace ++ [⟨T, Call.get d (x, ops.empty_result)⟩] } :
                    State (P × R) E) T (ops.divide x).length).2)).2.2 T
                (TD.mk 2 T.task_id T.order T.local_ids T.is_hard
                  (spawn_loop ops 1 T
                    (TD.mk 2 T.task_id T.order T.local_ids T.is_hard [] [] T.after_dep)
                    (ops.divide x) [d] []
                    ((State.allocate_tokens
                      ({ sa with trace := sa.trace ++ [⟨T, Call.get d (x, ops.empty_result)⟩] } :
                        State (P × R) E) T (ops.divide x).length).2)).1
                  (spawn_loop ops 1 T
                    (TD.mk 2 T.task_id T.order T.local_ids T.is_hard [] [] T.after_dep)
                    (ops.divide x) [d] []
                    ((State.allocate_tokens
                      ({ sa with trace := sa.trace ++ [⟨T, Call.get d (x, ops.empty_result)⟩] } :
                        State (P × R) E) T (ops.divide x).length).2)).2.1
                  T.after_dep) false) := by
            simp [normal_divide_function, hloc, State.get, hstore, hp, State.allocate_tokens, hal]
          generalize spawn_loop ops 1 T
              (TD.mk 2 T.task_id T.order T.local_ids T.is_hard [] [] T.after_dep)
              (ops.divide x) [d] []
              ((State.allocate_tokens
                ({ sa with trace := sa.trace ++ [⟨T, Call.get d (x, ops.empty_result)⟩] } :
                  State (P × R) E) T (ops.divide x).length).2) = sp at h1 h2 h3 h4 h5 h6 h7 h8 h9 h10 hfn
          simp only [State.allocate_tokens] at h1 h2 h3 h4 h5 h6 h7 h8 h9 h10
          refine ⟨_, hfn, ?_⟩
          obtain ⟨M, hM⟩ : ∃ M : TD,
            M = TD.mk 2 T.task_id T.order T.local_ids T.is_hard sp.1 sp.2.1 T.after_dep := ⟨_, rfl⟩
          rw [← hM]
          have hMloc : M.data_location = d :: spawned_refs sa.node sa.next_slot (ops.divide x).length := by
            rw [hM]; simpa using h1
          have hMbd : M.before_dep = sp.2.1 := by rw [hM]
          have hMid : M.task_id = T.task_id := by rw [hM]
          have hMst : M.stage_id = 2 := by rw [hM]
          clear hM
          obtain ⟨s5, hs5⟩ : ∃ s5, s5 = (sp.2.2.set_task T M false).enqueue := ⟨_, rfl⟩
          rw [← hs5]
          have e_node : s5.node = sa.node := by rw [hs5]; exact h6
          have e_pending : s5.pending = sa.submitted ++ spawned_tasks 1 T.order s5.node T.task_id
              sa.next_slot sa.next_task (ops.divide x).length ++ (M :: sa.pending) := by
            rw [e_node, hs5]; simp [State.enqueue, State.set_task, h3, h7]
          have e_sub : s5.submitted = [] := by rw [hs5]; rfl
          have e_fin : s5.finished = sa.finished := by rw [hs5]; exact h8
          have e_slot : s5.next_slot = sa.next_slot + (ops.divide x).length := by rw [hs5]; exact h4
          have e_task : s5.next_task = sa.next_task + (ops.divide x).length := by rw [hs5]; exact h5
          have e_store : s5.store = sp.2.2.store := by rw [hs5]; rfl
          obtain ⟨nB, s6, hst6, hnB, hp6, hsub6, hcells6, hfr6, hsl6, htk6, hnode6, hfin6, hmono6, hnew6⟩ :=
            children_run _ ops f hA (ops.divide x) (r :: rs') hall s5 sa.next_slot sa.next_task
              T.order T.task_id sa.submitted (M :: sa.pending) e_pending e_sub
              (by rw [e_fin]; exact hbl) (by omega) (by omega) (by rw [e_store, e_node]; exact h9)
          -- the merger is the first task that may run
          have hpre6 : ∀ u ∈ sa.submitted, ready s6.finished u = false := by
            apply @ready_false_of_blocked s6.finished sa.next_task sa.submitted
            intro u hu
            obtain ⟨b, hb, hnf, hlt⟩ := hbl u hu
            refine ⟨b, hb, ?_, hlt⟩
            intro hb6
            rcases hnew6 b hb6 with h | h
            · rw [e_fin] at h; exact hnf h
            · omega
          have hreadyM : ready s6.finished M = true := by
            simp only [ready, List.all_eq_true, decide_eq_true_eq, hMbd]
            intro b hb
            rw [h2] at hb
            rcases hb with hb | hb
            · simp at hb
            · exact hfin6 b hb.1 hb.2
          have hstore6 : s6.store d = some (x, ops.empty_result) := by
            rw [hfr6 d (by omega) (by right; left; exact hslot), e_store, h10 d hslot]
            exact hstore
          have hzip : ((ops.divide x).zip (r :: rs')).length = (ops.divide x).length := by
            simp [List.length_zip, ← hlen]
          obtain ⟨s7, hm7, m2, m3, m4, m5, m6, m7, m8⟩ := merge_loop_spec ops M sa.node
            ((ops.divide x).zip (r :: rs')) sa.next_slot (x, ops.empty_result)
            ({ s6 with pending := sa.submitted ++ sa.pending,
                       trace := s6.trace ++ [⟨M, Call.get d (x, ops.empty_result)⟩] } :
              State (P × R) E) (by rw [← e_node]; exact hcells6)
          rw [hzip] at hm7 m8
          simp only [] at m2 m3 m4 m5 m6 m7 m8
          have hsnd : ((ops.divide x).zip (r :: rs')).map Prod.snd = r :: rs' :=
            List.map_snd_zip _ _ (by simp [← hlen])
          rw [hsnd, foldl_left_id ops h_id, hv] at hm7
          have hfnM : merge_function ops M
              ({ s6 with pending := sa.submitted ++ sa.pending } : State (P × R) E) = some
              ((s7.set_at M (x, v) d).finish_task M (some (M.data_location.length - 1))) := by
            simp only [merge_function, hMloc, State.get, hstore6]
            rw [hm7]
          have hstepM := step_of_pick (divide_conquer_stages ops fuel input) s6 _ M sa.submitted
            sa.pending _ hp6 hpre6 hreadyM (by rw [hMst]; exact stages_get_two ops fuel input) hfnM
          refine ⟨nB + 1, _, steps_trans hst6 (steps_one hstepM), ?_, ?_⟩
          · simp only [tree_steps, hp, Bool.false_eq_true, if_false]; omega
          · constructor
            · simp [State.enqueue, State.finish_task, State.set_at, m2, m3, hsub6]
            · rfl
            · simp [State.enqueue, State.finish_task, State.set_at]
            · intro d' hd' hne
              simp only [State.enqueue, State.finish_task, State.set_at]
              rw [Function.update_noteq hne, m8 d' (by right; left; exact hd')]
              rw [hfr6 d' (by omega) (by right; left; exact hd'), e_store, h10 d' hd']
            · simp only [State.enqueue, State.finish_task, State.set_at, m5]; omega
            · simp only [State.enqueue, State.finish_task, State.set_at, m6]; omega
            · simp only [State.enqueue, State.finish_task, State.set_at, m7]; rw [hnode6, e_node]
            · simp [State.enqueue, State.finish_task, State.set_at, hMid]
            · intro b hb
              simp only [State.enqueue, State.finish_task, State.set_at, m4, List.mem_cons]
              right; exact hmono6 b (by rw [e_fin]; exact hb)
            · intro b hb
              simp only [State.enqueue, State.finish_task, State.set_at, m4, List.mem_cons] at hb
              rcases hb with hb | hb
              · right; left; rw [hb, hMid]
              · rcases hnew6 b hb with h | h
                · left; rw [e_fin] at h; exact h
                · right; right; exact h
        · -- sequential fall-back
          simp only [Bool.not_eq_true] at hal
          refine ⟨_, by simp [normal_divide_function, hloc, State.get, hstore, hp,
            State.allocate_tokens, hal, hvfuel]; rfl, 0, _, rfl, ?_, ?_⟩
          · simp [tree_steps, hp]; omega
          · subst hv
            exact subtree_done_of_fields rfl rfl rfl rfl rfl rfl rfl
theorem subtree_runs (ops : DCOps P R) (h_id : ∀ r, ops.combine ops.empty_result r = r)
    (fuel : Nat) (input : P) :
    ∀ f, f ≤ fuel →
      SubtreeRuns (divide_conquer_stages ops fuel input : List (Stage (P × R) E)) ops f := by
  intro f
  induction f with
  | zero =>
    intro _ x v hv
    simp [seq_divide_conquer] at hv
  | succ f ih =>
    intro hf x v hv s T d pre rest hp hsub hbl hst hloc hbd htid hslot hstore
    obtain ⟨s4, hfn, n, s', hsteps, hn, hd⟩ := divide_node_run ops h_id fuel input f hf
      (ih (by omega)) x v hv ({ s with pending := pre ++ rest } : State (P × R) E) T d hloc hstore
      hslot (by simp only [hsub]; intro u hu; simp at hu)
    have hstep := step_of_pick (divide_conquer_stages ops fuel input) s s4 T pre rest _ hp
      (ready_false_of_blocked hbl) (ready_of_before_dep_nil _ _ hbd)
      (by rw [hst]; exact stages_get_one ops fuel input) hfn
    refine ⟨1 + n, s', steps_trans (steps_one hstep) hsteps, by omega, ?_⟩
    exact ⟨by simpa [hsub] using hd.pending_eq, hd.submitted_eq, hd.cell_eq, hd.frame, hd.slot_le,
      hd.task_le, hd.node_eq, hd.done, hd.fin_mono, hd.fin_new⟩

theorem stages_get_zero (ops : DCOps P R) (fuel : Nat) (input : P) :
    (divide_conquer_stages ops fuel input : List (Stage (P × R) E)).get? 0
      = some ⟨true, true, init_divide_function ops fuel 2 1 3 input⟩ := rfl

theorem stages_get_three (ops : DCOps P R) (fuel : Nat) (input : P) :
    (divide_conquer_stages ops fuel input : List (Stage (P × R) E)).get? 3
      = some ⟨true, false, ending_function⟩ := rfl

theorem run_of_steps {C E : Type} {stages : List (Stage C E)} {n : Nat} {s s1 : State C E}
    (t : TD) (h : steps stages n s.launch = some s1) (hd : s1.pending = []) (ht : s1.terminal = some t)
    (m : Nat) (hm : n ≤ m) : run stages m s = some (t, s1) := by
  have hdr : drained s1 = true := by simp [drained, hd, pick]
  simp [run, drain_of_steps_drained h hdr m hm, ht]

theorem divide_conquer_of_seq (ops : DCOps P R) (h_id : ∀ r, ops.combine ops.empty_result r = r)
    (node : Nat) (alloc : Nat → Bool) (input : P) (f : Nat) (v : R)
    (hv : seq_divide_conquer ops f input = some v) (m : Nat) (hfm : f ≤ m)
    (hm : tree_steps ops f input + 1 ≤ m) :
    divide_conquer ops m node alloc input = some v := by
  cases f with
  | zero => simp [seq_divide_conquer] at hv
  | succ f =>
    obtain ⟨T0, hT0⟩ : ∃ T : TD, T = TD.mk 0 0 0 [node] false [] [] [] := ⟨_, rfl⟩
    obtain ⟨T, hT⟩ : ∃ T : TD, T = TD.mk 0 0 0 [node] false [⟨node, 0⟩] [] (set_insert 1 []) :=
      ⟨_, rfl⟩
    obtain ⟨END, hEND⟩ : ∃ t : TD, t = TD.mk 3 1 0 [node] false [⟨node, 0⟩] (set_insert 0 []) [] :=
      ⟨_, rfl⟩
    obtain ⟨s0, hs0⟩ : ∃ s0 : State (P × R) Unit, s0 = (State.fresh node alloc ()).launch :=
      ⟨_, rfl⟩
    obtain ⟨sa, hsa⟩ : ∃ sa : State (P × R) Unit, sa =
        ((((({ s0 with pending := [] } : State (P × R) Unit)).set T0
          (input, ops.empty_result)).2.get_task_id.2).set_task T END true) := ⟨_, rfl⟩
    have hinit : init_divide_function ops m 2 1 3 input T0
        ({ s0 with pending := [] } : State (P × R) Unit) = normal_divide_function ops m 2 1 T sa := by
      rw [hsa, hT, hEND, hs0, hT0]; rfl
    have hsa_sub : sa.submitted = [END] := by rw [hsa, hs0]; rfl
    have hsa_pend : sa.pending = [] := by rw [hsa]; rfl
    have hsa_fin : sa.finished = [] := by rw [hsa, hs0]; rfl
    have hsa_task : sa.next_task = 2 := by rw [hsa, hs0]; rfl
    have hsa_slot : sa.next_slot = 1 := by rw [hsa, hs0]; rfl
    have hsa_store : sa.store ⟨node, 0⟩ = some (input, ops.empty_result) := by
      rw [hsa, hs0]; simp [State.set_task, State.get_task_id, State.set, State.launch, State.fresh]
    have hbl : Blocked sa.finished sa.next_task sa.submitted := by
      rw [hsa_sub, hsa_fin, hsa_task]
      intro u hu
      simp only [List.mem_singleton] at hu
      subst hu
      exact ⟨0, by rw [hEND]; simp [set_insert], by simp, by omega⟩
    obtain ⟨s4, hfn, n, s', hsteps, hn, hd⟩ := divide_node_run ops h_id m input f (by omega)
      (subtree_runs ops h_id m input f (by omega)) input v hv sa T ⟨node, 0⟩ (by rw [hT]) hsa_store
      (by rw [hsa_slot]; simp) hbl
    rw [← hinit] at hfn
    have hstep0 : step (divide_conquer_stages ops m input) s0 = some s4.enqueue :=
      step_of_pick (divide_conquer_stages ops m input) s0 s4 T0 [] [] _
        (by rw [hs0, hT0]; rfl) (by simp) (ready_of_before_dep_nil _ _ (by rw [hT0]))
        (by rw [hT0]; exact stages_get_zero ops m input) hfn
    have hp' : s'.pending = [] ++ END :: [] := by
      rw [hd.pending_eq, hsa_sub, hsa_pend]; rfl
    have hready : ready s'.finished END = true := by
      simp only [ready, List.all_eq_true, decide_eq_true_eq, hEND, set_insert, List.mem_singleton]
      intro b hb
      subst hb
      have := hd.done
      rw [hT] at this
      exact this
    have hstepE := step_of_pick (divide_conquer_stages ops m input) s' _ END [] [] _ hp'
      (by simp) hready (by rw [hEND]; exact stages_get_three ops m input)
      (show ending_function END _ = some _ from rfl)
    have hall := steps_trans (steps_trans (steps_one hstep0) hsteps) (steps_one hstepE)
    rw [hs0] at hall
    have hrun := run_of_steps END hall
      (by simp [State.enqueue, State.finish_task, hd.submitted_eq]) rfl m (by omega)
    simp only [divide_conquer, hrun]
    rw [hEND]
    simp only [State.get_release_all, State.enqueue, State.finish_task, hd.cell_eq]

theorem seq_divide_conquer_total (ops : DCOps P R) (size : P → Nat)
    (h_wf : ∀ x, ops.predicate x = false → ∀ y ∈ ops.divide x, size y < size x)
    (h_ne : ∀ x, ops.predicate x = false → ops.divide x ≠ []) :
    ∀ (n : Nat) (x : P), size x ≤ n → ∃ f v, seq_divide_conquer ops f x = some v := by
  intro n
  induction n with
  | zero =>
    intro x hx
    by_cases hp : ops.predicate x = true
    · exact ⟨1, ops.solve x, by simp [seq_divide_conquer, hp]⟩
    · simp only [Bool.not_eq_true] at hp
      cases hdiv : ops.divide x with
      | nil => exact absurd hdiv (h_ne x hp)
      | cons y ys =>
        have := h_wf x hp y (by simp [hdiv])
        omega
  | succ n ih =>
    intro x hx
    by_cases hp : ops.predicate x = true
    · exact ⟨1, ops.solve x, by simp [seq_divide_conquer, hp]⟩
    · simp only [Bool.not_eq_true] at hp
      have hsubs : ∀ l : List P, (∀ y ∈ l, size y ≤ n) →
          ∃ F rs, all_some (l.map (seq_divide_conquer ops F)) = some rs ∧ rs.length = l.length := by
        intro l
        induction l with
        | nil => intro _; exact ⟨0, [], by simp [all_some], rfl⟩
        | cons y ys ihl =>
          intro hl
          obtain ⟨F, rs, hF, hlen⟩ := ihl (fun z hz => hl z (by simp [hz]))
          obtain ⟨g, w, hg⟩ := ih y (hl y (by simp))
          refine ⟨max F g, w :: rs, ?_, by simp [hlen]⟩
          have h1 := all_some_map_mono
            (fun z u (hz : seq_divide_conquer ops F z = some u) =>
              seq_divide_conquer_mono ops (le_max_left F g) hz) ys rs hF
          simp [all_some, seq_divide_conquer_mono ops (le_max_right F g) hg, h1]
      obtain ⟨F, rs, hF, hlen⟩ := hsubs (ops.divide x)
        (fun y hy => by have := h_wf x hp y hy; omega)
      cases rs with
      | nil =>
        simp at hlen
        exact absurd (List.length_eq_zero.mp hlen.symm) (h_ne x hp)
      | cons r rs' =>
        exact ⟨F + 1, rs'.foldl ops.combine r, by simp [seq_divide_conquer, hp, hF]⟩
end DCLemmas

section SumLemmas

theorem halves_length_lt (xs : List Int) (h : 2 ≤ xs.length) :
    ∀ y ∈ halves xs, y.length < xs.length ∧ y ≠ [] := by
  intro y hy
  simp only [halves, List.mem_cons, List.mem_singleton, List.not_mem_nil, or_false] at hy
  rcases hy with rfl | rfl
  · constructor
    · simp only [List.length_take]; omega
    · intro h0
      have := congrArg List.length h0
      simp only [List.length_take, List.length_nil] at this
      omega
  · constructor
    · simp only [List.length_drop]; omega
    · intro h0
      have := congrArg List.length h0
      simp only [List.length_drop, List.length_nil] at this
      omega

theorem sum_ops_wf (x : List Int) (hp : sum_ops.predicate x = false) :
    ∀ y ∈ sum_ops.divide x, y.length < x.length := by
  intro y hy
  simp only [sum_ops, decide_eq_false_iff_not, not_le] at hp
  exact (halves_length_lt x (by omega) y hy).1

theorem seq_sum (n : Nat) : ∀ xs : List Int, xs ≠ [] → xs.length ≤ n →
    seq_divide_conquer sum_ops n xs = some xs.sum := by
  induction n with
  | zero =>
    intro xs hne hlen
    exact absurd (List.length_eq_zero.mp (by omega)) hne
  | succ n ih =>
    intro xs hne hlen
    rw [seq_divide_conquer]
    by_cases hp : xs.length ≤ 1
    · have h1 : xs.length = 1 := by
        have : xs.length ≠ 0 := fun h => hne (List.length_eq_zero.mp h)
        omega
      obtain ⟨a, rfl⟩ := List.length_eq_one.mp h1
      simp [sum_ops]
    · have hl := halves_length_lt xs (by omega)
      have e1 := ih (xs.take (xs.length / 2)) (hl _ (by simp [halves])).2
        (by have := (hl _ (show xs.take (xs.length / 2) ∈ halves xs by simp [halves])).1; omega)
      have e2 := ih (xs.drop (xs.length / 2)) (hl _ (by simp [halves])).2
        (by have := (hl _ (show xs.drop (xs.length / 2) ∈ halves xs by simp [halves])).1; omega)
      have hs : (xs.take (xs.length / 2)).sum + (xs.drop (xs.length / 2)).sum = xs.sum := by
        rw [← List.sum_append, List.take_append_drop]
      have hpred : sum_ops.predicate xs = false := by simp [sum_ops]; omega
      have hdiv : sum_ops.divide xs = [xs.take (xs.length / 2), xs.drop (xs.length / 2)] := rfl
      simp only [hpred, Bool.false_eq_true, if_false, hdiv, List.map_cons, List.map_nil, e1, e2,
        all_some]
      simp [sum_ops, hs]

end SumLemmas

/-! ## Divide and conquer: properties -/

section DCProperties
variable {P R E : Type}

theorem normal_divide_parallel (ops : DCOps P R) (fuel mid nid : Nat) (task : TD) (d : DR)
    (ds : List DR) (s : State (P × R) E) (x : P) (r0 : R)
    (hloc : task.data_location = d :: ds) (hstore : s.store d = some (x, r0))
    (hp : ops.predicate x = false) (hal : s.alloc s.alloc_calls = true) :
    ∃ (s' : State (P × R) E) (M : TD),
      normal_divide_function ops fuel mid nid task s = some s' ∧
      s'.submitted = s.submitted ++
        spawned_tasks nid task.order s.node task.task_id s.next_slot s.next_task
          (ops.divide x).length ++ [M] ∧
      M.stage_id = mid ∧ M.task_id = task.task_id ∧ M.after_dep = task.after_dep ∧
      M.data_location = task.data_location ++
        spawned_refs s.node s.next_slot (ops.divide x).length ∧
      (∀ b, b ∈ M.before_dep ↔ s.next_task ≤ b ∧ b < s.next_task + (ops.divide x).length) ∧
      s'.finished = s.finished := by
  obtain ⟨h1, h2, h3, h4, h5, h6, h7, h8, h9, h10⟩ :=
    spawn_loop_spec ops nid task
      (TD.mk mid task.task_id task.order task.local_ids task.is_hard [] [] task.after_dep)
      (ops.divide x) task.data_location []
      ((State.allocate_tokens
        ({ s with trace := s.trace ++ [⟨task, Call.get d (x, r0)⟩] } :
          State (P × R) E) task (ops.divide x).length).2)
  have hfn : normal_divide_function ops fuel mid nid task s = some
      (State.set_task (spawn_loop ops nid task
        (TD.mk mid task.task_id task.order task.local_ids task.is_hard [] [] task.after_dep)
        (ops.divide x) task.data_location []
        ((State.allocate_tokens
          ({ s with trace := s.trace ++ [⟨task, Call.get d (x, r0)⟩] } :
            State (P × R) E) task (ops.divide x).length).2)).2.2 task
        (TD.mk mid task.task_id task.order task.local_ids task.is_hard
          (spawn_loop ops nid task
            (TD.mk mid task.task_id task.order task.local_ids task.is_hard [] [] task.after_dep)
            (ops.divide x) task.data_location []
            ((State.allocate_tokens
              ({ s with trace := s.trace ++ [⟨task, Call.get d (x, r0)⟩] } :
                State (P × R) E) task (ops.divide x).length).2)).1
          (spawn_loop ops nid task
            (TD.mk mid task.task_id task.order task.local_ids task.is_hard [] [] task.after_dep)
            (ops.divide x) task.data_location []
            ((State.allocate_tokens
              ({ s with trace := s.trace ++ [⟨task, Call.get d (x, r0)⟩] } :
                State (P × R) E) task (ops.divide x).length).2)).2.1
          task.after_dep) false) := by
    simp [normal_divide_function, hloc, State.get, hstore, hp, State.allocate_tokens, hal]
  generalize spawn_loop ops nid task
      (TD.mk mid task.task_id task.order task.local_ids task.is_hard [] [] task.after_dep)
      (ops.divide x) task.data_location []
      ((State.allocate_tokens
        ({ s with trace := s.trace ++ [⟨task, Call.get d (x, r0)⟩] } :
          State (P × R) E) task (ops.divide x).length).2) = sp at h1 h2 h3 h4 h5 h6 h7 h8 h9 h10 hfn
  simp only [State.allocate_tokens] at h1 h2 h3 h4 h5 h6 h7 h8 h9 h10
  refine ⟨_, TD.mk mid task.task_id task.order task.local_ids task.is_hard sp.1 sp.2.1
    task.after_dep, hfn, ?_, rfl, rfl, rfl, h1, ?_, h8⟩
  · simp only [State.set_task]; rw [h3]
  · intro b; simp only []; rw [h2]; simp

theorem normal_divide_no_tokens (ops : DCOps P R) (fuel mid nid : Nat) (task : TD) (d : DR)
    (ds : List DR) (s : State (P × R) E) (x : P) (r0 v : R)
    (hloc : task.data_location = d :: ds) (hstore : s.store d = some (x, r0))
    (hal : s.alloc s.alloc_calls = false) (hseq : seq_divide_conquer ops fuel x = some v) :
    ∃ s' : State (P × R) E, normal_divide_function ops fuel mid nid task s = some s' ∧
      s'.submitted = s.submitted ∧ s'.pending = s.pending ∧ s'.store d = some (x, v) ∧
      s'.finished = task.task_id :: s.finished := by
  by_cases hp : ops.predicate x = true
  · have hv : v = ops.solve x := by
      cases fuel with
      | zero => simp [seq_divide_conquer] at hseq
      | succ k => simpa [seq_divide_conquer, hp] using hseq.symm
    subst hv
    refine ⟨((({ s with trace := s.trace ++ [⟨task, Call.get d (x, r0)⟩] } :
      State (P × R) E).set_at task (x, ops.solve x) d).finish_task task (some 0)),
      ?_, rfl, rfl, ?_, rfl⟩
    · simp [normal_divide_function, hloc, State.get, hstore, hp]
    · simp [State.set_at, State.finish_task]
  · simp only [Bool.not_eq_true] at hp
    refine ⟨(((State.allocate_tokens ({ s with trace := s.trace ++ [⟨task, Call.get d (x, r0)⟩] } :
      State (P × R) E) task (ops.divide x).length).2.set_at task (x, v) d).finish_task task (some 0)),
      ?_, rfl, rfl, ?_, rfl⟩
    · simp [normal_divide_function, hloc, State.get, hstore, hp, State.allocate_tokens, hal,
        hseq]
    · simp [State.set_at, State.finish_task]

theorem divide_conquer_first_alloc_fails (ops : DCOps P R) (node : Nat) (alloc : Nat → Bool)
    (input : P) (v : R) (m : Nat) (hal : alloc 0 = false) (hm : 2 ≤ m)
    (hseq : seq_divide_conquer ops m input = some v) :
    divide_conquer ops m node alloc input = some v := by
  obtain ⟨T0, hT0⟩ : ∃ T : TD, T = TD.mk 0 0 0 [node] false [] [] [] := ⟨_, rfl⟩
  obtain ⟨T, hT⟩ : ∃ T : TD, T = TD.mk 0 0 0 [node] false [⟨node, 0⟩] [] (set_insert 1 []) :=
    ⟨_, rfl⟩
  obtain ⟨END, hEND⟩ : ∃ t : TD, t = TD.mk 3 1 0 [node] false [⟨node, 0⟩] (set_insert 0 []) [] :=
    ⟨_, rfl⟩
  obtain ⟨s0, hs0⟩ : ∃ s0 : State (P × R) Unit, s0 = (State.fresh node alloc ()).launch :=
    ⟨_, rfl⟩
  obtain ⟨sa, hsa⟩ : ∃ sa : State (P × R) Unit, sa =
      ((((({ s0 with pending := [] } : State (P × R) Unit)).set T0
        (input, ops.empty_result)).2.get_task_id.2).set_task T END true) := ⟨_, rfl⟩
  have hinit : init_divide_function ops m 2 1 3 input T0
      ({ s0 with pending := [] } : State (P × R) Unit) = normal_divide_function ops m 2 1 T sa := by
    rw [hsa, hT, hEND, hs0, hT0]; rfl
  have hsa_store : sa.store ⟨node, 0⟩ = some (input, ops.empty_result) := by
    rw [hsa, hs0]; simp [State.set_task, State.get_task_id, State.set, State.launch, State.fresh]
  obtain ⟨s4, hfn, h_sub, h_pend, h_store, h_fin⟩ := normal_divide_no_tokens ops m 2 1 T ⟨node, 0⟩ []
    sa input ops.empty_result v (by rw [hT]) hsa_store (by rw [hsa, hs0]; exact hal) hseq
  rw [← hinit] at hfn
  have hstep0 : step (divide_conquer_stages ops m input) s0 = some s4.enqueue :=
    step_of_pick (divide_conquer_stages ops m input) s0 s4 T0 [] [] _
      (by rw [hs0, hT0]; rfl) (by simp) (ready_of_before_dep_nil _ _ (by rw [hT0]))
      (by rw [hT0]; exact stages_get_zero ops m input) hfn
  have hp' : s4.enqueue.pending = [] ++ END :: [] := by
    simp only [State.enqueue, h_sub, h_pend]; rw [hsa, hs0]; rfl
  have hready : ready s4.enqueue.finished END = true := by
    simp only [ready, List.all_eq_true, decide_eq_true_eq, hEND, set_insert, List.mem_singleton,
      State.enqueue, h_fin]
    intro b hb
    subst hb
    rw [hT]; simp
  have hstepE := step_of_pick (divide_conquer_stages ops m input) s4.enqueue _ END [] [] _ hp'
    (by simp) hready (by rw [hEND]; exact stages_get_three ops m input)
    (show ending_function END _ = some _ from rfl)
  have hall := steps_trans (steps_one hstep0) (steps_one hstepE)
  rw [hs0] at hall
  have hrun := run_of_steps END hall (by simp [State.enqueue, State.finish_task]) rfl m
    (by omega)
  simp only [divide_conquer, hrun]
  rw [hEND]
  simp only [State.get_release_all, State.enqueue, State.finish_task, h_store]

/-- C1 (as amended): for every input and every `divide`, `predicate`, `solve`
and `combine` with `combine` associative, `divide` well-founded and never empty
on a non-base problem, and the value-initialised result a left identity of
`combine`, and for every pattern of `allocate_tokens` outcomes, `divide_conquer`
returns the value of the sequential divide-and-conquer on the same input. -/
theorem divide_conquer_refines_sequential (ops : DCOps P R) (size : P → Nat)
    (h_wf : ∀ x, ops.predicate x = false → ∀ y ∈ ops.divide x, size y < size x)
    (h_ne : ∀ x, ops.predicate x = false → ops.divide x ≠ [])
    (_h_assoc : ∀ a b c, ops.combine (ops.combine a b) c = ops.combine a (ops.combine b c))
    (h_id : ∀ r, ops.combine ops.empty_result r = r)
    (node : Nat) (alloc : Nat → Bool) (input : P) :
    ∃ v : R, (∃ n, ∀ m, n ≤ m → seq_divide_conquer ops m input = some v) ∧
      (∃ n, ∀ m, n ≤ m → divide_conquer ops m node alloc input = some v) := by
  obtain ⟨f, v, hv⟩ := seq_divide_conquer_total ops size h_wf h_ne (size input) input (le_refl _)
  refine ⟨v, ⟨f, fun m hm => seq_divide_conquer_mono ops hm hv⟩,
    ⟨max f (tree_steps ops f input + 1), fun m hm => ?_⟩⟩
  exact divide_conquer_of_seq ops h_id node alloc input f v hv m
    (le_trans (le_max_left _ _) hm) (le_trans (le_max_right _ _) hm)

/-- C1, witness: the sum of `[1, 2, 3]` by halves. -/
theorem divide_conquer_refines_sequential_witness :
    ∃ v : Int, (∃ n, ∀ m, n ≤ m → seq_divide_conquer sum_ops m [1, 2, 3] = some v) ∧
      (∃ n, ∀ m, n ≤ m → divide_conquer sum_ops m 0 (fun k => decide (k < 1)) [1, 2, 3] = some v) :=
  divide_conquer_refines_sequential sum_ops List.length sum_ops_wf
    (fun _ _ => by simp [sum_ops, halves])
    (fun a b c => by simp [sum_ops, add_assoc])
    (fun r => by simp [sum_ops]) 0 (fun k => decide (k < 1)) [1, 2, 3]

/-- C1, counterexample: the product is associative and halving is
well-founded, yet on `[2, 3]` with every token request granted `divide_conquer`
returns 0 where the sequential divide-and-conquer returns 6, the merge having
started its fold from the value-initialised result. -/
theorem divide_conquer_product_differs :
    (∀ a b c : Int, prod_ops.combine (prod_ops.combine a b) c
        = prod_ops.combine a (prod_ops.combine b c)) ∧
    (∀ x, prod_ops.predicate x = false → ∀ y ∈ prod_ops.divide x, y.length < x.length) ∧
    seq_divide_conquer prod_ops 8 [2, 3] = some 6 ∧
    divide_conquer prod_ops 8 0 (fun _ => true) [2, 3] = some 0 ∧
    divide_conquer prod_ops 8 0 (fun _ => false) [2, 3] = some 6 := by
  refine ⟨fun a b c => by simp [prod_ops, mul_assoc], sum_ops_wf, by decide, by decide, by decide⟩

theorem range_sum_twice (n : Nat) : ∀ a : Nat,
    2 * ((List.range' a n).map Int.ofNat).sum = (n : Int) * (2 * a + n - 1) := by
  induction n with
  | zero => intro a; simp
  | succ n ih =>
    intro a
    have h := ih (a + 1)
    simp only [List.range'_succ, List.map_cons, List.sum_cons, Int.ofNat_eq_coe]
    simp only [Int.ofNat_eq_coe] at h
    push_cast at h ⊢
    linarith

/-- C2: for every non-empty list of integers, `divide_conquer` with the halving
divide, predicate "length at most one", solve "the element" and combine `+`
returns the sum of the list, whatever the outcomes of `allocate_tokens`. -/
theorem divide_conquer_sum (xs : List Int) (hne : xs ≠ []) (node : Nat) (alloc : Nat → Bool) :
    ∃ n, ∀ m, n ≤ m → divide_conquer sum_ops m node alloc xs = some xs.sum := by
  refine ⟨max xs.length (tree_steps sum_ops xs.length xs + 1), fun m hm => ?_⟩
  exact divide_conquer_of_seq sum_ops (fun r => by simp [sum_ops]) node alloc xs xs.length xs.sum
    (seq_sum xs.length xs hne (le_refl _)) m
    (le_trans (le_max_left _ _) hm) (le_trans (le_max_right _ _) hm)

/-- C2, witness: the input `[1..1024]` gives 524800 when only the first four
token requests are granted. -/
theorem divide_conquer_sum_witness :
    ∃ n, ∀ m, n ≤ m →
      divide_conquer sum_ops m 0 (fun k => decide (k < 4)) ((List.range' 1 1024).map Int.ofNat)
        = some 524800 := by
  have h := divide_conquer_sum ((List.range' 1 1024).map Int.ofNat)
    (by intro h; have := congrArg List.length h; simp at this) 0 (fun k => decide (k < 4))
  have hsum : ((List.range' 1 1024).map Int.ofNat).sum = 524800 := by
    have := range_sum_twice 1024 1
    norm_num at this
    omega
  rw [hsum] at h
  exact h

theorem spawned_tasks_length (nid order node merger : Nat) :
    ∀ (n slot tid : Nat), (spawned_tasks nid order node merger slot tid n).length = n := by
  intro n
  induction n with
  | zero => intro _ _; rfl
  | succ n ih => intro slot tid; simp [spawned_tasks, ih]

/-- C3: when DIVIDE runs on a non-base problem and `allocate_tokens` fails, the
stage submits no task, calls `allocate_tokens` that one time only, stores
`(problem, r)` back into `data_location[0]`, `r` being the sequential
`divide_conquer` of the problem with the same callables, and calls
`finish_task` on its task with count 0; and when the first token request of a
run fails, `divide_conquer` returns the sequential result. -/
theorem divide_falls_back_to_sequential (ops : DCOps P R) (fuel mid nid : Nat) (task : TD)
    (d : DR) (ds : List DR) (s : State (P × R) E) (x : P) (r0 r : R)
    (hloc : task.data_location = d :: ds) (hstore : s.store d = some (x, r0))
    (hp : ops.predicate x = false) (hal : s.alloc s.alloc_calls = false)
    (hseq : seq_divide_conquer ops fuel x = some r) :
    (∃ s' : State (P × R) E, normal_divide_function ops fuel mid nid task s = some s' ∧
      s'.submitted = s.submitted ∧
      s'.trace = s.trace ++
        [⟨task, Call.get d (x, r0)⟩,
         ⟨task, Call.allocate_tokens (ops.divide x).length false⟩,
         ⟨task, Call.set_at (x, r) d⟩,
         ⟨task, Call.finish_task (some 0)⟩] ∧
      s'.alloc_calls = s.alloc_calls + 1 ∧
      s'.store = Function.update s.store d (some (x, r)) ∧
      s'.finished = task.task_id :: s.finished ∧
      s'.next_task = s.next_task ∧ s'.next_slot = s.next_slot) ∧
    (∀ (node : Nat) (alloc : Nat → Bool) (input : P) (v : R) (m : Nat),
      alloc 0 = false → 2 ≤ m → seq_divide_conquer ops m input = some v →
      divide_conquer ops m node alloc input = some v) := by
  refine ⟨⟨(((State.allocate_tokens ({ s with trace := s.trace ++ [⟨task, Call.get d (x, r0)⟩] } :
      State (P × R) E) task (ops.divide x).length).2.set_at task (x, r) d).finish_task task (some 0)),
      ?_, rfl, ?_, rfl, rfl, rfl, rfl, rfl⟩, ?_⟩
  · simp [normal_divide_function, hloc, State.get, hstore, hp, State.allocate_tokens, hal, hseq]
  · simp [State.allocate_tokens, State.set_at, State.finish_task, hal]
  · intro node alloc input v m h0 hm hv
    exact divide_conquer_first_alloc_fails ops node alloc input v m h0 hm hv

/-- C3, witness: the problem `[1, 2]` of the sum example with no token left. -/
theorem divide_falls_back_to_sequential_witness :
    ∃ s' : State (List Int × Int) Unit,
      normal_divide_function sum_ops 5 2 1 sample_task
        (sample_state [1, 2] 0 (fun _ => false)) = some s' ∧
      s'.submitted = [] ∧ s'.alloc_calls = 1 ∧ s'.store ⟨0, 0⟩ = some ([1, 2], 3) ∧
      s'.finished = [0] := by
  obtain ⟨⟨s', h1, h2, _, h4, h5, h6, _, _⟩, _⟩ :=
    @divide_falls_back_to_sequential (List Int) Int Unit sum_ops 5 2 1 sample_task ⟨0, 0⟩ []
      (sample_state [1, 2] 0 (fun _ => false)) [1, 2] 0 3 rfl rfl (by decide) rfl (by decide)
  exact ⟨s', h1, h2, h4, by rw [h5]; simp, h6⟩

/-- C4: for every DIVIDE task whose problem satisfies `predicate`, the stage
reads `data_location[0]`, stores `(problem, solve(problem))` into that same
cell and calls `finish_task` on its task with count 0; it makes no other call
(no `allocate_tokens`, no `set_task`), and the outcome is the same whatever
`divide` is, so `divide` is not consulted. -/
theorem divide_base_case (ops : DCOps P R) (fuel mid nid : Nat) (task : TD)
    (d : DR) (ds : List DR) (s : State (P × R) E) (x : P) (r0 : R)
    (hloc : task.data_location = d :: ds) (hstore : s.store d = some (x, r0))
    (hp : ops.predicate x = true) :
    ∃ s' : State (P × R) E, normal_divide_function ops fuel mid nid task s = some s' ∧
      s'.trace = s.trace ++
        [⟨task, Call.get d (x, r0)⟩,
         ⟨task, Call.set_at (x, ops.solve x) d⟩,
         ⟨task, Call.finish_task (some 0)⟩] ∧
      s'.submitted = s.submitted ∧ s'.alloc_calls = s.alloc_calls ∧
      s'.store = Function.update s.store d (some (x, ops.solve x)) ∧
      s'.finished = task.task_id :: s.finished ∧
      (∀ divide' : P → List P,
        normal_divide_function { ops with divide := divide' } fuel mid nid task s = some s') := by
  refine ⟨((({ s with trace := s.trace ++ [⟨task, Call.get d (x, r0)⟩] } :
      State (P × R) E).set_at task (x, ops.solve x) d).finish_task task (some 0)),
      ?_, ?_, rfl, rfl, rfl, rfl, ?_⟩
  · simp [normal_divide_function, hloc, State.get, hstore, hp]
  · simp [State.set_at, State.finish_task]
  · intro divide'
    simp [normal_divide_function, hloc, State.get, hstore, hp]

/-- C4, witness: the base problem `[7]` of the sum example, whose `divide`
would still return two sub-problems. -/
theorem divide_base_case_witness :
    (sum_ops.divide [7]).length = 2 ∧
    ∃ s' : State (List Int × Int) Unit,
      normal_divide_function sum_ops 5 2 1 sample_task
        (sample_state [7] 0 (fun _ => true)) = some s' ∧
      s'.submitted = [] ∧ s'.alloc_calls = 0 ∧ s'.store ⟨0, 0⟩ = some ([7], 7) ∧
      s'.finished = [0] := by
  obtain ⟨s', h1, _, h3, h4, h5, h6, _⟩ :=
    @divide_base_case (List Int) Int Unit sum_ops 5 2 1 sample_task ⟨0, 0⟩ []
      (sample_state [7] 0 (fun _ => true)) [7] 0 rfl rfl (by decide)
  exact ⟨rfl, s', h1, h3, h4, by rw [h5]; simp [sum_ops], h6⟩

/-- C5 (as amended): for every non-base problem, whatever the number of
sub-problems `divide` returns, zero and one included, the DIVIDE stage raises no
error: when `allocate_tokens` succeeds it submits one child DIVIDE task per
sub-problem and then one MERGE task. -/
theorem divide_spawns_whatever_the_shape (ops : DCOps P R) (fuel mid nid : Nat) (task : TD)
    (d : DR) (ds : List DR) (s : State (P × R) E) (x : P) (r0 : R)
    (hloc : task.data_location = d :: ds) (hstore : s.store d = some (x, r0))
    (hp : ops.predicate x = false) (hal : s.alloc s.alloc_calls = true) :
    ∃ (s' : State (P × R) E) (children : List TD) (M : TD),
      normal_divide_function ops fuel mid nid task s = some s' ∧
      s'.submitted = s.submitted ++ children ++ [M] ∧
      children.length = (ops.divide x).length ∧
      (∀ c ∈ children, c.stage_id = nid) ∧ M.stage_id = mid := by
  obtain ⟨s', M, h1, h2, h3, _⟩ :=
    normal_divide_parallel ops fuel mid nid task d ds s x r0 hloc hstore hp hal
  refine ⟨s', _, M, h1, h2, spawned_tasks_length _ _ _ _ _ _ _, ?_, h3⟩
  generalize s.next_slot = slot
  generalize s.next_task = tid
  generalize (ops.divide x).length = n
  induction n generalizing slot tid with
  | zero => intro c hc; simp [spawned_tasks] at hc
  | succ n ih =>
    intro c hc
    simp only [spawned_tasks, List.mem_cons] at hc
    rcases hc with rfl | hc
    · rfl
    · exact ih _ _ c hc

/-- C5, witness: the countdown from 1, whose `divide` returns one
sub-problem. -/
theorem divide_spawns_whatever_the_shape_witness :
    ∃ (s' : State (Nat × Nat) Unit) (children : List TD) (M : TD),
      normal_divide_function countdown_ops 5 2 1 sample_task
        (sample_state 1 0 (fun _ => true)) = some s' ∧
      s'.submitted = [] ++ children ++ [M] ∧
      children.length = (countdown_ops.divide 1).length ∧
      (∀ c ∈ children, c.stage_id = 1) ∧ M.stage_id = 2 :=
  @divide_spawns_whatever_the_shape Nat Nat Unit countdown_ops 5 2 1 sample_task ⟨0, 0⟩ []
    (sample_state 1 0 (fun _ => true)) 1 0 rfl rfl (by decide) rfl

/-- C5, counterexample: on the countdown from 1, a non-base problem on which
`divide` returns a single sub-problem, the DIVIDE stage does not fail; it
submits a child DIVIDE task and a MERGE task, and the run returns a value. -/
theorem divide_single_subproblem_spawns :
    countdown_ops.predicate 1 = false ∧ (countdown_ops.divide 1).length = 1 ∧
    (normal_divide_function countdown_ops 5 2 1 sample_task
        (sample_state 1 0 (fun _ => true))).map
      (fun s => s.submitted.map (fun t => t.stage_id)) = some [1, 2] ∧
    divide_conquer countdown_ops 10 0 (fun _ => true) 1 = some 1 := by
  refine ⟨by decide, by decide, by decide, by decide⟩

end DCProperties

/-! ## Pipeline: one dispatch of each stage -/

section PipelineSteps
variable {α G U Rd : Type}

theorem step_head {C E : Type} (stages : List (Stage C E)) (s s1 : State C E) (t : TD)
    (rest : List TD) (st : Stage C E)
    (hp : s.pending = t :: rest) (hbd : t.before_dep = [])
    (hst : stages.get? t.stage_id = some st)
    (hfn : st.fn t { s with pending := rest } = some s1) :
    step stages s = some s1.enqueue :=
  step_of_pick stages s s1 t [] rest st hp (by simp) (ready_of_before_dep_nil _ _ hbd) hst hfn

theorem step_generator_yield (stages : List (Stage (α × Nat) (PipeEnv G U Rd)))
    (s : PState α G U Rd) (t : TD) (rest : List TD) (st : Stage (α × Nat) (PipeEnv G U Rd))
    (generate_op : G → Option α × G) (v : α)
    (hp : s.pending = t :: rest) (hsub : s.submitted = []) (hbd : t.before_dep = [])
    (hst : stages.get? t.stage_id = some st) (hfn : st.fn = generator_task_func generate_op)
    (hgen : (generate_op s.env.gen).1 = some v) :
    ∃ s1 : PState α G U Rd, step stages s = some s1 ∧
      s1.pending =
        TD.mk (t.stage_id + 1) s.next_task s.env.order [s.node] false [⟨s.node, s.next_slot⟩] [] [] ::
        TD.mk t.stage_id (s.next_task + 1) (s.env.order + 1) [s.node] false [] [] [] :: rest ∧
      s1.submitted = [] ∧
      s1.store = Function.update s.store ⟨s.node, s.next_slot⟩ (some (v, s.env.order)) ∧
      s1.env = { s.env with gen := (generate_op s.env.gen).2, order := s.env.order + 1 } ∧
      s1.trace = s.trace ++
        [⟨t, Call.set (v, s.env.order) ⟨s.node, s.next_slot⟩⟩,
         ⟨t, Call.set_task (TD.mk (t.stage_id + 1) s.next_task s.env.order [s.node] false
            [⟨s.node, s.next_slot⟩] [] []) false⟩,
         ⟨t, Call.set_task (TD.mk t.stage_id (s.next_task + 1) (s.env.order + 1) [s.node] false
            [] [] []) true⟩] ∧
      s1.next_slot = s.next_slot + 1 ∧ s1.next_task = s.next_task + 2 ∧ s1.node = s.node ∧
      s1.finished = s.finished ∧ s1.terminal = s.terminal := by
  refine ⟨_, step_head stages s _ t rest st hp hbd hst
    (by rw [hfn]; simp only [generator_task_func, hgen]; rfl), ?_⟩
  simp [State.enqueue, State.set_task, State.get_task_id, State.set, State.get_node_id, hsub]

theorem step_generator_done (stages : List (Stage (α × Nat) (PipeEnv G U Rd)))
    (s : PState α G U Rd) (t : TD) (rest : List TD) (st : Stage (α × Nat) (PipeEnv G U Rd))
    (generate_op : G → Option α × G)
    (hp : s.pending = t :: rest) (hsub : s.submitted = []) (hbd : t.before_dep = [])
    (hst : stages.get? t.stage_id = some st) (hfn : st.fn = generator_task_func generate_op)
    (hgen : (generate_op s.env.gen).1 = none) :
    ∃ s1 : PState α G U Rd, step stages s = some s1 ∧
      s1.pending = rest ∧ s1.submitted = [] ∧ s1.store = s.store ∧
      s1.env = { s.env with gen := (generate_op s.env.gen).2 } ∧
      s1.trace = s.trace ++ [⟨t, Call.finish_task none⟩] ∧
      s1.next_slot = s.next_slot ∧ s1.next_task = s.next_task ∧ s1.node = s.node ∧
      s1.finished = t.task_id :: s.finished ∧ s1.terminal = some t := by
  refine ⟨_, step_head stages s _ t rest st hp hbd hst
    (by rw [hfn]; simp only [generator_task_func, hgen]; rfl), ?_⟩
  simp [State.enqueue, State.finish_task, hsub]

theorem step_no_pattern (stages : List (Stage (α × Nat) (PipeEnv G U Rd)))
    (s : PState α G U Rd) (t : TD) (rest : List TD) (st : Stage (α × Nat) (PipeEnv G U Rd))
    (transform_op : α → U → α × U) (d : DR) (ds : List DR) (x : α) (ord : Nat)
    (hp : s.pending = t :: rest) (hsub : s.submitted = []) (hbd : t.before_dep = [])
    (hst : stages.get? t.stage_id = some st) (hfn : st.fn = no_pattern_task_func transform_op)
    (hloc : t.data_location = d :: ds) (hstore : s.store d = some (x, ord)) :
    ∃ s1 : PState α G U Rd, step stages s = some s1 ∧
      s1.pending =
        TD.mk (t.stage_id + 1) s.next_task t.order [s.node] false [⟨s.node, s.next_slot⟩] [] [] ::
        rest ∧
      s1.submitted = [] ∧
      s1.store = Function.update (Function.update s.store d none) ⟨s.node, s.next_slot⟩
        (some ((transform_op x s.env.user).1, ord)) ∧
      s1.env = { s.env with user := (transform_op x s.env.user).2 } ∧
      s1.trace = s.trace ++
        [⟨t, Call.get_release d (x, ord)⟩,
         ⟨t, Call.set ((transform_op x s.env.user).1, ord) ⟨s.node, s.next_slot⟩⟩,
         ⟨t, Call.set_task (TD.mk (t.stage_id + 1) s.next_task t.order [s.node] false
            [⟨s.node, s.next_slot⟩] [] []) false⟩] ∧
      s1.next_slot = s.next_slot + 1 ∧ s1.next_task = s.next_task + 1 ∧ s1.node = s.node ∧
      s1.finished = s.finished ∧ s1.terminal = s.terminal := by
  refine ⟨_, step_head stages s _ t rest st hp hbd hst
    (by rw [hfn]; simp only [no_pattern_task_func, hloc, State.get_release, hstore]; rfl), ?_⟩
  simp [State.enqueue, State.set_task, State.get_task_id, State.set, State.get_node_id, hsub]

theorem step_filter_pass (stages : List (Stage (α × Nat) (PipeEnv G U Rd)))
    (s : PState α G U Rd) (t : TD) (rest : List TD) (st : Stage (α × Nat) (PipeEnv G U Rd))
    (filter_obj : α → Bool) (d : DR) (ds : List DR) (x : α) (ord : Nat)
    (hp : s.pending = t :: rest) (hsub : s.submitted = []) (hbd : t.before_dep = [])
    (hst : stages.get? t.stage_id = some st) (hfn : st.fn = filter_task_func filter_obj)
    (hloc : t.data_location = d :: ds) (hstore : s.store d = some (x, ord))
    (hpass : filter_obj x = true) :
    ∃ s1 : PState α G U Rd, step stages s = some s1 ∧
      s1.pending =
        TD.mk (t.stage_id + 1) s.next_task t.order [s.node] false [⟨s.node, s.next_slot⟩] [] [] ::
        rest ∧
      s1.submitted = [] ∧
      s1.store = Function.update (Function.update s.store d none) ⟨s.node, s.next_slot⟩
        (some (x, ord)) ∧
      s1.env = s.env ∧
      s1.trace = s.trace ++
        [⟨t, Call.get_release d (x, ord)⟩,
         ⟨t, Call.set (x, ord) ⟨s.node, s.next_slot⟩⟩,
         ⟨t, Call.set_task (TD.mk (t.stage_id + 1) s.next_task t.order [s.node] false
            [⟨s.node, s.next_slot⟩] [] []) false⟩] ∧
      s1.next_slot = s.next_slot + 1 ∧ s1.next_task = s.next_task + 1 ∧ s1.node = s.node ∧
      s1.finished = s.finished ∧ s1.terminal = s.terminal := by
  refine ⟨_, step_head stages s _ t rest st hp hbd hst
    (by rw [hfn]; simp only [filter_task_func, hloc, State.get_release, hstore, hpass, if_true];
        rfl), ?_⟩
  simp [State.enqueue, State.set_task, State.get_task_id, State.set, State.get_node_id, hsub]

theorem step_filter_drop (stages : List (Stage (α × Nat) (PipeEnv G U Rd)))
    (s : PState α G U Rd) (t : TD) (rest : List TD) (st : Stage (α × Nat) (PipeEnv G U Rd))
    (filter_obj : α → Bool) (d : DR) (ds : List DR) (x : α) (ord : Nat)
    (hp : s.pending = t :: rest) (hsub : s.submitted = []) (hbd : t.before_dep = [])
    (hst : stages.get? t.stage_id = some st) (hfn : st.fn = filter_task_func filter_obj)
    (hloc : t.data_location = d :: ds) (hstore : s.store d = some (x, ord))
    (hdrop : filter_obj x = false) :
    ∃ s1 : PState α G U Rd, step stages s = some s1 ∧
      s1.pending = rest ∧ s1.submitted = [] ∧
      s1.store = Function.update s.store d none ∧
      s1.env = s.env ∧
      s1.trace = s.trace ++
        [⟨t, Call.get_release d (x, ord)⟩, ⟨t, Call.finish_task none⟩] ∧
      s1.next_slot = s.next_slot ∧ s1.next_task = s.next_task ∧ s1.node = s.node ∧
      s1.finished = t.task_id :: s.finished ∧ s1.terminal = some t := by
  refine ⟨_, step_head stages s _ t rest st hp hbd hst
    (by rw [hfn]; simp only [filter_task_func, hloc, State.get_release, hstore, hdrop]; rfl), ?_⟩
  simp [State.enqueue, State.finish_task, hsub]

theorem step_consumer (stages : List (Stage (α × Nat) (PipeEnv G U Rd)))
    (s : PState α G U Rd) (t : TD) (rest : List TD) (st : Stage (α × Nat) (PipeEnv G U Rd))
    (consume_op : α → U → α × U) (d : DR) (ds : List DR) (x : α) (ord : Nat)
    (hp : s.pending = t :: rest) (hsub : s.submitted = []) (hbd : t.before_dep = [])
    (hst : stages.get? t.stage_id = some st) (hfn : st.fn = consumer_task_func consume_op)
    (hloc : t.data_location = d :: ds) (hstore : s.store d = some (x, ord)) :
    ∃ s1 : PState α G U Rd, step stages s = some s1 ∧
      s1.pending = rest ∧ s1.submitted = [] ∧
      s1.store = Function.update s.store d none ∧
      s1.env = { s.env with user := (consume_op x s.env.user).2 } ∧
      s1.trace = s.trace ++
        [⟨t, Call.get_release d (x, ord)⟩, ⟨t, Call.finish_task none⟩] ∧
      s1.next_slot = s.next_slot ∧ s1.next_task = s.next_task ∧ s1.node = s.node ∧
      s1.finished = t.task_id :: s.finished ∧ s1.terminal = some t := by
  refine ⟨_, step_head stages s _ t rest st hp hbd hst
    (by rw [hfn]; simp only [consumer_task_func, hloc, State.get_release, hstore]; rfl), ?_⟩
  simp [State.enqueue, State.finish_task, hsub]

theorem step_iteration_emit (stages : List (Stage (α × Nat) (PipeEnv G U Rd)))
    (s : PState α G U Rd) (t : TD) (rest : List TD) (st : Stage (α × Nat) (PipeEnv G U Rd))
    (transform : α → α) (predicate : α → Bool) (d : DR) (ds : List DR) (x : α) (ord : Nat)
    (hp : s.pending = t :: rest) (hsub : s.submitted = []) (hbd : t.before_dep = [])
    (hst : stages.get? t.stage_id = some st)
    (hfn : st.fn = iteration_task_func transform predicate)
    (hloc : t.data_location = d :: ds) (hstore : s.store d = some (x, ord))
    (hpred : predicate (transform x) = true) :
    ∃ s1 : PState α G U Rd, step stages s = some s1 ∧
      s1.pending =
        TD.mk (t.stage_id + 1) s.next_task t.order [s.node] false [⟨s.node, s.next_slot⟩] [] [] ::
        rest ∧
      s1.submitted = [] ∧
      s1.store = Function.update (Function.update s.store d none) ⟨s.node, s.next_slot⟩
        (some (transform x, ord)) ∧
      s1.env = s.env ∧
      s1.trace = s.trace ++
        [⟨t, Call.get_release d (x, ord)⟩,
         ⟨t, Call.set (transform x, ord) ⟨s.node, s.next_slot⟩⟩,
         ⟨t, Call.set_task (TD.mk (t.stage_id + 1) s.next_task t.order [s.node] false
            [⟨s.node, s.next_slot⟩] [] []) false⟩] ∧
      s1.next_slot = s.next_slot + 1 ∧ s1.next_task = s.next_task + 1 ∧ s1.node = s.node ∧
      s1.finished = s.finished ∧ s1.terminal = s.terminal := by
  refine ⟨_, step_head stages s _ t rest st hp hbd hst
    (by rw [hfn]; simp only [iteration_task_func, hloc, State.get_release, hstore, hpred, if_true];
        rfl), ?_⟩
  simp [State.enqueue, State.set_task, State.get_task_id, State.set, State.get_node_id, hsub]

theorem step_iteration_again (stages : List (Stage (α × Nat) (PipeEnv G U Rd)))
    (s : PState α G U Rd) (t : TD) (rest : List TD) (st : Stage (α × Nat) (PipeEnv G U Rd))
    (transform : α → α) (predicate : α → Bool) (d : DR) (ds : List DR) (x : α) (ord : Nat)
    (hp : s.pending = t :: rest) (hsub : s.submitted = []) (hbd : t.before_dep = [])
    (hst : stages.get? t.stage_id = some st)
    (hfn : st.fn = iteration_task_func transform predicate)
    (hloc : t.data_location = d :: ds) (hstore : s.store d = some (x, ord))
    (hpred : predicate (transform x) = false) :
    ∃ s1 : PState α G U Rd, step stages s = some s1 ∧
      s1.pending = { t with data_location := [⟨s.node, s.next_slot⟩] } :: rest ∧
      s1.submitted = [] ∧
      s1.store = Function.update (Function.update s.store d none) ⟨s.node, s.next_slot⟩
        (some (transform x, ord)) ∧
      s1.env = s.env ∧
      s1.trace = s.trace ++
        [⟨t, Call.get_release d (x, ord)⟩,
         ⟨t, Call.set (transform x, ord) ⟨s.node, s.next_slot⟩⟩,
         ⟨t, Call.set_task { t with data_location := [⟨s.node, s.next_slot⟩] } false⟩] ∧
      s1.next_slot = s.next_slot + 1 ∧ s1.next_task = s.next_task ∧ s1.node = s.node ∧
      s1.finished = s.finished ∧ s1.terminal = s.terminal := by
  refine ⟨_, step_head stages s _ t rest st hp hbd hst
    (by rw [hfn]; simp only [iteration_task_func, hloc, State.get_release, hstore, hpred]; rfl), ?_⟩
  simp [State.enqueue, State.set_task, State.set, hsub]

end PipelineSteps

/-! ## Pipeline: runs -/

section PipelineRuns
variable {α G U Rd : Type}

theorem submissions_of_append {C : Type} (stage : Nat) (a b : List (Entry C)) :
    submissions_of stage (a ++ b) = submissions_of stage a ++ submissions_of stage b := by
  simp [submissions_of, List.filterMap_append]

theorem reads_of_append (stage : Nat) (a b : List (Entry (α × Nat))) :
    reads_of stage (a ++ b) = reads_of stage a ++ reads_of stage b := by
  simp [reads_of, List.filterMap_append]

theorem stores_of_append {C : Type} (stage : Nat) (a b : List (Entry C)) :
    stores_of stage (a ++ b) = stores_of stage a ++ stores_of stage b := by
  simp [stores_of, List.filterMap_append]

theorem iteration_loop (stages : List (Stage (α × Nat) (PipeEnv G U Rd)))
    (st : Stage (α × Nat) (PipeEnv G U Rd)) (transform : α → α) (predicate : α → Bool)
    (hfn : st.fn = iteration_task_func transform predicate) (rest : List TD) (ord : Nat) :
    ∀ (k : Nat) (s : PState α G U Rd) (t : TD) (d : DR) (ds : List DR) (x : α),
      s.pending = t :: rest → s.submitted = [] → t.before_dep = [] →
      stages.get? t.stage_id = some st →
      t.data_location = d :: ds → s.store d = some (x, ord) →
      predicate (transform^[k + 1] x) = true →
      (∀ j, 0 < j → j < k + 1 → predicate (transform^[j] x) = false) →
      ∃ (s' : PState α G U Rd) (es : List (Entry (α × Nat))) (again : List TD) (next : TD) (r : DR),
        steps stages (k + 1) s = some s' ∧ s'.pending = next :: rest ∧ s'.submitted = [] ∧
        s'.trace = s.trace ++ es ∧ (∀ e ∈ es, e.caller.stage_id = t.stage_id) ∧
        submissions_of t.stage_id es = again ++ [next] ∧ again.length = k ∧
        (∀ a ∈ again, a.stage_id = t.stage_id ∧ a.task_id = t.task_id ∧ a.order = t.order) ∧
        next.stage_id = t.stage_id + 1 ∧ next.order = t.order ∧ next.data_location = [r] ∧
        next.before_dep = [] ∧
        s'.store r = some (transform^[k + 1] x, ord) ∧ s'.env = s.env := by
  intro k
  induction k with
  | zero =>
    intro s t d ds x hp hsub hbd hst hloc hstore hhit _
    obtain ⟨s1, h1, h2, h3, h4, h5, h6, _⟩ := step_iteration_emit stages s t rest st transform
      predicate d ds x ord hp hsub hbd hst hfn hloc hstore (by simpa using hhit)
    refine ⟨s1, _, [], _, ⟨s.node, s.next_slot⟩, steps_one h1, h2, h3, h6, ?_, ?_, rfl, ?_, rfl, rfl,
      rfl, rfl, ?_, h5⟩
    · intro e he; simp at he; rcases he with rfl | rfl | rfl <;> rfl
    · simp [submissions_of]
    · intro a ha; simp at ha
    · rw [h4]; simp
  | succ k ih =>
    intro s t d ds x hp hsub hbd hst hloc hstore hhit hmiss
    have hm1 : predicate (transform x) = false := by
      simpa using hmiss 1 (by omega) (by omega)
    obtain ⟨s1, h1, h2, h3, h4, h5, h6, _⟩ := step_iteration_again stages s t rest st transform
      predicate d ds x ord hp hsub hbd hst hfn hloc hstore hm1
    obtain ⟨s', es, again, next, r, e1, e2, e3, e4, e5, e6, e7, e8, e9, e10, e11, e12, e13, e14⟩ :=
      ih s1 { t with data_location := [⟨s.node, s.next_slot⟩] } ⟨s.node, s.next_slot⟩ []
        (transform x) h2 h3 hbd hst rfl (by rw [h4]; simp)
        (by simpa [Function.iterate_succ_apply] using hhit)
        (fun j hj1 hj2 => by
          have := hmiss (j + 1) (by omega) (by omega)
          simpa [Function.iterate_succ_apply] using this)
    refine ⟨s', _, { t with data_location := [⟨s.node, s.next_slot⟩] } :: again, next, r,
      by rw [Nat.add_comm]; exact steps_trans (steps_one h1) e1, e2, e3,
      by rw [e4, h6, List.append_assoc], ?_, ?_, by simp [e7], ?_, e9, e10, e11, e12, ?_,
      by rw [e14, h5]⟩
    · intro e he
      simp only [List.mem_append, List.mem_cons, List.mem_singleton, List.not_mem_nil,
        or_false] at he
      rcases he with (rfl | rfl | rfl) | he
      · rfl
      · rfl
      · rfl
      · exact e5 e he
    · rw [submissions_of_append, e6]
      simp [submissions_of]
    · intro a ha
      simp only [List.mem_cons] at ha
      rcases ha with rfl | ha
      · exact ⟨rfl, rfl, rfl⟩
      · exact e8 a ha
    · simpa [Function.iterate_succ_apply] using e13

theorem farm_filter_items (stages : List (Stage (α × Nat) (PipeEnv (List α) U Rd)))
    (st0 st1 st2 st3 : Stage (α × Nat) (PipeEnv (List α) U Rd))
    (f : α → α) (p : α → Bool) (c : α → U → U)
    (h0 : stages.get? 0 = some st0) (hf0 : st0.fn = generator_task_func list_generator)
    (h1 : stages.get? 1 = some st1) (hf1 : st1.fn = no_pattern_task_func (pure_op f))
    (h2 : stages.get? 2 = some st2) (hf2 : st2.fn = filter_task_func p)
    (h3 : stages.get? 3 = some st3) (hf3 : st3.fn = consumer_task_func (sink_op c)) :
    ∀ (xs : List α) (s : PState α (List α) U Rd) (g : TD),
      s.pending = [g] → s.submitted = [] → g.stage_id = 0 → g.before_dep = [] →
      s.env.gen = xs →
      ∃ (n : Nat) (s' : PState α (List α) U Rd) (t : TD), steps stages n s = some s' ∧
        n ≤ 4 * xs.length + 1 ∧ s'.pending = [] ∧ s'.terminal = some t ∧
        s'.env.user = ((xs.map f).filter p).foldl (fun u y => c y u) s.env.user ∧
        reads_of 3 s'.trace = reads_of 3 s.trace ++
          (((xs.map f).enumFrom s.env.order).filter (fun iy => p iy.2)).map
            (fun iy => (iy.2, iy.1)) := by
  intro xs
  induction xs with
  | nil =>
    intro s g hp hsub hg hbd hgen
    obtain ⟨s1, e1, e2, _, _, e5, e6, _, _, _, _, e11⟩ := step_generator_done stages s g [] st0
      list_generator hp hsub hbd (by rw [hg]; exact h0) hf0 (by rw [hgen]; rfl)
    refine ⟨1, s1, g, steps_one e1, by simp, e2, e11, by rw [e5]; simp, ?_⟩
    rw [e6, reads_of_append]; simp [reads_of]
  | cons x xs ih =>
    intro s g hp hsub hg hbd hgen
    -- the generator yields `x`
    obtain ⟨s1, a1, a2, a3, a4, a5, a6, a7, a8, a9, _, _⟩ := step_generator_yield stages s g [] st0
      list_generator x hp hsub hbd (by rw [hg]; exact h0) hf0 (by rw [hgen]; rfl)
    -- the farm transformer
    obtain ⟨s2, b1, b2, b3, b4, b5, b6, b7, b8, b9, _, _⟩ := step_no_pattern stages s1 _ _ st1
      (pure_op f) ⟨s.node, s.next_slot⟩ [] x s.env.order a2 a3 rfl
      (by simp only [hg]; exact h1) hf1 rfl (by rw [a4]; simp)
    simp only [hg, pure_op] at b2 b4 b5 b6
    have hgen1 : s2.env.gen = xs := by rw [b5, a5]; simp [hgen, list_generator]
    have hord1 : s2.env.order = s.env.order + 1 := by rw [b5, a5]
    have huser1 : s2.env.user = s.env.user := by rw [b5, a5]
    have hreads2 : reads_of 3 s2.trace = reads_of 3 s.trace := by
      rw [b6, a6, reads_of_append, reads_of_append]; simp [reads_of, hg]
    by_cases hpx : p (f x) = true
    · -- the item passes the filter and reaches the consumer
      obtain ⟨s3, c1, c2, c3, c4, c5, c6, c7, c8, c9, _, _⟩ := step_filter_pass stages s2 _ _ st2
        p ⟨s1.node, s1.next_slot⟩ [] (f x) s.env.order b2 b3 rfl
        (by simp only []; exact h2) hf2 rfl (by rw [b4]; simp) hpx
      simp only [] at c2 c4 c6
      obtain ⟨s4, d1, d2, d3, d4, d5, d6, d7, d8, d9, _, d11⟩ := step_consumer stages s3 _ _ st3
        (sink_op c) ⟨s2.node, s2.next_slot⟩ [] (f x) s.env.order c2 c3 rfl
        (by simp only []; exact h3) hf3 rfl (by rw [c4]; simp)
      simp only [sink_op] at d5
      obtain ⟨n, s', t, e1, e2, e3, e4, e5, e6⟩ := ih s4 _ d2 d3 rfl rfl
        (by rw [d5]; simp only []; rw [c5]; exact hgen1)
      refine ⟨4 + n, s', t, ?_, by simp only [List.length_cons]; omega, e3, e4, ?_, ?_⟩
      · exact steps_trans (steps_trans (steps_trans (steps_trans (steps_one a1) (steps_one b1))
          (steps_one c1)) (steps_one d1)) e1
      · rw [e5, d5]; simp only []; rw [c5, huser1]
        simp [hpx]
      · rw [e6, d6, reads_of_append, c6, reads_of_append, hreads2, d5]
        simp only []
        rw [c5, hord1]
        simp [reads_of, List.enumFrom, hpx]
    · -- the item is dropped
      simp only [Bool.not_eq_true] at hpx
      obtain ⟨s3, c1, c2, c3, _, c5, c6, _, _, _, _, _⟩ := step_filter_drop stages s2 _ _ st2
        p ⟨s1.node, s1.next_slot⟩ [] (f x) s.env.order b2 b3 rfl
        (by simp only []; exact h2) hf2 rfl (by rw [b4]; simp) hpx
      obtain ⟨n, s', t, e1, e2, e3, e4, e5, e6⟩ := ih s3 _ c2 c3 rfl rfl
        (by rw [c5]; exact hgen1)
      refine ⟨3 + n, s', t, ?_, by simp only [List.length_cons]; omega, e3, e4, ?_, ?_⟩
      · exact steps_trans (steps_trans (steps_trans (steps_one a1) (steps_one b1))
          (steps_one c1)) e1
      · rw [e5, c5, huser1]
        simp [hpx]
      · rw [e6, c6, reads_of_append, hreads2, c5, hord1]
        simp [reads_of, List.enumFrom, hpx]

/-- On the depth-first run loop of `pipeline_run`: for every finite sequence
`xs` of the generator, the pipeline (generator, farm(f), filter(p), consumer)
invokes the consumer on the values `f x` with `p (f x)` true, once each and in
the order of `xs`, and every item the consumer stage reads still carries the
order index the generator gave `x`. -/
theorem farm_filter_pipeline (xs : List α) (f : α → α) (p : α → Bool) (c : α → U → U)
    (node : Nat) (alloc : Nat → Bool) (u0 : U) (rd0 : Rd) :
    ∃ n, ∀ m, n ≤ m → ∃ s : PState α (List α) U Rd,
      pipeline_run m node alloc xs u0 rd0 list_generator
        [Pattern.farm (pure_op f), Pattern.filter p, Pattern.plain (sink_op c)] = some s ∧
      s.env.user = ((xs.map f).filter p).foldl (fun u y => c y u) u0 ∧
      reads_of 3 s.trace =
        ((xs.map f).enum.filter (fun iy => p iy.2)).map (fun iy => (iy.2, iy.1)) := by
  obtain ⟨n, s', t, e1, e2, e3, e4, e5, e6⟩ := farm_filter_items
    ([⟨false, true, generator_task_func list_generator⟩,
      ⟨true, false, no_pattern_task_func (pure_op f)⟩,
      ⟨false, false, filter_task_func p⟩,
      ⟨false, false, consumer_task_func (sink_op c)⟩] :
      List (Stage (α × Nat) (PipeEnv (List α) U Rd))) _ _ _ _ f p c rfl rfl rfl rfl rfl rfl rfl rfl
    xs (State.fresh node alloc ⟨xs, 0, u0, fun _ => rd0, fun _ => 0⟩ :
      PState α (List α) U Rd).launch _ rfl rfl rfl rfl rfl
  refine ⟨4 * xs.length + 1, fun m hm => ⟨s', ?_, e5, ?_⟩⟩
  · have hrun := run_of_steps t e1 e3 e4 m (by omega)
    have hpipe : (pipeline list_generator
        [Pattern.farm (pure_op f), Pattern.filter p, Pattern.plain (sink_op c)] :
          Option (List (Action α (List α) U Rd))) =
        some [Action.register false true (.generator list_generator),
          Action.register true false (.no_pattern_end (pure_op f)),
          Action.register false false (.filter p),
          Action.register false false (.consumer (sink_op c)), Action.run] := rfl
    simp only [pipeline_run, hpipe, perform, List.nil_append, List.cons_append, List.length_nil,
      List.length_cons, task_func, init_closure]
    erw [hrun]
  · rw [e6]
    simp [reads_of, State.launch, State.fresh, List.enum]

/-- On the depth-first run loop, `xs = [0..9]`, `f = x -> 2x`, `p = x % 4 == 0`
and the consumer appending to a list collect 0, 4, 8, 12, 16 with the orders
0, 2, 4, 6, 8. -/
theorem farm_filter_pipeline_witness :
    ∃ n, ∀ m, n ≤ m → ∃ s : PState Int (List Int) (List Int) (List Int),
      pipeline_run m 0 (fun _ => true) [0, 1, 2, 3, 4, 5, 6, 7, 8, 9] [] []
        list_generator
        [Pattern.farm (pure_op (fun x => 2 * x)), Pattern.filter (fun x => decide (x % 4 = 0)),
         Pattern.plain (sink_op (fun x u => u ++ [x]))] = some s ∧
      s.env.user = [0, 4, 8, 12, 16] ∧
      reads_of 3 s.trace = [(0, 0), (4, 2), (8, 4), (12, 6), (16, 8)] := by
  obtain ⟨n, h⟩ := @farm_filter_pipeline Int (List Int) (List Int) [0, 1, 2, 3, 4, 5, 6, 7, 8, 9]
    (fun x : Int => 2 * x) (fun x => decide (x % 4 = 0)) (fun x (u : List Int) => u ++ [x])
    0 (fun _ => true) [] []
  refine ⟨n, fun m hm => ?_⟩
  obtain ⟨s, h1, h2, h3⟩ := h m hm
  exact ⟨s, h1, by rw [h2]; decide, by rw [h3]; decide⟩

/-- C7: for every input item `(x, ord)` of an iteration stage for which some
`k >= 1` has `p (f^k x)` true, with `k` the least such, the stage is dispatched
`k` times; the first `k - 1` dispatches each re-submit the task to the stage's
own `stage_id`, and only the last one submits a task downstream, whose input
cell holds `(f^k x, ord)`. -/
theorem iteration_emits_at_first_hit (stages : List (Stage (α × Nat) (PipeEnv G U Rd)))
    (st : Stage (α × Nat) (PipeEnv G U Rd)) (transform : α → α) (predicate : α → Bool)
    (s : PState α G U Rd) (t : TD) (rest : List TD) (d : DR) (ds : List DR) (x : α)
    (ord k : Nat)
    (hst : stages.get? t.stage_id = some st)
    (hfn : st.fn = iteration_task_func transform predicate)
    (hp : s.pending = t :: rest) (hsub : s.submitted = []) (hbd : t.before_dep = [])
    (hloc : t.data_location = d :: ds) (hstore : s.store d = some (x, ord))
    (hk : 0 < k) (hhit : predicate (transform^[k] x) = true)
    (hmiss : ∀ j, 0 < j → j < k → predicate (transform^[j] x) = false) :
    ∃ (s' : PState α G U Rd) (es : List (Entry (α × Nat))) (again : List TD) (next : TD) (r : DR),
      steps stages k s = some s' ∧ s'.pending = next :: rest ∧
      s'.trace = s.trace ++ es ∧ (∀ e ∈ es, e.caller.stage_id = t.stage_id) ∧
      submissions_of t.stage_id es = again ++ [next] ∧ again.length = k - 1 ∧
      (∀ a ∈ again, a.stage_id = t.stage_id ∧ a.task_id = t.task_id ∧ a.order = t.order) ∧
      next.stage_id = t.stage_id + 1 ∧ next.order = t.order ∧ next.data_location = [r] ∧
      s'.store r = some (transform^[k] x, ord) := by
  obtain ⟨k, rfl⟩ : ∃ k', k = k' + 1 := ⟨k - 1, by omega⟩
  obtain ⟨s', es, again, next, r, e1, e2, _, e4, e5, e6, e7, e8, e9, e10, e11, _, e13, _⟩ :=
    iteration_loop stages st transform predicate hfn rest ord k s t d ds x hp hsub hbd hst hloc
      hstore hhit hmiss
  exact ⟨s', es, again, next, r, e1, e2, e4, e5, e6, by simpa using e7, e8, e9, e10, e11, e13⟩

/-- C7, witness: halving 100 until the value is 0 takes seven applications, so
six re-submissions. -/
theorem iteration_emits_at_first_hit_witness :
    ∃ (s' : PState Int (List Int) (List Int) (List Int)) (es : List (Entry (Int × Nat)))
      (again : List TD) (next : TD) (r : DR),
      steps [⟨false, false, iteration_task_func (fun x : Int => x / 2) (fun x => decide (x = 0))⟩]
        7 (sample_item_state 100) = some s' ∧ s'.pending = [next] ∧
      submissions_of 0 es = again ++ [next] ∧ again.length = 6 ∧
      next.stage_id = 1 ∧ next.data_location = [r] ∧ s'.store r = some (0, 0) := by
  obtain ⟨s', es, again, next, r, e1, e2, _, _, e5, e6, _, e8, _, e10, e11⟩ :=
    iteration_emits_at_first_hit
      ([⟨false, false, iteration_task_func (fun x : Int => x / 2) (fun x => decide (x = 0))⟩] :
        List (Stage (Int × Nat) (PipeEnv (List Int) (List Int) (List Int))))
      ⟨false, false, iteration_task_func (fun x : Int => x / 2) (fun x => decide (x = 0))⟩
      (fun x : Int => x / 2) (fun x => decide (x = 0)) (sample_item_state 100) sample_item_task []
      ⟨0, 0⟩ [] 100 0 7 rfl rfl rfl rfl rfl rfl rfl (by omega) (by decide)
      (by intro j h1 h2; interval_cases j <;> decide)
  exact ⟨s', es, again, next, r, e1, e2, e5, e6, e8, e10, by rw [e11]; decide⟩

end PipelineRuns

/-! ## Pipeline: the orders the generator assigns -/

section GeneratorOrder
variable {α G U Rd : Type}

theorem drain_steps {C E : Type} (stages : List (Stage C E)) :
    ∀ (m : Nat) (s s' : State C E), drain stages m s = some s' →
      ∃ n, steps stages n s = some s' := by
  intro m
  induction m with
  | zero =>
    intro s s' h
    simp only [drain] at h
    split_ifs at h
    simp only [Option.some.injEq] at h
    exact ⟨0, by simp [steps, h]⟩
  | succ m ih =>
    intro s s' h
    simp only [drain] at h
    split_ifs at h
    · simp only [Option.some.injEq] at h
      exact ⟨0, by simp [steps, h]⟩
    · cases hs : step stages s with
      | none => simp [hs] at h
      | some s1 =>
        rw [hs] at h
        obtain ⟨n, hn⟩ := ih s1 s' h
        exact ⟨n + 1, by simp [steps, hs, hn]⟩

theorem step_cases {C E : Type} (stages : List (Stage C E)) (s s' : State C E)
    (h : step stages s = some s') :
    ∃ (t : TD) (rest : List TD) (st : Stage C E) (s1 : State C E),
      stages.get? t.stage_id = some st ∧ st.fn t { s with pending := rest } = some s1 ∧
      s' = s1.enqueue := by
  unfold step at h
  split at h
  · simp at h
  · rename_i t rest hpick
    split at h
    · simp at h
    · rename_i st hst
      split at h
      · simp at h
      · rename_i s1 hfn
        simp only [Option.some.injEq] at h
        exact ⟨t, rest, st, s1, hst, hfn, h.symm⟩

theorem task_func_frame (key : Nat) (kind : StageKind α G U Rd)
    (hk : kind.is_generator = false) (t : TD) (s s' : PState α G U Rd)
    (h : task_func key kind t s = some s') :
    s'.env.order = s.env.order ∧
    ∃ es, s'.trace = s.trace ++ es ∧ ∀ e ∈ es, e.caller = t := by
  cases kind with
  | generator g => simp [StageKind.is_generator] at hk
  | consumer c =>
    simp only [task_func, consumer_task_func] at h
    split at h
    · simp at h
    · split at h
      · simp at h
      · rename_i hgr
        simp only [State.get_release] at hgr
        split at hgr
        · simp at hgr
        · simp only [Option.some.injEq, Prod.mk.injEq] at hgr h
          obtain ⟨_, rfl⟩ := hgr
          subst h
          exact ⟨rfl, _, by simp [State.finish_task]; rfl, by simp⟩
  | farm_consumer c =>
    simp only [task_func, consumer_task_func] at h
    split at h
    · simp at h
    · split at h
      · simp at h
      · rename_i hgr
        simp only [State.get_release] at hgr
        split at hgr
        · simp at hgr
        · simp only [Option.some.injEq, Prod.mk.injEq] at hgr h
          obtain ⟨_, rfl⟩ := hgr
          subst h
          exact ⟨rfl, _, by simp [State.finish_task]; rfl, by simp⟩
  | no_pattern op =>
    simp only [task_func, no_pattern_task_func] at h
    split at h
    · simp at h
    · split at h
      · simp at h
      · rename_i hgr
        simp only [State.get_release] at hgr
        split at hgr
        · simp at hgr
        · simp only [Option.some.injEq, Prod.mk.injEq] at hgr h
          obtain ⟨_, rfl⟩ := hgr
          subst h
          exact ⟨rfl, _, by simp [State.set_task, State.get_task_id, State.set]; rfl, by simp⟩
  | no_pattern_end op =>
    simp only [task_func, no_pattern_task_func] at h
    split at h
    · simp at h
    · split at h
      · simp at h
      · rename_i hgr
        simp only [State.get_release] at hgr
        split at hgr
        · simp at hgr
        · simp only [Option.some.injEq, Prod.mk.injEq] at hgr h
          obtain ⟨_, rfl⟩ := hgr
          subst h
          exact ⟨rfl, _, by simp [State.set_task, State.get_task_id, State.set]; rfl, by simp⟩
  | filter p =>
    simp only [task_func, filter_task_func] at h
    split at h
    · simp at h
    · split at h
      · simp at h
      · rename_i hgr
        simp only [State.get_release] at hgr
        split at hgr
        · simp at hgr
        · simp only [Option.some.injEq, Prod.mk.injEq] at hgr
          obtain ⟨_, rfl⟩ := hgr
          split at h
          · simp only [Option.some.injEq] at h
            subst h
            exact ⟨rfl, _, by simp [State.set_task, State.get_task_id, State.set]; rfl, by simp⟩
          · simp only [Option.some.injEq] at h
            subst h
            exact ⟨rfl, _, by simp [State.finish_task]; rfl, by simp⟩
  | reduce r =>
    simp only [task_func, reduce_task_func] at h
    split at h
    · simp at h
    · split at h
      · simp at h
      · rename_i hgr
        simp only [State.get_release] at hgr
        split at hgr
        · simp at hgr
        · simp only [Option.some.injEq, Prod.mk.injEq] at hgr
          obtain ⟨_, rfl⟩ := hgr
          split at h
          · simp only [Option.some.injEq] at h
            subst h
            exact ⟨rfl, _, by simp [State.set_task, State.get_task_id, State.set]; rfl, by simp⟩
          · simp only [Option.some.injEq] at h
            subst h
            exact ⟨rfl, _, by simp [State.finish_task]; rfl, by simp⟩
  | iteration f p =>
    simp only [task_func, iteration_task_func] at h
    split at h
    · simp at h
    · split at h
      · simp at h
      · rename_i hgr
        simp only [State.get_release] at hgr
        split at hgr
        · simp at hgr
        · simp only [Option.some.injEq, Prod.mk.injEq] at hgr
          obtain ⟨_, rfl⟩ := hgr
          split at h
          · simp only [Option.some.injEq] at h
            subst h
            exact ⟨rfl, _, by simp [State.set_task, State.get_task_id, State.set]; rfl, by simp⟩
          · simp only [Option.some.injEq] at h
            subst h
            exact ⟨rfl, _, by simp [State.set_task, State.set]; rfl, by simp⟩

theorem generator_task_func_effect (generate_op : G → Option α × G) (t : TD)
    (s s' : PState α G U Rd) (h : generator_task_func generate_op t s = some s') :
    (∃ (v : α) (r : DR) (next again : TD),
      s'.trace = s.trace ++
        [⟨t, Call.set (v, s.env.order) r⟩, ⟨t, Call.set_task next false⟩,
         ⟨t, Call.set_task again true⟩] ∧
      s'.env.order = s.env.order + 1 ∧ next.stage_id = t.stage_id + 1 ∧
      next.order = s.env.order ∧ next.data_location = [r] ∧
      again.stage_id = t.stage_id ∧ again.order = s.env.order + 1) ∨
    (s'.trace = s.trace ++ [⟨t, Call.finish_task none⟩] ∧ s'.env.order = s.env.order) := by
  simp only [generator_task_func] at h
  split at h
  · rename_i v hv
    simp only [Option.some.injEq] at h
    subst h
    left
    exact ⟨v, ⟨s.node, s.next_slot⟩,
      TD.mk (t.stage_id + 1) s.next_task s.env.order [s.node] false [⟨s.node, s.next_slot⟩] [] [],
      TD.mk t.stage_id (s.next_task + 1) (s.env.order + 1) [s.node] false [] [] [],
      by simp [State.set_task, State.get_task_id, State.set, State.get_node_id], rfl, rfl, rfl,
      rfl, rfl, rfl⟩
  · simp only [Option.some.injEq] at h
    subst h
    right
    exact ⟨rfl, rfl⟩

theorem register_by_spec (b : Bool) (kind : StageKind α G U Rd) :
    ∃ par, register_by b kind = Action.register par false kind := by
  cases b
  · exact ⟨false, rfl⟩
  · exact ⟨true, rfl⟩

theorem do_pipeline_aux_shape : ∀ (n : Nat) (b : Bool) (chain : List (Pattern α U Rd))
    (acts : List (Action α G U Rd)), do_pipeline_aux n b chain = some acts →
    ∃ regs, acts = regs ++ [Action.run] ∧
      ∀ a ∈ regs, ∃ par src kind, a = Action.register par src kind ∧
        kind.is_generator = false := by
  intro n
  induction n with
  | zero => intro b chain acts h; simp [do_pipeline_aux] at h
  | succ n ih =>
    intro b chain acts h
    have hcons : ∀ (a : Action α G U Rd) (other : List (Pattern α U Rd)),
        (∃ par src kind, a = Action.register par src kind ∧ kind.is_generator = false) →
        (match do_pipeline_aux n b other with
          | none => none
          | some acts' => some (a :: acts')) = some acts →
        ∃ regs, acts = regs ++ [Action.run] ∧
          ∀ a ∈ regs, ∃ par src kind, a = Action.register par src kind ∧
            kind.is_generator = false := by
      intro a other ha h'
      cases hrec : (do_pipeline_aux n b other : Option (List (Action α G U Rd))) with
      | none => simp [hrec] at h'
      | some acts' =>
        simp only [hrec, Option.some.injEq] at h'
        obtain ⟨regs, rfl, hregs⟩ := ih b other acts' hrec
        refine ⟨a :: regs, by rw [← h']; rfl, ?_⟩
        intro a' ha'
        simp only [List.mem_cons] at ha'
        rcases ha' with rfl | ha'
        · exact ha
        · exact hregs a' ha'
    cases chain with
    | nil => simp [do_pipeline_aux] at h
    | cons pat other =>
      cases pat with
      | plain op =>
        cases other with
        | nil =>
          simp only [do_pipeline_aux, Option.some.injEq] at h
          refine ⟨[Action.register false false (.consumer op)], by rw [← h]; rfl, ?_⟩
          intro a ha
          simp only [List.mem_singleton] at ha
          exact ⟨_, _, _, ha, rfl⟩
        | cons o os =>
          simp only [do_pipeline_aux] at h
          obtain ⟨par, hpar⟩ := register_by_spec b (StageKind.no_pattern op : StageKind α G U Rd)
          exact hcons _ _ ⟨par, false, _, hpar, rfl⟩ h
      | farm op =>
        cases other with
        | nil =>
          simp only [do_pipeline_aux, Option.some.injEq] at h
          refine ⟨[Action.register true false (.farm_consumer op)], by rw [← h]; rfl, ?_⟩
          intro a ha
          simp only [List.mem_singleton] at ha
          exact ⟨_, _, _, ha, rfl⟩
        | cons o os =>
          simp only [do_pipeline_aux] at h
          obtain ⟨par, hpar⟩ := register_by_spec true (StageKind.no_pattern_end op : StageKind α G U Rd)
          exact hcons _ _ ⟨par, false, _, hpar, rfl⟩ h
      | filter p =>
        simp only [do_pipeline_aux] at h
        obtain ⟨par, hpar⟩ := register_by_spec b (StageKind.filter p : StageKind α G U Rd)
        exact hcons _ _ ⟨par, false, _, hpar, rfl⟩ h
      | reduce r =>
        simp only [do_pipeline_aux] at h
        exact hcons (Action.register false false (.reduce r)) _ ⟨false, false, _, rfl, rfl⟩ h
      | iteration f p =>
        simp only [do_pipeline_aux] at h
        obtain ⟨par, hpar⟩ := register_by_spec b (StageKind.iteration f p : StageKind α G U Rd)
        exact hcons _ _ ⟨par, false, _, hpar, rfl⟩ h
      | iteration_pipeline ts p => simp [do_pipeline_aux] at h
      | pipeline ts =>
        simp only [do_pipeline_aux] at h
        exact ih b _ acts h

theorem table_of_old : ∀ (acts : List (Action α G U Rd))
    (tbl : List (Stage (α × Nat) (PipeEnv G U Rd))) (i : Nat), i < tbl.length →
    (table_of acts tbl).get? i = tbl.get? i := by
  intro acts
  induction acts with
  | nil => intro tbl i _; rfl
  | cons a acts ih =>
    intro tbl i hi
    cases a with
    | register par src kind =>
      simp only [table_of]
      rw [ih _ i (by simp; omega)]
      simp only [List.get?_eq_getElem?]
      exact List.getElem?_append_left hi
    | run => simp only [table_of]; exact ih tbl i hi

theorem table_of_new : ∀ (acts : List (Action α G U Rd))
    (tbl : List (Stage (α × Nat) (PipeEnv G U Rd))) (i : Nat)
    (st : Stage (α × Nat) (PipeEnv G U Rd)), tbl.length ≤ i →
    (table_of acts tbl).get? i = some st →
    ∃ par src kind key, Action.register par src kind ∈ acts ∧ st.fn = task_func key kind := by
  intro acts
  induction acts with
  | nil =>
    intro tbl i st hi h
    simp only [table_of, List.get?_eq_getElem?] at h
    rw [List.getElem?_eq_none hi] at h
    simp at h
  | cons a acts ih =>
    intro tbl i st hi h
    cases a with
    | register par src kind =>
      simp only [table_of] at h
      by_cases hi' : i = tbl.length
      · subst hi'
        rw [table_of_old acts _ tbl.length (by simp)] at h
        simp only [List.get?_eq_getElem?] at h
        rw [List.getElem?_append_right (le_refl _)] at h
        simp only [Nat.sub_self, List.getElem?_cons_zero, Option.some.injEq] at h
        exact ⟨par, src, kind, tbl.length, by simp, by rw [← h]⟩
      · obtain ⟨par', src', kind', key, hmem, hfn⟩ := ih _ i st (by simp; omega) h
        exact ⟨par', src', kind', key, by simp [hmem], hfn⟩
    | run =>
      simp only [table_of] at h
      obtain ⟨par', src', kind', key, hmem, hfn⟩ := ih tbl i st hi h
      exact ⟨par', src', kind', key, by simp [hmem], hfn⟩

theorem init_closure_order (key : Nat) (kind : StageKind α G U Rd)
    (hk : kind.is_generator = false) (e : PipeEnv G U Rd) :
    (init_closure key kind e).order = e.order := by
  cases kind <;> first | rfl | simp [StageKind.is_generator] at hk

theorem env_of_order : ∀ (acts : List (Action α G U Rd)) (key : Nat) (e : PipeEnv G U Rd),
    (∀ a ∈ acts, a = Action.run ∨ ∃ par src kind, a = Action.register par src kind ∧
      kind.is_generator = false) →
    (env_of acts key e).order = e.order := by
  intro acts
  induction acts with
  | nil => intro key e _; rfl
  | cons a acts ih =>
    intro key e h
    have hrest := ih
    rcases h a (by simp) with rfl | ⟨par, src, kind, rfl, hk⟩
    · simp only [env_of]
      exact ih key e (fun a' ha' => h a' (by simp [ha']))
    · simp only [env_of]
      rw [ih (key + 1) _ (fun a' ha' => h a' (by simp [ha'])), init_closure_order key kind hk]

theorem perform_registrations (fuel : Nat) : ∀ (regs : List (Action α G U Rd))
    (tbl : List (Stage (α × Nat) (PipeEnv G U Rd))) (s s' : PState α G U Rd),
    (∀ a ∈ regs, ∃ par src kind, a = Action.register par src kind) →
    perform fuel (regs ++ [Action.run]) tbl s = some s' →
    ∃ t, run (table_of (regs ++ [Action.run]) tbl) fuel
      { s with env := env_of (regs ++ [Action.run]) tbl.length s.env } = some (t, s') := by
  intro regs
  induction regs with
  | nil =>
    intro tbl s s' _ h
    simp only [List.nil_append, perform] at h
    simp only [List.nil_append, table_of, env_of]
    cases hr : run tbl fuel s with
    | none => simp [hr] at h
    | some ts =>
      obtain ⟨t, s1⟩ := ts
      simp only [hr, Option.some.injEq] at h
      exact ⟨t, by rw [← h]⟩
  | cons a regs ih =>
    intro tbl s s' hregs h
    obtain ⟨par, src, kind, rfl⟩ := hregs a (by simp)
    simp only [List.cons_append, perform] at h
    obtain ⟨t, ht⟩ := ih _ _ s' (fun a' ha' => hregs a' (by simp [ha'])) h
    refine ⟨t, ?_⟩
    simp only [List.cons_append, table_of, env_of]
    simp only [List.length_append, List.length_singleton] at ht
    exact ht

theorem emitted_orders_step (stages : List (Stage (α × Nat) (PipeEnv G U Rd)))
    (generate_op : G → Option α × G) (st0 : Stage (α × Nat) (PipeEnv G U Rd))
    (h0 : stages.get? 0 = some st0) (hf0 : st0.fn = generator_task_func generate_op)
    (hrest : ∀ i st, 0 < i → stages.get? i = some st →
      ∃ key kind, st.fn = task_func key kind ∧ kind.is_generator = false)
    (s s' : PState α G U Rd) (hstep : step stages s = some s')
    (hinv : emitted_orders s = (List.range s.env.order, List.range s.env.order)) :
    emitted_orders s' = (List.range s'.env.order, List.range s'.env.order) := by
  obtain ⟨t, rest, st, s1, hst, hfn, rfl⟩ := step_cases stages s s' hstep
  simp only [emitted_orders, Prod.mk.injEq] at hinv ⊢
  simp only [State.enqueue]
  by_cases ht : t.stage_id = 0
  · rw [ht, h0] at hst
    simp only [Option.some.injEq] at hst
    subst hst
    rw [hf0] at hfn
    rcases generator_task_func_effect generate_op t _ s1 hfn with
      ⟨v, r, next, again, htr, hord, hn1, hn2, _, ha1, _⟩ | ⟨htr, hord⟩
    · simp only [] at htr hord hn2
      rw [htr, hord, stores_of_append, submissions_of_append, List.range_succ]
      simp only [List.map_append, List.filter_append, hinv.1, hinv.2]
      simp [stores_of, submissions_of, ht, hn1, ha1, hn2]
    · simp only [] at htr hord
      rw [htr, hord, stores_of_append, submissions_of_append]
      simp only [List.map_append, List.filter_append, hinv.1, hinv.2]
      simp [stores_of, submissions_of]
  · obtain ⟨key, kind, hfk, hk⟩ := hrest t.stage_id st (by omega) hst
    rw [hfk] at hfn
    obtain ⟨hord, es, htr, hes⟩ := task_func_frame key kind hk t _ s1 hfn
    simp only [] at htr hord
    have hs : stores_of 0 es = [] := by
      simp only [stores_of, List.filterMap_eq_nil_iff]
      intro e he
      simp [hes e he, ht]
    have hsub : submissions_of 0 es = [] := by
      simp only [submissions_of, List.filterMap_eq_nil_iff]
      intro e he
      simp [hes e he, ht]
    rw [htr, hord, stores_of_append, submissions_of_append, hs, hsub]
    simpa using hinv

theorem emitted_orders_steps (stages : List (Stage (α × Nat) (PipeEnv G U Rd)))
    (generate_op : G → Option α × G) (st0 : Stage (α × Nat) (PipeEnv G U Rd))
    (h0 : stages.get? 0 = some st0) (hf0 : st0.fn = generator_task_func generate_op)
    (hrest : ∀ i st, 0 < i → stages.get? i = some st →
      ∃ key kind, st.fn = task_func key kind ∧ kind.is_generator = false) :
    ∀ (n : Nat) (s s' : PState α G U Rd), steps stages n s = some s' →
      emitted_orders s = (List.range s.env.order, List.range s.env.order) →
      emitted_orders s' = (List.range s'.env.order, List.range s'.env.order) := by
  intro n
  induction n with
  | zero =>
    intro s s' h hinv
    simp only [steps, Option.some.injEq] at h
    rw [← h]; exact hinv
  | succ n ih =>
    intro s s' h hinv
    simp only [steps] at h
    cases hs : step stages s with
    | none => simp [hs] at h
    | some s1 =>
      rw [hs] at h
      exact ih s1 s' h (emitted_orders_step stages generate_op st0 h0 hf0 hrest s s1 hs hinv)

theorem run_steps {C E : Type} (stages : List (Stage C E)) (m : Nat) (s s' : State C E) (t : TD)
    (h : run stages m s = some (t, s')) : ∃ n, steps stages n s.launch = some s' := by
  simp only [run] at h
  cases hd : drain stages m s.launch with
  | none => simp [hd] at h
  | some s1 =>
    simp only [hd] at h
    cases ht : s1.terminal with
    | none => simp [ht] at h
    | some t1 =>
      simp only [ht, Option.some.injEq, Prod.mk.injEq] at h
      obtain ⟨n, hn⟩ := drain_steps stages m s.launch s1 hd
      exact ⟨n, by rw [hn, h.2]⟩

theorem pipeline_actions (generate_op : G → Option α × G) (chain : List (Pattern α U Rd))
    (acts : List (Action α G U Rd)) (hacts : pipeline generate_op chain = some acts) :
    ∃ regs, acts = Action.register false true (.generator generate_op) :: regs ++ [Action.run] ∧
      ∀ a ∈ regs, ∃ par src kind, a = Action.register par src kind ∧
        kind.is_generator = false := by
  simp only [pipeline] at hacts
  cases hd : (do_pipeline false chain : Option (List (Action α G U Rd))) with
  | none => simp [hd] at hacts
  | some acts' =>
    simp only [hd, Option.some.injEq] at hacts
    obtain ⟨regs, rfl, hregs⟩ := do_pipeline_aux_shape _ _ _ _ hd
    exact ⟨regs, by rw [← hacts]; rfl, hregs⟩

theorem pipeline_table (generate_op : G → Option α × G) (regs : List (Action α G U Rd))
    (hregs : ∀ a ∈ regs, ∃ par src kind, a = Action.register par src kind ∧
      kind.is_generator = false) :
    (table_of (Action.register false true (.generator generate_op) :: regs ++ [Action.run])
        ([] : List (Stage (α × Nat) (PipeEnv G U Rd)))).get? 0
      = some ⟨false, true, generator_task_func generate_op⟩ ∧
    ∀ i st, 0 < i →
      (table_of (Action.register false true (.generator generate_op) :: regs ++ [Action.run])
        ([] : List (Stage (α × Nat) (PipeEnv G U Rd)))).get? i = some st →
      ∃ key kind, st.fn = task_func key kind ∧ kind.is_generator = false := by
  constructor
  · simp only [List.cons_append, table_of, List.nil_append]
    rw [table_of_old _ _ 0 (by simp)]
    rfl
  · intro i st hi h
    simp only [List.cons_append, table_of, List.nil_append] at h
    obtain ⟨par, src, kind, key, hmem, hfn⟩ := table_of_new _ _ i st (by simpa using hi) h
    simp only [List.append_eq, List.mem_append, List.mem_singleton] at hmem
    rcases hmem with hmem | hmem
    · obtain ⟨par', src', kind', heq, hk⟩ := hregs _ hmem
      simp only [Action.register.injEq] at heq
      obtain ⟨_, _, rfl⟩ := heq
      exact ⟨key, kind, hfn, hk⟩
    · exact absurd hmem (by simp)

/-- C10: in every pipeline, after any number of dispatches, the items the
generator stage has stored carry the orders 0, 1, 2, ... in emission order, and
so do the successor tasks it has submitted for them; hence the order of each
emitted item exceeds that of the items emitted before it.  The same holds of
the state a completed pipeline call returns. -/
theorem generator_orders_increase (generate_op : G → Option α × G)
    (chain : List (Pattern α U Rd)) (acts : List (Action α G U Rd))
    (hacts : pipeline generate_op chain = some acts)
    (node : Nat) (alloc : Nat → Bool) (g0 : G) (u0 : U) (rd0 : Rd) :
    (∀ (n : Nat) (s : PState α G U Rd),
      steps (table_of acts []) n (pipeline_start acts node alloc g0 u0 rd0).launch = some s →
      emitted_orders s = (List.range s.env.order, List.range s.env.order) ∧
      List.Pairwise (fun a b => a < b) (emitted_orders s).1) ∧
    (∀ (m : Nat) (s : PState α G U Rd),
      pipeline_run m node alloc g0 u0 rd0 generate_op chain = some s →
      emitted_orders s = (List.range s.env.order, List.range s.env.order) ∧
      List.Pairwise (fun a b => a < b) (emitted_orders s).1) := by
  obtain ⟨regs, hshape, hregs⟩ := pipeline_actions generate_op chain acts hacts
  obtain ⟨h0, hrest⟩ := pipeline_table generate_op regs hregs
  rw [← hshape] at h0 hrest
  have hstart : emitted_orders (pipeline_start acts node alloc g0 u0 rd0).launch =
      (List.range (pipeline_start acts node alloc g0 u0 rd0).launch.env.order,
       List.range (pipeline_start acts node alloc g0 u0 rd0).launch.env.order) := by
    have horder : (pipeline_start acts node alloc g0 u0 rd0).launch.env.order = 0 := by
      simp only [pipeline_start, State.launch, State.fresh, hshape, List.cons_append, env_of]
      rw [env_of_order _ _ _ (by
        intro a ha
        simp only [List.mem_append, List.mem_singleton] at ha
        rcases ha with ha | ha
        · obtain ⟨par, src, kind, h1, h2⟩ := hregs a ha
          exact Or.inr ⟨par, src, kind, h1, h2⟩
        · exact Or.inl ha)]
      rfl
    rw [horder]
    simp [emitted_orders, pipeline_start, State.launch, State.fresh, stores_of, submissions_of]
  have hall : ∀ (n : Nat) (s : PState α G U Rd),
      steps (table_of acts []) n (pipeline_start acts node alloc g0 u0 rd0).launch = some s →
      emitted_orders s = (List.range s.env.order, List.range s.env.order) ∧
      List.Pairwise (fun a b => a < b) (emitted_orders s).1 := by
    intro n s hs
    have h := emitted_orders_steps (table_of acts []) generate_op _ h0 rfl hrest n _ s hs hstart
    exact ⟨h, by rw [h]; exact List.pairwise_lt_range _⟩
  refine ⟨hall, ?_⟩
  intro m s hrun
  simp only [pipeline_run, hacts] at hrun
  rw [hshape] at hrun
  obtain ⟨t, ht⟩ := perform_registrations m _ _ _ s (by
    intro a ha
    simp only [List.mem_cons] at ha
    rcases ha with rfl | ha
    · exact ⟨_, _, _, rfl⟩
    · obtain ⟨par, src, kind, h1, _⟩ := hregs a ha
      exact ⟨par, src, kind, h1⟩) hrun
  rw [← hshape] at ht
  obtain ⟨n, hn⟩ := run_steps _ m _ s t ht
  exact hall n s hn

/-- C10, witness: the pipeline of a three-item generator, a filter and a
consumer; the generator emitted under the orders 0, 1, 2. -/
theorem generator_orders_increase_witness :
    ∃ s : PState Int (List Int) (List Int) (List Int),
      pipeline_run 20 0 (fun _ => true) [5, 6, 7] [] [] list_generator
        [Pattern.filter (fun x => decide (x % 2 = 1)), Pattern.plain collect] = some s ∧
      emitted_orders s = (List.range s.env.order, List.range s.env.order) ∧
      List.Pairwise (fun a b => a < b) (emitted_orders s).1 ∧ s.env.order = 3 := by
  have h : (pipeline_run 20 0 (fun _ => true) [5, 6, 7] [] [] list_generator
      [Pattern.filter (fun x => decide (x % 2 = 1)), Pattern.plain collect]).map
      (fun s : PState Int (List Int) (List Int) (List Int) => s.env.order) = some 3 := by decide
  obtain ⟨s, hs, ho⟩ := Option.map_eq_some'.mp h
  have hw := (generator_orders_increase list_generator
    [Pattern.filter (fun x => decide (x % 2 = 1)), Pattern.plain collect]
    [Action.register false true (.generator list_generator),
     Action.register false false (.filter (fun x => decide (x % 2 = 1))),
     Action.register false false (.consumer collect), Action.run]
    rfl 0 (fun _ => true) [5, 6, 7] [] []).2 20 s hs
  exact ⟨s, hs, hw.1, hw.2, ho⟩

end GeneratorOrder

/-! ## Pipeline: the iteration and reduce scenarios -/

section Scenarios
variable {α G U Rd : Type}

theorem drain_bounded {C E : Type} (stages : List (Stage C E)) :
    ∀ (m : Nat) (s s' : State C E), drain stages m s = some s' →
      ∃ n, n ≤ m ∧ steps stages n s = some s' ∧ drained s' = true := by
  intro m
  induction m with
  | zero =>
    intro s s' h
    simp only [drain] at h
    split_ifs at h with hd
    simp only [Option.some.injEq] at h
    subst h
    exact ⟨0, le_refl _, rfl, hd⟩
  | succ m ih =>
    intro s s' h
    simp only [drain] at h
    split_ifs at h with hd
    · simp only [Option.some.injEq] at h
      subst h
      exact ⟨0, Nat.zero_le _, rfl, hd⟩
    · cases hs : step stages s with
      | none => simp [hs] at h
      | some s1 =>
        rw [hs] at h
        obtain ⟨n, hn, hst, hdr⟩ := ih s1 s' h
        exact ⟨n + 1, by omega, by simp [steps, hs, hst], hdr⟩

theorem run_mono {C E : Type} (stages : List (Stage C E)) (m m' : Nat) (hm : m ≤ m')
    (s s' : State C E) (t : TD) (h : run stages m s = some (t, s')) :
    run stages m' s = some (t, s') := by
  simp only [run] at h ⊢
  cases hd : drain stages m s.launch with
  | none => simp [hd] at h
  | some s1 =>
    obtain ⟨n, hn, hst, hdr⟩ := drain_bounded stages m _ s1 hd
    rw [drain_of_steps_drained hst hdr m' (by omega)]
    simpa [hd] using h

theorem perform_mono (m m' : Nat) (hm : m ≤ m') : ∀ (acts : List (Action α G U Rd))
    (tbl : List (Stage (α × Nat) (PipeEnv G U Rd))) (s s' : PState α G U Rd),
    perform m acts tbl s = some s' → perform m' acts tbl s = some s' := by
  intro acts
  induction acts with
  | nil => intro tbl s s' h; simpa [perform] using h
  | cons a acts ih =>
    intro tbl s s' h
    cases a with
    | register par src kind =>
      simp only [perform] at h ⊢
      exact ih _ _ _ h
    | run =>
      simp only [perform] at h ⊢
      cases hr : run tbl m s with
      | none => simp [hr] at h
      | some ts =>
        obtain ⟨t, s1⟩ := ts
        simp only [hr] at h
        rw [run_mono tbl m m' hm s s1 t hr]
        exact ih _ _ _ h

theorem pipeline_run_mono (m m' : Nat) (hm : m ≤ m') (node : Nat) (alloc : Nat → Bool)
    (g0 : G) (u0 : U) (rd0 : Rd) (generate_op : G → Option α × G)
    (chain : List (Pattern α U Rd)) (s : PState α G U Rd)
    (h : pipeline_run m node alloc g0 u0 rd0 generate_op chain = some s) :
    pipeline_run m' node alloc g0 u0 rd0 generate_op chain = some s := by
  simp only [pipeline_run] at h ⊢
  cases hp : pipeline generate_op chain with
  | none => simp [hp] at h
  | some acts =>
    simp only [hp] at h ⊢
    exact perform_mono m m' hm acts _ _ _ h

theorem pipeline_run_summary_mono {β : Type} (obs : PState α G U Rd → β) (m m' : Nat)
    (hm : m ≤ m') (node : Nat) (alloc : Nat → Bool)
    (g0 : G) (u0 : U) (rd0 : Rd) (generate_op : G → Option α × G)
    (chain : List (Pattern α U Rd)) (b : β)
    (h : (pipeline_run m node alloc g0 u0 rd0 generate_op chain).map obs = some b) :
    (pipeline_run m' node alloc g0 u0 rd0 generate_op chain).map obs = some b := by
  cases hr : pipeline_run m node alloc g0 u0 rd0 generate_op chain with
  | none => simp [hr] at h
  | some s =>
    rw [pipeline_run_mono m m' hm node alloc g0 u0 rd0 generate_op chain s hr]
    simpa [hr] using h

/-- C8 (as amended): for the pipeline whose generator yields the single value
100, followed by an iteration stage with transform `x -> x/2` and predicate
`x -> x > 0`, the consumer receives the value 50 and the iteration stage is
never re-submitted: its only submission is the task for the next stage, whose
cell holds `(50, 0)`. -/
theorem halving_iteration_emits_at_once (m : Nat) (hm : 10 ≤ m) :
    (pipeline_run m 0 (fun _ => true) [100] [] [] list_generator halving_chain).map
      stage_one_summary = some ([50], [2], [0], [(50, 0)]) :=
  pipeline_run_summary_mono stage_one_summary 10 m hm 0 (fun _ => true) [100] [] []
    list_generator halving_chain _ (by decide)

/-- C8, witness: twelve dispatches allowed. -/
theorem halving_iteration_emits_at_once_witness :
    10 ≤ 12 ∧
    (pipeline_run 12 0 (fun _ => true) [100] [] [] list_generator halving_chain).map
      stage_one_summary = some ([50], [2], [0], [(50, 0)]) :=
  ⟨by decide, halving_iteration_emits_at_once 12 (by decide)⟩

/-- C8, counterexample: the run of the scenario delivers 50 to the consumer,
not 0, and the iteration stage submits a single task, to stage 2, so it is
re-submitted 0 times, not 7. -/
theorem halving_iteration_not_seven :
    (pipeline_run 10 0 (fun _ => true) [100] [] [] list_generator halving_chain).map
      (fun s => s.env.user) = some [50] ∧
    (pipeline_run 10 0 (fun _ => true) [100] [] [] list_generator halving_chain).map
      (fun s => s.env.user) ≠ some [0] ∧
    (pipeline_run 10 0 (fun _ => true) [100] [] [] list_generator halving_chain).map
      (fun s => ((submissions_of 1 s.trace).filter (fun t => decide (t.stage_id = 1))).length)
      = some 0 := by
  refine ⟨by decide, by decide, by decide⟩

/-- C9, the code at the failing input: with a generator yielding 1, 2, 3, 4
and a reduce stage over windows of two items, the reductions are stored as
`(3, 0)` and `(7, 1)`, the reducer's counter, while the successor tasks carry
the orders 1 and 3, those of the input tasks that completed each window. -/
theorem reduce_successor_carries_input_order (m : Nat) (hm : 20 ≤ m) :
    (pipeline_run m 0 (fun _ => true) [1, 2, 3, 4] [] [] list_generator pair_sum_chain).map
      stage_one_summary = some ([3, 7], [2, 2], [1, 3], [(3, 0), (7, 1)]) :=
  pipeline_run_summary_mono stage_one_summary 20 m hm 0 (fun _ => true) [1, 2, 3, 4] [] []
    list_generator pair_sum_chain _ (by decide)

/-- C9, witness: twenty dispatches allowed. -/
theorem reduce_successor_carries_input_order_witness :
    20 ≤ 20 ∧
    (pipeline_run 20 0 (fun _ => true) [1, 2, 3, 4] [] [] list_generator pair_sum_chain).map
      stage_one_summary = some ([3, 7], [2, 2], [1, 3], [(3, 0), (7, 1)]) :=
  ⟨by decide, reduce_successor_carries_input_order 20 (by decide)⟩

end Scenarios

/-! ## The execution policy object: the ordering flag -/

section FacadeProperties

variable {Cfg S : Type}

/-- C15: for every state of the execution policy object,
`enable_ordering()` then `disable_ordering()` leaves `is_ordered()` false,
`enable_ordering()` alone leaves it true, an object constructed with the
explicit flag `b` reports `is_ordered() = b`, and neither operation changes
the scheduler handle (nor the configuration). -/
theorem ordering_flag_operations (ex : parallel_execution_dist_task Cfg S)
    (default_config : Cfg) (scheduler : S) (b : Bool) :
    ex.enable_ordering.disable_ordering.is_ordered = false ∧
    ex.enable_ordering.is_ordered = true ∧
    ex.disable_ordering.is_ordered = false ∧
    (parallel_execution_dist_task.of_scheduler_ordering default_config scheduler b).is_ordered
      = b ∧
    (parallel_execution_dist_task.of_scheduler_ordering default_config scheduler b).scheduler_
      = scheduler ∧
    ex.enable_ordering.scheduler_ = ex.scheduler_ ∧
    ex.disable_ordering.scheduler_ = ex.scheduler_ ∧
    ex.enable_ordering.disable_ordering.scheduler_ = ex.scheduler_ ∧
    ex.enable_ordering.config_ = ex.config_ ∧ ex.disable_ordering.config_ = ex.config_ :=
  ⟨rfl, rfl, rfl, rfl, rfl, rfl, rfl, rfl, rfl, rfl⟩

end FacadeProperties
/-! ## Pipeline: the translation of a chain -/

section Translation
variable {α G U Rd : Type}

theorem weights_append : ∀ (as bs : List (Pattern α U Rd)),
    Pattern.weights (as ++ bs) = Pattern.weights as + Pattern.weights bs := by
  intro as bs
  induction as with
  | nil => simp [Pattern.weights]
  | cons a as ih => simp [Pattern.weights, ih, Nat.add_assoc]

theorem leaves_of_append : ∀ (as bs : List (Pattern α U Rd)),
    Pattern.leaves_of (as ++ bs) = Pattern.leaves_of as ++ Pattern.leaves_of bs := by
  intro as bs
  induction as with
  | nil => simp [Pattern.leaves_of]
  | cons a as ih => simp [Pattern.leaves_of, ih]

theorem register_by_eq (b : Bool) (kind : StageKind α G U Rd) :
    register_by b kind = Action.register b false kind := by
  cases b <;> rfl

theorem do_pipeline_aux_policy : ∀ (n : Nat) (b : Bool) (chain : List (Pattern α U Rd))
    (acts : List (Action α G U Rd)), do_pipeline_aux n b chain = some acts →
    ∃ regs, acts = regs ++ [Action.run] ∧
      List.Forall₂ (registers_stage b) regs (Pattern.leaves_of chain) := by
  intro n
  induction n with
  | zero => intro b chain acts h; simp [do_pipeline_aux] at h
  | succ n ih =>
    intro b chain acts h
    have hcons : ∀ (a : Action α G U Rd) (pat : Pattern α U Rd) (other : List (Pattern α U Rd)),
        Pattern.leaves pat = [pat] → registers_stage b a pat →
        (match do_pipeline_aux n b other with
          | none => none
          | some acts' => some (a :: acts')) = some acts →
        ∃ regs, acts = regs ++ [Action.run] ∧
          List.Forall₂ (registers_stage b) regs (Pattern.leaves_of (pat :: other)) := by
      intro a pat other hleaf ha h'
      cases hrec : (do_pipeline_aux n b other : Option (List (Action α G U Rd))) with
      | none => simp [hrec] at h'
      | some acts' =>
        simp only [hrec, Option.some.injEq] at h'
        obtain ⟨regs, rfl, hregs⟩ := ih b other acts' hrec
        refine ⟨a :: regs, by rw [← h']; rfl, ?_⟩
        rw [Pattern.leaves_of, hleaf]
        exact List.Forall₂.cons ha hregs
    cases chain with
    | nil => simp [do_pipeline_aux] at h
    | cons pat other =>
      cases pat with
      | plain op =>
        cases other with
        | nil =>
          simp only [do_pipeline_aux, Option.some.injEq] at h
          refine ⟨[Action.register false false (.consumer op)], by rw [← h]; rfl, ?_⟩
          simp only [Pattern.leaves_of, Pattern.leaves, List.append_nil]
          exact List.Forall₂.cons (Or.inr rfl) List.Forall₂.nil
        | cons o os =>
          simp only [do_pipeline_aux, register_by_eq] at h
          exact hcons _ _ _ (by simp [Pattern.leaves]) (Or.inl rfl) h
      | farm op =>
        cases other with
        | nil =>
          simp only [do_pipeline_aux, Option.some.injEq] at h
          refine ⟨[Action.register true false (.farm_consumer op)], by rw [← h]; rfl, ?_⟩
          simp only [Pattern.leaves_of, Pattern.leaves, List.append_nil]
          exact List.Forall₂.cons (Or.inr rfl) List.Forall₂.nil
        | cons o os =>
          simp only [do_pipeline_aux, register_by_eq] at h
          exact hcons _ _ _ (by simp [Pattern.leaves]) (Or.inl rfl) h
      | filter p =>
        simp only [do_pipeline_aux, register_by_eq] at h
        exact hcons _ _ _ (by simp [Pattern.leaves]) rfl h
      | reduce r =>
        simp only [do_pipeline_aux] at h
        exact hcons _ _ _ (by simp [Pattern.leaves]) rfl h
      | iteration f p =>
        simp only [do_pipeline_aux, register_by_eq] at h
        exact hcons _ _ _ (by simp [Pattern.leaves]) rfl h
      | iteration_pipeline ts p => simp [do_pipeline_aux] at h
      | pipeline ts =>
        simp only [do_pipeline_aux] at h
        obtain ⟨regs, hregs, hall⟩ := ih b _ acts h
        refine ⟨regs, hregs, ?_⟩
        rw [leaves_of_append] at hall
        simpa [Pattern.leaves_of, Pattern.leaves] using hall

/-- C13: in the translation of a chain every stage gets one
registration, in chain order with nested pipelines spliced in.  The
transformer of a farm is registered parallel, whatever the policy around the
farm; a plain callable with successors, a filter and an iteration, also after
a farm, are registered with the policy `is_farm` the translation was entered
with; a reduce stage and the terminal plain callable are registered
sequential.  `pipeline` enters the translation with the sequential policy. -/
theorem farm_children_parallel (generate_op : G → Option α × G) (is_farm : Bool)
    (chain : List (Pattern α U Rd)) :
    (∀ acts : List (Action α G U Rd), do_pipeline is_farm chain = some acts →
      ∃ regs, acts = regs ++ [Action.run] ∧
        List.Forall₂ (registers_stage is_farm) regs (Pattern.leaves_of chain)) ∧
    (∀ acts : List (Action α G U Rd), pipeline generate_op chain = some acts →
      ∃ regs, acts = Action.register false true (.generator generate_op) :: regs ++ [Action.run] ∧
        List.Forall₂ (registers_stage false) regs (Pattern.leaves_of chain)) := by
  refine ⟨fun acts h => do_pipeline_aux_policy _ _ _ _ h, ?_⟩
  intro acts h
  unfold pipeline at h
  cases hd : (do_pipeline false chain : Option (List (Action α G U Rd))) with
  | none => simp [hd] at h
  | some acts' =>
    simp only [hd, Option.some.injEq] at h
    obtain ⟨regs, hregs, hall⟩ := do_pipeline_aux_policy _ _ _ _ hd
    exact ⟨regs, by rw [← h, hregs]; rfl, hall⟩

/-- C13, witness: a farm, a filter after it, a nested
pipeline with an iteration and a reduce stage, and a consumer. -/
theorem farm_children_parallel_witness :
    ∃ regs : List (Action Int (List Int) (List Int) (List Int)),
      [Action.register false true (.generator list_generator),
       Action.register true false (.no_pattern_end (pure_op (fun x => 2 * x))),
       Action.register false false (.filter (fun x => decide (x % 4 = 0))),
       Action.register false false (.iteration (fun x => x / 2) (fun x => decide (x > 0))),
       Action.register false false (.reduce (window_sum 2)),
       Action.register false false (.consumer collect),
       Action.run]
        = Action.register false true (.generator list_generator) :: regs ++ [Action.run] ∧
      List.Forall₂ (registers_stage false) regs
        (Pattern.leaves_of
          [Pattern.farm (pure_op (fun x => 2 * x)), Pattern.filter (fun x => decide (x % 4 = 0)),
           Pattern.pipeline [Pattern.iteration (fun x => x / 2) (fun x => decide (x > 0)),
             Pattern.reduce (window_sum 2)],
           Pattern.plain collect]) :=
  (farm_children_parallel list_generator false
    [Pattern.farm (pure_op (fun x => 2 * x)), Pattern.filter (fun x => decide (x % 4 = 0)),
     Pattern.pipeline [Pattern.iteration (fun x => x / 2) (fun x => decide (x > 0)),
       Pattern.reduce (window_sum 2)],
     Pattern.plain collect]).2 _ rfl

/-- The translation of a chain does not depend on the fuel once there is
enough of it for one overload resolution per pattern. -/
theorem do_pipeline_aux_fuel : ∀ (n : Nat) (b : Bool) (chain : List (Pattern α U Rd)),
    Pattern.weights chain + 1 ≤ n →
    (do_pipeline_aux n b chain : Option (List (Action α G U Rd)))
      = do_pipeline_aux (Pattern.weights chain + 1) b chain := by
  intro n
  induction n with
  | zero => intro b chain h; omega
  | succ n ih =>
    intro b chain h
    cases chain with
    | nil => simp [do_pipeline_aux, Pattern.weights]
    | cons pat other =>
      have hw : ∀ p : Pattern α U Rd, Pattern.weight p = 1 →
          Pattern.weights (p :: other) + 1 = (Pattern.weights other + 1) + 1 := by
        intro p hp; simp only [Pattern.weights, hp]; omega
      have hn : ∀ p : Pattern α U Rd, Pattern.weight p = 1 →
          Pattern.weights (p :: other) + 1 ≤ n + 1 → Pattern.weights other + 1 ≤ n := by
        intro p hp h'; simp only [Pattern.weights, hp] at h'; omega
      cases pat with
      | plain op =>
        cases other with
        | nil => simp [do_pipeline_aux, Pattern.weights, Pattern.weight]
        | cons o os =>
          rw [hw (Pattern.plain op) (by simp [Pattern.weight])]
          simp only [do_pipeline_aux]
          rw [ih b _ (hn (Pattern.plain op) (by simp [Pattern.weight]) h)]
      | farm op =>
        cases other with
        | nil => simp [do_pipeline_aux, Pattern.weights, Pattern.weight]
        | cons o os =>
          rw [hw (Pattern.farm op) (by simp [Pattern.weight])]
          simp only [do_pipeline_aux]
          rw [ih b _ (hn (Pattern.farm op) (by simp [Pattern.weight]) h)]
      | filter p =>
        rw [hw (Pattern.filter p) (by simp [Pattern.weight])]
        simp only [do_pipeline_aux]
        rw [ih b _ (hn (Pattern.filter p) (by simp [Pattern.weight]) h)]
      | reduce r =>
        rw [hw (Pattern.reduce r) (by simp [Pattern.weight])]
        simp only [do_pipeline_aux]
        rw [ih b _ (hn (Pattern.reduce r) (by simp [Pattern.weight]) h)]
      | iteration f p =>
        rw [hw (Pattern.iteration f p) (by simp [Pattern.weight])]
        simp only [do_pipeline_aux]
        rw [ih b _ (hn (Pattern.iteration f p) (by simp [Pattern.weight]) h)]
      | iteration_pipeline ts p => simp [do_pipeline_aux]
      | pipeline ts =>
        have hw' : Pattern.weights (Pattern.pipeline ts :: other) + 1
            = (Pattern.weights (ts ++ other) + 1) + 1 := by
          rw [weights_append]; simp only [Pattern.weights, Pattern.weight]; omega
        rw [hw']
        simp only [do_pipeline_aux]
        apply ih
        rw [hw'] at h
        omega


/-- C12: a chain that starts with a nested pipeline is translated into
exactly the actions of the flattened chain, the transformers of the nested
pipeline followed by the remaining stages: the same registrations, with the
same closures and kinds, in the same order, then `run`; and the pipeline call
performs them with the same result. -/
theorem nested_pipeline_flattens (generate_op : G → Option α × G)
    (inner outer : List (Pattern α U Rd)) :
    (pipeline generate_op (Pattern.pipeline inner :: outer) : Option (List (Action α G U Rd)))
      = pipeline generate_op (inner ++ outer) ∧
    ∀ (m node : Nat) (alloc : Nat → Bool) (g0 : G) (u0 : U) (rd0 : Rd),
      pipeline_run m node alloc g0 u0 rd0 generate_op (Pattern.pipeline inner :: outer)
        = pipeline_run m node alloc g0 u0 rd0 generate_op (inner ++ outer) := by
  have h : (do_pipeline false (Pattern.pipeline inner :: outer) : Option (List (Action α G U Rd)))
      = do_pipeline false (inner ++ outer) := by
    unfold do_pipeline
    rw [weights_append]
    simp only [Pattern.weights, Pattern.weight]
    rw [show 1 + Pattern.weights inner + Pattern.weights outer + 1
        = (Pattern.weights inner + Pattern.weights outer + 1) + 1 by omega]
    rw [do_pipeline_aux]
  have hp : (pipeline generate_op (Pattern.pipeline inner :: outer) :
      Option (List (Action α G U Rd))) = pipeline generate_op (inner ++ outer) := by
    unfold pipeline
    rw [h]
  refine ⟨hp, ?_⟩
  intro m node alloc g0 u0 rd0
  unfold pipeline_run
  rw [hp]

end Translation

/-! ## Pipeline: releases and tokens -/

section Tokens
variable {α G U Rd : Type}

theorem released_cells_append {C : Type} (a b : List (Entry C)) :
    released_cells (a ++ b) = released_cells a ++ released_cells b := by
  simp [released_cells, List.filterMap_append]

theorem finish_calls_append {C : Type} (a b : List (Entry C)) :
    finish_calls (a ++ b) = finish_calls a ++ finish_calls b := by
  simp [finish_calls, List.filterMap_append]

theorem init_closure_gen (key : Nat) (kind : StageKind α G U Rd) (e : PipeEnv G U Rd) :
    (init_closure key kind e).gen = e.gen := by
  cases kind <;> rfl

theorem env_of_gen : ∀ (acts : List (Action α G U Rd)) (key : Nat) (e : PipeEnv G U Rd),
    (env_of acts key e).gen = e.gen := by
  intro acts
  induction acts with
  | nil => intro key e; rfl
  | cons a acts ih =>
    intro key e
    cases a with
    | register par src kind =>
      simp only [env_of]
      rw [ih, init_closure_gen]
    | run =>
      simp only [env_of]
      rw [ih]

theorem perform_of_run (fuel : Nat) : ∀ (regs : List (Action α G U Rd))
    (tbl : List (Stage (α × Nat) (PipeEnv G U Rd))) (s s' : PState α G U Rd) (t : TD),
    (∀ a ∈ regs, ∃ par src kind, a = Action.register par src kind) →
    run (table_of (regs ++ [Action.run]) tbl) fuel
      { s with env := env_of (regs ++ [Action.run]) tbl.length s.env } = some (t, s') →
    perform fuel (regs ++ [Action.run]) tbl s = some s' := by
  intro regs
  induction regs with
  | nil =>
    intro tbl s s' t _ h
    simp only [List.nil_append, table_of, env_of] at h
    simp only [List.nil_append, perform]
    rw [h]
  | cons a regs ih =>
    intro tbl s s' t hregs h
    obtain ⟨par, src, kind, rfl⟩ := hregs a (by simp)
    simp only [List.cons_append, perform]
    apply ih _ _ s' t (fun a' ha' => hregs a' (by simp [ha']))
    simp only [List.cons_append, table_of, env_of] at h
    simp only [List.length_append, List.length_singleton]
    exact h

/-- C11: a pipeline whose generator yields "done" on its first call runs
to completion with a single dispatch.  The trace of the run is one
`finish_task` call, made on the generator task, which has no input cell: no
stage function calls `set`, `set_task`, `get_release` or `allocate_tokens`, no
cell is stored or released, and the token pool ends at its initial level. -/
theorem empty_generator_run (generate_op : G → Option α × G)
    (chain : List (Pattern α U Rd)) (acts : List (Action α G U Rd))
    (hacts : pipeline generate_op chain = some acts)
    (node : Nat) (alloc : Nat → Bool) (g0 : G) (u0 : U) (rd0 : Rd)
    (hdone : (generate_op g0).1 = none) (m : Nat) (hm : 1 ≤ m) (initial : Int) :
    ∃ s : PState α G U Rd,
      pipeline_run m node alloc g0 u0 rd0 generate_op chain = some s ∧
      s.trace = [⟨TD.mk 0 0 0 [node] false [] [] [], Call.finish_task none⟩] ∧
      finish_calls s.trace = [(TD.mk 0 0 0 [node] false [] [] [], none)] ∧
      submissions_of 0 s.trace = [] ∧ released_cells s.trace = [] ∧
      (∀ d, s.store d = none) ∧ s.next_slot = 0 ∧
      s.pending = [] ∧ token_pool initial s.trace = initial := by
  obtain ⟨regs, hshape, hregs⟩ := pipeline_actions generate_op chain acts hacts
  obtain ⟨h0, -⟩ := pipeline_table generate_op regs hregs
  rw [← hshape] at h0
  have hgen : ((pipeline_start acts node alloc g0 u0 rd0).launch.env.gen) = g0 := by
    simp only [pipeline_start, State.launch, State.fresh]
    rw [env_of_gen]
  obtain ⟨s1, hstep, hpend, -, hstore, -, htrace, hslot, -, -, -, hterm⟩ :=
    step_generator_done (table_of acts []) (pipeline_start acts node alloc g0 u0 rd0).launch
      (TD.mk 0 0 0 [node] false [] [] []) [] _ generate_op rfl rfl rfl h0 rfl
      (by rw [hgen]; exact hdone)
  have hrun := run_of_steps (TD.mk 0 0 0 [node] false [] [] []) (steps_one hstep) hpend hterm m hm
  have hperf : perform m acts [] (State.fresh node alloc ⟨g0, 0, u0, fun _ => rd0, fun _ => 0⟩)
      = some s1 := by
    rw [hshape]
    have := perform_of_run m (Action.register false true (.generator generate_op) :: regs) []
      (State.fresh node alloc ⟨g0, 0, u0, fun _ => rd0, fun _ => 0⟩) s1
      (TD.mk 0 0 0 [node] false [] [] []) (by
        intro a ha
        simp only [List.mem_cons] at ha
        rcases ha with rfl | ha
        · exact ⟨_, _, _, rfl⟩
        · obtain ⟨par, src, kind, h1, _⟩ := hregs a ha
          exact ⟨par, src, kind, h1⟩)
    apply this
    rw [← hshape]
    exact hrun
  have htr : s1.trace = [⟨TD.mk 0 0 0 [node] false [] [] [], Call.finish_task none⟩] := by
    rw [htrace]; rfl
  refine ⟨s1, ?_, htr, ?_, ?_, ?_, ?_, ?_, hpend, ?_⟩
  · simp only [pipeline_run, hacts]
    exact hperf
  · rw [htr]; rfl
  · rw [htr]; rfl
  · rw [htr]; rfl
  · intro d; rw [hstore]; rfl
  · rw [hslot]; rfl
  · rw [htr]; simp [token_pool, Entry.token_change, Entry.releases, finish_task_releases]

/-- C11, witness: the generator of the empty list in front
of a farm, a filter and a consumer. -/
theorem empty_generator_run_witness :
    ∃ s : PState Int (List Int) (List Int) (List Int),
      pipeline_run 1 0 (fun _ => true) [] [] [] list_generator
        [Pattern.farm (pure_op (fun x => 2 * x)), Pattern.filter (fun x => decide (x % 4 = 0)),
         Pattern.plain collect] = some s ∧
      s.trace = [⟨TD.mk 0 0 0 [0] false [] [] [], Call.finish_task none⟩] ∧
      released_cells s.trace = [] ∧ token_pool 8 s.trace = 8 := by
  obtain ⟨s, h1, h2, -, -, h5, -, -, -, h9⟩ :=
    empty_generator_run (list_generator : List Int → Option Int × List Int)
      ([Pattern.farm (pure_op (fun x => 2 * x)), Pattern.filter (fun x => decide (x % 4 = 0)),
        Pattern.plain collect] : List (Pattern Int (List Int) (List Int))) _ rfl
      0 (fun _ => true) [] ([] : List Int) ([] : List Int) rfl 1 (Nat.le_refl 1) 8
  exact ⟨s, h1, h2, h5, h9⟩

end Tokens

/-! ## Divide and conquer: the MERGE stage -/

section MergeStage
variable {P R E : Type}

theorem forall₂_store_update {C : Type} (store : DR → Option C) (d : DR) :
    ∀ (ds : List DR) (cs : List C), d ∉ ds →
      List.Forall₂ (fun d' c' => store d' = some c') ds cs →
      List.Forall₂ (fun d' c' => Function.update store d none d' = some c') ds cs := by
  intro ds
  induction ds with
  | nil => intro cs _ h; cases h; exact List.Forall₂.nil
  | cons d1 ds ih =>
    intro cs hnotin h
    cases h with
    | cons hd htl =>
      simp only [List.mem_cons, not_or] at hnotin
      refine List.Forall₂.cons ?_ (ih _ hnotin.2 htl)
      have : d1 ≠ d := fun h => hnotin.1 h.symm
      simp [Function.update_noteq this, hd]

theorem merge_loop_fold (ops : DCOps P R) (task : TD) :
    ∀ (ds : List DR) (cells : List (P × R)) (data : P × R) (s : State (P × R) E),
      ds.Nodup → List.Forall₂ (fun d c => s.store d = some c) ds cells →
      ∃ s' : State (P × R) E,
        merge_loop ops task ds data s
          = some ((data.1, (cells.map Prod.snd).foldl ops.combine data.2), s') ∧
        s'.trace = s.trace ++ List.zipWith (fun d c => ⟨task, Call.get_release d c⟩) ds cells ∧
        (∀ d ∈ ds, s'.store d = none) ∧ (∀ d', d' ∉ ds → s'.store d' = s.store d') ∧
        s'.pending = s.pending ∧ s'.submitted = s.submitted ∧ s'.finished = s.finished ∧
        s'.next_slot = s.next_slot ∧ s'.next_task = s.next_task ∧ s'.node = s.node ∧
        s'.terminal = s.terminal ∧ s'.alloc_calls = s.alloc_calls := by
  intro ds
  induction ds with
  | nil =>
    intro cells data s _ hall
    cases hall
    exact ⟨s, by simp [merge_loop], by simp, by simp, by simp, rfl, rfl, rfl, rfl, rfl, rfl, rfl,
      rfl⟩
  | cons d ds ih =>
    intro cells data s hnd hall
    cases hall with
    | cons hd htl =>
      rename_i c cs
      rw [List.nodup_cons] at hnd
      obtain ⟨hnotin, hnd'⟩ := hnd
      have htl' : List.Forall₂
          (fun d' c' => (Function.update s.store d none) d' = some c') ds cs :=
        forall₂_store_update s.store d ds cs hnotin htl
      obtain ⟨s', h1, h2, h3, h4, h5, h6, h7, h8, h9, h10, h11, h12⟩ :=
        ih cs (data.1, ops.combine data.2 c.2)
          ({ s with store := Function.update s.store d none,
                    trace := s.trace ++ [⟨task, Call.get_release d c⟩] } : State (P × R) E)
          hnd' htl'
      refine ⟨s', ?_, ?_, ?_, ?_, h5, h6, h7, h8, h9, h10, h11, h12⟩
      · simp only [merge_loop, State.get_release, hd]
        rw [h1]
        simp
      · rw [h2]; simp
      · intro d' hd'
        simp only [List.mem_cons] at hd'
        by_cases hin : d' ∈ ds
        · exact h3 d' hin
        · rcases hd' with rfl | hd'
          · rw [h4 d' hin]; simp
          · exact absurd hd' hin
      · intro d' hd'
        simp only [List.mem_cons, not_or] at hd'
        rw [h4 d' hd'.2]
        simp [Function.update_noteq hd'.1]

/-- C17: for a MERGE task whose `data_location` is `d0 :: ds`, with pairwise
distinct cells that are all live, the stage reads `d0` without releasing it,
read-releases the cells of `ds` once each in `data_location` order, stores
into `d0` the pair of the first field read from `d0` and the left fold of
`combine` over the second fields of the cells of `ds`, started from the second
field read from `d0`, and calls `finish_task` with the count `ds.length`.  It
makes no other call. -/
theorem merge_stage_folds (ops : DCOps P R) (task : TD) (d0 : DR) (ds : List DR)
    (p : P) (a : R) (cells : List (P × R)) (s : State (P × R) E)
    (hloc : task.data_location = d0 :: ds) (hnd : (d0 :: ds).Nodup)
    (h0 : s.store d0 = some (p, a))
    (hcells : List.Forall₂ (fun d c => s.store d = some c) ds cells) :
    ∃ s' : State (P × R) E, merge_function ops task s = some s' ∧
      s'.store d0 = some (p, (cells.map Prod.snd).foldl ops.combine a) ∧
      (∀ d ∈ ds, s'.store d = none) ∧
      (∀ d', d' ∉ d0 :: ds → s'.store d' = s.store d') ∧
      s'.trace = s.trace ++ [⟨task, Call.get d0 (p, a)⟩] ++
        List.zipWith (fun d c => ⟨task, Call.get_release d c⟩) ds cells ++
        [⟨task, Call.set_at (p, (cells.map Prod.snd).foldl ops.combine a) d0⟩,
         ⟨task, Call.finish_task (some ds.length)⟩] ∧
      s'.submitted = s.submitted ∧ s'.finished = task.task_id :: s.finished := by
  rw [List.nodup_cons] at hnd
  obtain ⟨hnotin, hnd'⟩ := hnd
  obtain ⟨s2, h1, h2, h3, h4, -, h6, h7, -, -, -, -, -⟩ :=
    merge_loop_fold ops task ds cells (p, a)
      ({ s with trace := s.trace ++ [⟨task, Call.get d0 (p, a)⟩] } : State (P × R) E) hnd' hcells
  refine ⟨(s2.set_at task (p, (cells.map Prod.snd).foldl ops.combine a) d0).finish_task task
      (some ds.length), ?_, ?_, ?_, ?_, ?_, ?_, ?_⟩
  · simp only [merge_function, hloc, State.get, h0]
    rw [h1]
    simp
  · simp [State.finish_task, State.set_at]
  · intro d hd
    have : d ≠ d0 := by rintro rfl; exact hnotin hd
    simp [State.finish_task, State.set_at, Function.update_noteq this, h3 d hd]
  · intro d' hd'
    simp only [List.mem_cons, not_or] at hd'
    simp [State.finish_task, State.set_at, Function.update_noteq hd'.1, h4 d' hd'.2]
  · simp [State.finish_task, State.set_at, h2]
  · simp [State.finish_task, State.set_at, h6]
  · simp [State.finish_task, State.set_at, h7]

/-- C17, witness: with the difference as combiner the MERGE task on the cells
10, 1 and 2 stores (10 - 1) - 2 into slot 0 and finishes with count 2. -/
theorem merge_stage_folds_witness :
    ∃ s' : State (List Int × Int) Unit,
      merge_function diff_ops sample_merge_task sample_merge_state = some s' ∧
      s'.store ⟨0, 0⟩ = some ([1, 2], 7) ∧
      s'.store ⟨0, 1⟩ = none ∧ s'.store ⟨0, 2⟩ = none ∧
      s'.trace =
        [⟨sample_merge_task, Call.get ⟨0, 0⟩ ([1, 2], 10)⟩,
         ⟨sample_merge_task, Call.get_release ⟨0, 1⟩ ([1], 1)⟩,
         ⟨sample_merge_task, Call.get_release ⟨0, 2⟩ ([2], 2)⟩,
         ⟨sample_merge_task, Call.set_at ([1, 2], 7) ⟨0, 0⟩⟩,
         ⟨sample_merge_task, Call.finish_task (some 2)⟩] := by
  obtain ⟨s', e1, e2, e3, -, e5, -, -⟩ :=
    merge_stage_folds diff_ops sample_merge_task ⟨0, 0⟩ [⟨0, 1⟩, ⟨0, 2⟩] [1, 2] 10
      [([1], 1), ([2], 2)] sample_merge_state rfl (by decide) rfl
      (List.Forall₂.cons rfl (List.Forall₂.cons rfl List.Forall₂.nil))
  exact ⟨s', e1, e2, e3 _ (by simp), e3 _ (by simp), e5⟩

end MergeStage

/-! ## Divide and conquer: the parallel branch of DIVIDE -/

section ParallelBranch
variable {P R E : Type}

theorem submission_log_append {C : Type} (a b : List (Entry C)) :
    submission_log (a ++ b) = submission_log a ++ submission_log b := by
  simp [submission_log, List.filterMap_append]

theorem set_insert_last (a : Nat) : ∀ (l : List Nat), (∀ b ∈ l, b < a) →
    set_insert a l = l ++ [a] := by
  intro l
  induction l with
  | nil => intro _; rfl
  | cons b bs ih =>
    intro h
    have hb : b < a := h b (by simp)
    have h1 : ¬ a < b := by omega
    have h2 : ¬ a = b := by omega
    simp only [set_insert, h1, h2, if_false, List.cons_append]
    rw [ih (fun c hc => h c (by simp [hc]))]

theorem spawned_tasks_ids (nid order node merger : Nat) :
    ∀ (n slot tid : Nat),
      (spawned_tasks nid order node merger slot tid n).map TD.task_id = List.range' tid n := by
  intro n
  induction n with
  | zero => intro slot tid; rfl
  | succ n ih =>
    intro slot tid
    simp [spawned_tasks, ih, List.range'_succ]

theorem spawned_tasks_locations (nid order node merger : Nat) :
    ∀ (n slot tid : Nat),
      (spawned_tasks nid order node merger slot tid n).map TD.data_location
        = (spawned_refs node slot n).map (fun r => [r]) := by
  intro n
  induction n with
  | zero => intro slot tid; rfl
  | succ n ih =>
    intro slot tid
    simp [spawned_tasks, spawned_refs, ih]

theorem spawned_tasks_fields (nid order node merger : Nat) :
    ∀ (n slot tid : Nat) (c : TD), c ∈ spawned_tasks nid order node merger slot tid n →
      c.stage_id = nid ∧ c.order = order ∧ c.before_dep = [] ∧ c.after_dep = [merger] ∧
      c.local_ids = [node] ∧ c.is_hard = false ∧
      ∃ i, i < n ∧ c.task_id = tid + i ∧ c.data_location = [⟨node, slot + i⟩] := by
  intro n
  induction n with
  | zero => intro slot tid c hc; simp [spawned_tasks] at hc
  | succ n ih =>
    intro slot tid c hc
    simp only [spawned_tasks, List.mem_cons] at hc
    rcases hc with rfl | hc
    · exact ⟨rfl, rfl, rfl, rfl, rfl, rfl, 0, by omega, rfl, rfl⟩
    · obtain ⟨h1, h2, h3, h4, h5, h6, i, hi, h7, h8⟩ := ih _ _ c hc
      refine ⟨h1, h2, h3, h4, h5, h6, i + 1, by omega, ?_, ?_⟩
      · rw [h7]; omega
      · rw [h8]; congr 2; omega

theorem spawned_refs_length (node : Nat) : ∀ (n slot : Nat),
    (spawned_refs node slot n).length = n := by
  intro n
  induction n with
  | zero => intro slot; rfl
  | succ n ih => intro slot; simp [spawned_refs, ih]

theorem cells_hold_forall₂ {C : Type} (store : DR → Option C) (node : Nat) :
    ∀ (cells : List C) (slot : Nat), cells_hold store node slot cells →
      List.Forall₂ (fun d c => store d = some c) (spawned_refs node slot cells.length) cells := by
  intro cells
  induction cells with
  | nil => intro slot _; exact List.Forall₂.nil
  | cons c cs ih =>
    intro slot h
    exact List.Forall₂.cons h.1 (ih _ h.2)

theorem spawn_loop_trace (ops : DCOps P R) (nid : Nat) (task merger : TD) :
    ∀ (subs : List P) (locs : List DR) (deps : List Nat) (s : State (P × R) E),
      (∀ b ∈ deps, b < s.next_task) →
      (spawn_loop ops nid task merger subs locs deps s).2.1
          = deps ++ List.range' s.next_task subs.length ∧
      submission_log (spawn_loop ops nid task merger subs locs deps s).2.2.trace
          = submission_log s.trace ++
            (spawned_tasks nid task.order s.node merger.task_id s.next_slot s.next_task
              subs.length).map (fun u => (task, u)) ∧
      finish_calls (spawn_loop ops nid task merger subs locs deps s).2.2.trace
          = finish_calls s.trace ∧
      released_cells (spawn_loop ops nid task merger subs locs deps s).2.2.trace
          = released_cells s.trace ∧
      (spawn_loop ops nid task merger subs locs deps s).2.2.terminal = s.terminal ∧
      (spawn_loop ops nid task merger subs locs deps s).2.2.alloc_calls = s.alloc_calls := by
  intro subs
  induction subs with
  | nil =>
    intro locs deps s _
    simp [spawn_loop, spawned_tasks]
  | cons sub subs ih =>
    intro locs deps s hdeps
    obtain ⟨h1, h2, h3, h4, h5, h6⟩ := ih (locs ++ [⟨s.node, s.next_slot⟩])
      (set_insert s.next_task deps)
      (((s.set task (sub, ops.empty_result)).2.get_task_id.2).set_task task
        (TD.mk nid s.next_task task.order [s.node] false [⟨s.node, s.next_slot⟩] []
          (set_insert merger.task_id [])) false)
      (by
        intro b hb
        rw [mem_set_insert] at hb
        simp only [State.set, State.get_task_id, State.set_task]
        rcases hb with rfl | hb
        · omega
        · have := hdeps b hb; omega)
    simp only [spawn_loop, State.set, State.get_task_id, State.set_task, State.get_node_id]
    simp only [State.set, State.get_task_id, State.set_task, State.get_node_id]
      at h1 h2 h3 h4 h5 h6
    refine ⟨?_, ?_, ?_, ?_, h5, h6⟩
    · rw [h1, set_insert_last _ _ hdeps]
      simp [List.range'_succ]
    · rw [h2]
      simp [submission_log, List.filterMap_append, spawned_tasks]
    · rw [h3]
      simp [finish_calls, List.filterMap_append]
    · rw [h4]
      simp [released_cells, List.filterMap_append]

theorem normal_divide_parallel_full (ops : DCOps P R) (fuel mid nid : Nat) (task : TD) (d : DR)
    (ds : List DR) (s : State (P × R) E) (x : P) (r0 : R)
    (hloc : task.data_location = d :: ds) (hstore : s.store d = some (x, r0))
    (hp : ops.predicate x = false) (hal : s.alloc s.alloc_calls = true) :
    ∃ s' : State (P × R) E,
      normal_divide_function ops fuel mid nid task s = some s' ∧
      s'.submitted = s.submitted ++
        spawned_tasks nid task.order s.node task.task_id s.next_slot s.next_task
          (ops.divide x).length ++
        [TD.mk mid task.task_id task.order task.local_ids task.is_hard
          (task.data_location ++ spawned_refs s.node s.next_slot (ops.divide x).length)
          (List.range' s.next_task (ops.divide x).length) task.after_dep] ∧
      submission_log s'.trace = submission_log s.trace ++
        (spawned_tasks nid task.order s.node task.task_id s.next_slot s.next_task
          (ops.divide x).length ++
        [TD.mk mid task.task_id task.order task.local_ids task.is_hard
          (task.data_location ++ spawned_refs s.node s.next_slot (ops.divide x).length)
          (List.range' s.next_task (ops.divide x).length) task.after_dep]).map
          (fun u => (task, u)) ∧
      finish_calls s'.trace = finish_calls s.trace ∧
      released_cells s'.trace = released_cells s.trace ∧
      s'.finished = s.finished ∧ s'.terminal = s.terminal ∧ s'.pending = s.pending ∧
      s'.next_task = s.next_task + (ops.divide x).length ∧
      s'.next_slot = s.next_slot + (ops.divide x).length ∧ s'.node = s.node ∧
      s'.alloc_calls = s.alloc_calls + 1 ∧
      cells_hold s'.store s.node s.next_slot
        ((ops.divide x).map (fun y => (y, ops.empty_result))) ∧
      (∀ d' : DR, d'.slot_id < s.next_slot → s'.store d' = s.store d') := by
  obtain ⟨h1, -, h3, h4, h5, h6, h7, h8, h9, h10⟩ :=
    spawn_loop_spec ops nid task
      (TD.mk mid task.task_id task.order task.local_ids task.is_hard [] [] task.after_dep)
      (ops.divide x) task.data_location []
      ((State.allocate_tokens
        ({ s with trace := s.trace ++ [⟨task, Call.get d (x, r0)⟩] } :
          State (P × R) E) task (ops.divide x).length).2)
  obtain ⟨t1, t2, t3, t4, t5, t6⟩ :=
    spawn_loop_trace ops nid task
      (TD.mk mid task.task_id task.order task.local_ids task.is_hard [] [] task.after_dep)
      (ops.divide x) task.data_location []
      ((State.allocate_tokens
        ({ s with trace := s.trace ++ [⟨task, Call.get d (x, r0)⟩] } :
          State (P × R) E) task (ops.divide x).length).2) (by simp)
  have hfn : normal_divide_function ops fuel mid nid task s = some
      (State.set_task (spawn_loop ops nid task
        (TD.mk mid task.task_id task.order task.local_ids task.is_hard [] [] task.after_dep)
        (ops.divide x) task.data_location []
        ((State.allocate_tokens
          ({ s with trace := s.trace ++ [⟨task, Call.get d (x, r0)⟩] } :
            State (P × R) E) task (ops.divide x).length).2)).2.2 task
        (TD.mk mid task.task_id task.order task.local_ids task.is_hard
          (spawn_loop ops nid task
            (TD.mk mid task.task_id task.order task.local_ids task.is_hard [] [] task.after_dep)
            (ops.divide x) task.data_location []
            ((State.allocate_tokens
              ({ s with trace := s.trace ++ [⟨task, Call.get d (x, r0)⟩] } :
                State (P × R) E) task (ops.divide x).length).2)).1
          (spawn_loop ops nid task
            (TD.mk mid task.task_id task.order task.local_ids task.is_hard [] [] task.after_dep)
            (ops.divide x) task.data_location []
            ((State.allocate_tokens
              ({ s with trace := s.trace ++ [⟨task, Call.get d (x, r0)⟩] } :
                State (P × R) E) task (ops.divide x).length).2)).2.1
          task.after_dep) false) := by
    simp [normal_divide_function, hloc, State.get, hstore, hp, State.allocate_tokens, hal]
  generalize spawn_loop ops nid task
      (TD.mk mid task.task_id task.order task.local_ids task.is_hard [] [] task.after_dep)
      (ops.divide x) task.data_location []
      ((State.allocate_tokens
        ({ s with trace := s.trace ++ [⟨task, Call.get d (x, r0)⟩] } :
          State (P × R) E) task (ops.divide x).length).2) = sp
    at h1 h3 h4 h5 h6 h7 h8 h9 h10 t1 t2 t3 t4 t5 t6 hfn
  simp only [State.allocate_tokens] at h1 h3 h4 h5 h6 h7 h8 h9 h10 t1 t2 t3 t4 t5 t6
  simp only [List.nil_append] at t1
  rw [h1, t1] at hfn
  refine ⟨_, hfn, ?_, ?_, ?_, ?_, h8, t5, h7, h5, h4, h6, t6, h9, h10⟩
  · simp only [State.set_task]; rw [h3]
  · simp only [State.set_task, submission_log_append, t2]
    simp [submission_log, List.filterMap_append]
  · simp only [State.set_task, finish_calls_append, t3]
    simp [finish_calls, List.filterMap_append]
  · simp only [State.set_task, released_cells_append, t4]
    simp [released_cells, List.filterMap_append]


theorem merge_loop_effect (ops : DCOps P R) (task : TD) :
    ∀ (ds : List DR) (data r : P × R) (s s' : State (P × R) E),
      merge_loop ops task ds data s = some (r, s') →
      submission_log s'.trace = submission_log s.trace ∧
      finish_calls s'.trace = finish_calls s.trace ∧
      s'.submitted = s.submitted ∧ s'.pending = s.pending ∧ s'.finished = s.finished ∧
      s'.next_task = s.next_task ∧ s'.terminal = s.terminal ∧ s'.node = s.node := by
  intro ds
  induction ds with
  | nil =>
    intro data r s s' h
    simp only [merge_loop, Option.some.injEq, Prod.mk.injEq] at h
    obtain ⟨-, rfl⟩ := h
    exact ⟨rfl, rfl, rfl, rfl, rfl, rfl, rfl, rfl⟩
  | cons d ds ih =>
    intro data r s s' h
    simp only [merge_loop, State.get_release] at h
    cases hd : s.store d with
    | none => simp [hd] at h
    | some v =>
      simp only [hd] at h
      obtain ⟨h1, h2, h3, h4, h5, h6, h7, h8⟩ := ih _ _ _ _ h
      refine ⟨?_, ?_, h3, h4, h5, h6, h7, h8⟩
      · rw [h1]; simp [submission_log, List.filterMap_append]
      · rw [h2]; simp [finish_calls, List.filterMap_append]

theorem merge_function_effect (ops : DCOps P R) (task : TD) (s s' : State (P × R) E)
    (h : merge_function ops task s = some s') :
    submission_log s'.trace = submission_log s.trace ∧
    finish_calls s'.trace
      = finish_calls s.trace ++ [(task, some (task.data_location.length - 1))] ∧
    s'.submitted = s.submitted ∧ s'.pending = s.pending ∧
    s'.finished = task.task_id :: s.finished ∧ s'.next_task = s.next_task ∧
    s'.node = s.node := by
  simp only [merge_function] at h
  cases hl : task.data_location with
  | nil => simp [hl] at h
  | cons d0 ds =>
    simp only [hl, State.get] at h
    cases h0 : s.store d0 with
    | none => simp [h0] at h
    | some v =>
      simp only [h0] at h
      cases hm : merge_loop ops task ds v
          ({ s with trace := s.trace ++ [⟨task, Call.get d0 v⟩] } : State (P × R) E) with
      | none => simp [hm] at h
      | some r =>
        obtain ⟨data1, s2⟩ := r
        simp only [hm, Option.some.injEq] at h
        obtain ⟨h1, h2, h3, h4, h5, h6, -, h8⟩ := merge_loop_effect ops task ds v data1 _ s2 hm
        subst h
        refine ⟨?_, ?_, ?_, ?_, ?_, ?_, ?_⟩
        · simp only [State.finish_task, State.set_at, submission_log_append, h1]
          simp [submission_log, List.filterMap_append]
        · simp only [State.finish_task, State.set_at, finish_calls_append, h2]
          simp [finish_calls, List.filterMap_append]
        · simp [State.finish_task, State.set_at, h3]
        · simp [State.finish_task, State.set_at, h4]
        · simp [State.finish_task, State.set_at, h5]
        · simp [State.finish_task, State.set_at, h6]
        · simp [State.finish_task, State.set_at, h8]

theorem normal_divide_effect (ops : DCOps P R) (fuel mid nid : Nat) (task : TD)
    (s s' : State (P × R) E) (h : normal_divide_function ops fuel mid nid task s = some s') :
    s'.pending = s.pending ∧ s'.node = s.node ∧
    ((s'.submitted = s.submitted ∧ submission_log s'.trace = submission_log s.trace ∧
        s'.next_task = s.next_task) ∨
      ∃ (n : Nat) (M : TD),
        s'.submitted = s.submitted ++
          (spawned_tasks nid task.order s.node task.task_id s.next_slot s.next_task n ++ [M]) ∧
        submission_log s'.trace = submission_log s.trace ++
          (spawned_tasks nid task.order s.node task.task_id s.next_slot s.next_task n ++
            [M]).map (fun u => (task, u)) ∧
        s'.next_task = s.next_task + n ∧
        M.stage_id = mid ∧ M.task_id = task.task_id ∧ M.after_dep = task.after_dep ∧
        M.before_dep = List.range' s.next_task n) := by
  cases hl : task.data_location with
  | nil => simp [normal_divide_function, hl] at h
  | cons d ds =>
    cases h0 : s.store d with
    | none => simp [normal_divide_function, hl, State.get, h0] at h
    | some v =>
      obtain ⟨x, r0⟩ := v
      cases hp : ops.predicate x with
      | true =>
        simp only [normal_divide_function, hl, State.get, h0, hp, if_true,
          Option.some.injEq] at h
        subst h
        refine ⟨rfl, rfl, Or.inl ⟨rfl, ?_, rfl⟩⟩
        simp [State.finish_task, State.set_at, submission_log, List.filterMap_append]
      | false =>
        cases hal : s.alloc s.alloc_calls with
        | false =>
          simp only [normal_divide_function, hl, State.get, h0, hp, State.allocate_tokens,
            hal, Bool.false_eq_true, if_false, if_true] at h
          cases hseq : seq_divide_conquer ops fuel x with
          | none => simp [hseq] at h
          | some r =>
            simp only [hseq, Option.some.injEq] at h
            subst h
            refine ⟨rfl, rfl, Or.inl ⟨rfl, ?_, rfl⟩⟩
            simp [State.finish_task, State.set_at, submission_log, List.filterMap_append]
        | true =>
          obtain ⟨s2, e1, e2, e3, -, -, -, -, e8, e9, -, e11, -, -, -⟩ :=
            normal_divide_parallel_full ops fuel mid nid task d ds s x r0 hl h0 hp hal
          rw [e1, Option.some.injEq] at h
          subst h
          refine ⟨e8, e11, Or.inr ⟨(ops.divide x).length, _, ?_, e3, e9, rfl, rfl, rfl, rfl⟩⟩
          rw [e2, List.append_assoc]

/-- C18: in the parallel branch the DIVIDE stage makes no `finish_task` call.
It stores the sub-problems, submits one child task for each and, last, the
MERGE task, which carries the identifier of the running DIVIDE task; the
identifier is left unfinished and the cell of the task untouched.  The
`finish_task` call for that identifier is the one of the MERGE stage: whenever
that stage runs on the submitted MERGE task it makes a single `finish_task`
call, with the number of sub-problems as count, and the identifier is
finished. -/
theorem divide_parallel_leaves_finish_to_merge (ops : DCOps P R) (fuel mid nid : Nat)
    (task : TD) (d : DR) (s : State (P × R) E) (x : P) (r0 : R)
    (hloc : task.data_location = [d]) (hstore : s.store d = some (x, r0))
    (hslot : d.slot_id < s.next_slot)
    (hp : ops.predicate x = false) (hal : s.alloc s.alloc_calls = true) :
    ∃ (s' : State (P × R) E) (children : List TD) (M : TD),
      normal_divide_function ops fuel mid nid task s = some s' ∧
      s'.submitted = s.submitted ++ children ++ [M] ∧
      children.length = (ops.divide x).length ∧
      M.stage_id = mid ∧ M.task_id = task.task_id ∧
      finish_calls s'.trace = finish_calls s.trace ∧
      s'.finished = s.finished ∧ s'.terminal = s.terminal ∧
      s'.store d = some (x, r0) ∧
      (∀ sm sm' : State (P × R) E, merge_function ops M sm = some sm' →
        finish_calls sm'.trace = finish_calls sm.trace ++ [(M, some (ops.divide x).length)] ∧
        sm'.finished = task.task_id :: sm.finished) := by
  obtain ⟨s', h1, h2, -, h4, -, h6, h7, -, -, -, -, -, -, h14⟩ :=
    normal_divide_parallel_full ops fuel mid nid task d [] s x r0 hloc hstore hp hal
  refine ⟨s', _, _, h1, h2, spawned_tasks_length _ _ _ _ _ _ _, rfl, rfl, h4, h6, h7, ?_, ?_⟩
  · rw [h14 d hslot]; exact hstore
  · intro sm sm' hm
    obtain ⟨-, e2, -, -, e5, -, -⟩ := merge_function_effect ops _ sm sm' hm
    refine ⟨?_, e5⟩
    rw [e2, hloc]
    simp [spawned_refs_length]

end ParallelBranch

/-! ## Divide and conquer: invariants of a run -/

section RunInvariants
variable {P R E : Type}

theorem pick_spec (fin : List Nat) : ∀ (l : List TD) (t : TD) (rest : List TD),
    pick fin l = some (t, rest) → ∃ pre post, l = pre ++ t :: post ∧ rest = pre ++ post := by
  intro l
  induction l with
  | nil => intro t rest h; simp [pick] at h
  | cons u us ih =>
    intro t rest h
    simp only [pick] at h
    by_cases hr : ready fin u = true
    · simp only [hr, if_true, Option.some.injEq, Prod.mk.injEq] at h
      obtain ⟨rfl, rfl⟩ := h
      exact ⟨[], us, rfl, rfl⟩
    · simp only [hr] at h
      cases hp : pick fin us with
      | none => simp [hp] at h
      | some r =>
        obtain ⟨v, r'⟩ := r
        simp only [hp, if_false, Option.some.injEq, Prod.mk.injEq] at h
        obtain ⟨rfl, rfl⟩ := h
        obtain ⟨pre, post, h1, h2⟩ := ih _ _ hp
        exact ⟨u :: pre, post, by rw [h1]; rfl, by rw [h2]; rfl⟩

theorem step_decompose {C E : Type} (stages : List (Stage C E)) (s s' : State C E)
    (h : step stages s = some s') :
    ∃ (t : TD) (pre post : List TD) (st : Stage C E) (s1 : State C E),
      s.pending = pre ++ t :: post ∧ stages.get? t.stage_id = some st ∧
      st.fn t { s with pending := pre ++ post } = some s1 ∧ s' = s1.enqueue := by
  unfold step at h
  split at h
  · simp at h
  · rename_i t rest hpick
    obtain ⟨pre, post, h1, h2⟩ := pick_spec _ _ _ _ hpick
    split at h
    · simp at h
    · rename_i st hst
      split at h
      · simp at h
      · rename_i s1 hfn
        simp only [Option.some.injEq] at h
        subst h2
        exact ⟨t, pre, post, st, s1, h1, hst, hfn, h.symm⟩

/-- What one dispatch of a stage of `divide_conquer` submits: fresh tasks (the
END task, the child DIVIDE tasks) with consecutive new identifiers, then at
most one MERGE task, which carries the identifier of the dispatched task. -/
theorem dc_stage_effect (ops : DCOps P R) (fuel : Nat) (input : P) (t : TD)
    (st : Stage (P × R) E) (s s1 : State (P × R) E)
    (hst : (divide_conquer_stages ops fuel input : List (Stage (P × R) E)).get? t.stage_id
      = some st)
    (hfn : st.fn t s = some s1) :
    s1.pending = s.pending ∧
    ∃ (c : TD) (fresh merges : List TD),
      s1.submitted = s.submitted ++ (fresh ++ merges) ∧
      submission_log s1.trace
        = submission_log s.trace ++ (fresh ++ merges).map (fun u => (c, u)) ∧
      fresh.map TD.task_id = List.range' s.next_task fresh.length ∧
      s1.next_task = s.next_task + fresh.length ∧
      c.task_id = t.task_id ∧ c.stage_id = t.stage_id ∧
      (t.stage_id ≠ 0 → c = t) ∧
      (∀ u ∈ fresh, (u.stage_id = 1 ∧ u.after_dep = [t.task_id] ∧ merges ≠ [] ∧
          ∃ d, u.data_location = [d]) ∨
        (u.stage_id = 3 ∧ t.stage_id = 0 ∧ c.after_dep = [u.task_id])) ∧
      (t.stage_id = 0 → ∃ u ∈ fresh, u.stage_id = 3) ∧
      (merges = [] ∨ ∃ M, merges = [M] ∧ M.stage_id = 2 ∧ M.task_id = t.task_id ∧
        M.after_dep = c.after_dep ∧ t.stage_id ≤ 1) := by
  have hlt : t.stage_id < 4 := by
    by_contra hge
    have : (divide_conquer_stages ops fuel input : List (Stage (P × R) E)).get? t.stage_id
        = none := by
      apply List.get?_eq_none.mpr
      simp [divide_conquer_stages]; omega
    rw [this] at hst; simp at hst
  generalize hk : t.stage_id = k at hst hlt
  interval_cases k
  · -- INIT
    rw [stages_get_zero] at hst
    simp only [Option.some.injEq] at hst
    subst hst
    simp only [init_divide_function, State.set, State.get_task_id, State.get_node_id] at hfn
    obtain ⟨e1, e2, e3⟩ := normal_divide_effect ops fuel 2 1 _ _ s1 hfn
    simp only [State.set_task] at e1 e2 e3
    refine ⟨e1, ?_⟩
    rcases e3 with ⟨e3, e4, e5⟩ | ⟨n, M, e3, e4, e5, e6, e7, e8, -⟩
    · refine ⟨TD.mk t.stage_id t.task_id t.order [s.node] false [⟨s.node, s.next_slot⟩]
          t.before_dep (set_insert s.next_task []),
        [TD.mk 3 s.next_task t.order [s.node] false [⟨s.node, s.next_slot⟩]
          (set_insert t.task_id []) []], [], by simpa using e3, ?_, rfl, by simpa using e5,
        rfl, hk, fun h => absurd rfl h, ?_, fun _ => ⟨_, List.mem_singleton.mpr rfl, rfl⟩,
        Or.inl rfl⟩
      · rw [e4]; simp [submission_log, List.filterMap_append]
      · intro u hu
        rw [List.mem_singleton] at hu
        subst hu
        exact Or.inr ⟨rfl, rfl, rfl⟩
    · refine ⟨TD.mk t.stage_id t.task_id t.order [s.node] false [⟨s.node, s.next_slot⟩]
          t.before_dep (set_insert s.next_task []),
        TD.mk 3 s.next_task t.order [s.node] false [⟨s.node, s.next_slot⟩]
          (set_insert t.task_id []) [] ::
          spawned_tasks 1 t.order s.node t.task_id (s.next_slot + 1) (s.next_task + 1) n,
        [M], ?_, ?_, ?_, ?_, rfl, hk, fun h => absurd rfl h, ?_,
        fun _ => ⟨_, List.mem_cons_self _ _, rfl⟩,
        Or.inr ⟨M, rfl, e6, e7, e8, by omega⟩⟩
      · rw [e3]; simp
      · rw [e4]; simp [submission_log, List.filterMap_append]
      · simp [spawned_tasks_ids, spawned_tasks_length, List.range'_succ]
      · rw [e5]; simp [spawned_tasks_length]; omega
      · intro u hu
        rw [List.mem_cons] at hu
        rcases hu with rfl | hu
        · exact Or.inr ⟨rfl, rfl, rfl⟩
        · obtain ⟨h1, -, -, h4, -, -, i, -, -, h8⟩ := spawned_tasks_fields _ _ _ _ _ _ _ u hu
          exact Or.inl ⟨h1, h4, by simp, _, h8⟩
  · -- DIVIDE
    rw [stages_get_one] at hst
    simp only [Option.some.injEq] at hst
    subst hst
    obtain ⟨e1, e2, e3⟩ := normal_divide_effect ops fuel 2 1 t s s1 hfn
    refine ⟨e1, t, ?_⟩
    rcases e3 with ⟨e3, e4, e5⟩ | ⟨n, M, e3, e4, e5, e6, e7, e8, e9⟩
    · exact ⟨[], [], by simpa using e3, by simpa using e4, rfl, by simpa using e5, rfl, hk,
        fun _ => rfl, by simp, by intro h; omega, Or.inl rfl⟩
    · refine ⟨spawned_tasks 1 t.order s.node t.task_id s.next_slot s.next_task n, [M], e3, e4,
        ?_, ?_, rfl, hk, fun _ => rfl, ?_, by intro h; omega,
        Or.inr ⟨M, rfl, e6, e7, e8, by omega⟩⟩
      · simp [spawned_tasks_ids, spawned_tasks_length]
      · rw [e5]; simp [spawned_tasks_length]
      · intro u hu
        obtain ⟨h1, -, -, h4, -, -, i, -, -, h8⟩ := spawned_tasks_fields _ _ _ _ _ _ _ u hu
        exact Or.inl ⟨h1, h4, by simp, _, h8⟩
  · -- MERGE
    rw [stages_get_two] at hst
    simp only [Option.some.injEq] at hst
    subst hst
    obtain ⟨e1, -, e3, e4, -, e6, -⟩ := merge_function_effect ops t s s1 hfn
    exact ⟨e4, t, [], [], by simpa using e3, by simpa using e1, rfl, by simpa using e6, rfl,
      hk, fun _ => rfl, by simp, by intro h; omega, Or.inl rfl⟩
  · -- END
    rw [stages_get_three] at hst
    simp only [Option.some.injEq] at hst
    subst hst
    simp only [ending_function, Option.some.injEq] at hfn
    subst hfn
    refine ⟨rfl, t, [], [], by simp [State.finish_task], ?_, rfl, by simp [State.finish_task],
      rfl, hk, fun _ => rfl, by simp, by intro h; omega, Or.inl rfl⟩
    simp [State.finish_task, submission_log, List.filterMap_append]

theorem issued_task_ids_of_log {C : Type} (tr tr' : List (Entry C)) (c : TD) (fresh merges : List TD)
    (hlog : submission_log tr' = submission_log tr ++ (fresh ++ merges).map (fun u => (c, u)))
    (hfresh : ∀ u ∈ fresh, u.stage_id ≠ 2) (hmerges : ∀ u ∈ merges, u.stage_id = 2) :
    issued_task_ids tr' = issued_task_ids tr ++ fresh.map TD.task_id ∧
    merge_task_ids tr' = merge_task_ids tr ++ merges.map TD.task_id := by
  have h1 : (fresh.map (fun u => (c, u))).filter (fun p => decide (p.2.stage_id ≠ 2))
      = fresh.map (fun u => (c, u)) := by
    rw [List.filter_eq_self]
    intro p hp
    rw [List.mem_map] at hp
    obtain ⟨u, hu, rfl⟩ := hp
    simpa using hfresh u hu
  have h2 : (merges.map (fun u => (c, u))).filter (fun p => decide (p.2.stage_id ≠ 2)) = [] := by
    rw [List.filter_eq_nil_iff]
    intro p hp
    rw [List.mem_map] at hp
    obtain ⟨u, hu, rfl⟩ := hp
    simpa using hmerges u hu
  have h3 : (fresh.map (fun u => (c, u))).filter (fun p => decide (p.2.stage_id = 2)) = [] := by
    rw [List.filter_eq_nil_iff]
    intro p hp
    rw [List.mem_map] at hp
    obtain ⟨u, hu, rfl⟩ := hp
    simpa using hfresh u hu
  have h4 : (merges.map (fun u => (c, u))).filter (fun p => decide (p.2.stage_id = 2))
      = merges.map (fun u => (c, u)) := by
    rw [List.filter_eq_self]
    intro p hp
    rw [List.mem_map] at hp
    obtain ⟨u, hu, rfl⟩ := hp
    simpa using hmerges u hu
  constructor
  · simp only [issued_task_ids, hlog, List.map_append, List.filter_append, h1, h2,
      List.append_nil, List.map_map]
    rfl
  · simp only [merge_task_ids, hlog, List.map_append, List.filter_append, h3, h4,
      List.nil_append, List.map_map]
    rfl

theorem queued_divide_ids_append (a b : List TD) :
    queued_divide_ids (a ++ b) = queued_divide_ids a ++ queued_divide_ids b := by
  simp [queued_divide_ids, List.filter_append]

theorem queued_divide_ids_sublist (fresh : List TD) :
    (queued_divide_ids fresh).Sublist (fresh.map TD.task_id) :=
  List.Sublist.map _ (List.filter_sublist _)

theorem ids_inv_step (ops : DCOps P R) (fuel : Nat) (input : P) (s s' : State (P × R) E)
    (hinv : IdsInv s)
    (h : step (divide_conquer_stages ops fuel input) s = some s') : IdsInv s' := by
  obtain ⟨t, pre, post, st, s1, hpend, hst, hfn, rfl⟩ := step_decompose _ _ _ h
  obtain ⟨e0, c, fresh, merges, e1, e2, e3, e4, e5, e6, -, e8, -, e10⟩ :=
    dc_stage_effect ops fuel input t st _ s1 hst hfn
  replace e0 : s1.pending = pre ++ post := e0
  replace e1 : s1.submitted = s.submitted ++ (fresh ++ merges) := e1
  replace e2 : submission_log s1.trace
      = submission_log s.trace ++ (fresh ++ merges).map (fun u => (c, u)) := e2
  replace e3 : fresh.map TD.task_id = List.range' s.next_task fresh.length := e3
  replace e4 : s1.next_task = s.next_task + fresh.length := e4
  simp only [hinv.submitted_nil, List.nil_append] at e1
  have hfresh : ∀ u ∈ fresh, u.stage_id ≠ 2 := by
    intro u hu
    rcases e8 u hu with ⟨h1, -⟩ | ⟨h1, -⟩ <;> omega
  have hmerges : ∀ u ∈ merges, u.stage_id = 2 := by
    intro u hu
    rcases e10 with rfl | ⟨M, rfl, h1, -⟩
    · simp at hu
    · rw [List.mem_singleton] at hu; rw [hu]; exact h1
  obtain ⟨hiss, hmer⟩ := issued_task_ids_of_log s.trace s1.trace c fresh merges e2 hfresh hmerges
  have hq : queued_divide_ids s.pending
      = queued_divide_ids pre ++ queued_divide_ids [t] ++ queued_divide_ids post := by
    rw [hpend, queued_divide_ids_append, ← List.singleton_append, queued_divide_ids_append,
      List.append_assoc]
  have hqm : queued_divide_ids merges = [] := by
    simp only [queued_divide_ids, List.map_eq_nil_iff, List.filter_eq_nil_iff]
    intro u hu
    have := hmerges u hu
    simp [this]
  have hq' : queued_divide_ids s1.enqueue.pending
      = queued_divide_ids fresh ++ (queued_divide_ids pre ++ queued_divide_ids post) := by
    simp only [State.enqueue, e1, e0, queued_divide_ids_append, hqm, List.append_nil]
  have hsubl : ∀ i ∈ queued_divide_ids pre ++ queued_divide_ids post,
      i ∈ queued_divide_ids s.pending := by
    intro i hi
    rw [hq]
    simp only [List.mem_append] at hi ⊢
    rcases hi with hi | hi
    · exact Or.inl (Or.inl hi)
    · exact Or.inr hi
  have hfr : ∀ i ∈ fresh.map TD.task_id, s.next_task ≤ i ∧ i < s.next_task + fresh.length := by
    intro i hi
    rw [e3, List.mem_range'_1] at hi
    exact hi
  have hfrq : ∀ i ∈ queued_divide_ids fresh, s.next_task ≤ i ∧ i < s.next_task + fresh.length :=
    fun i hi => hfr i ((queued_divide_ids_sublist fresh).subset hi)
  -- the identifier of a task that submits a MERGE task
  have hmid : ∀ M ∈ merges, M.task_id = t.task_id ∧ t.task_id < s.next_task ∧
      t.task_id ∉ merge_task_ids s.trace ∧
      t.task_id ∉ queued_divide_ids pre ++ queued_divide_ids post ∧ t.stage_id ≤ 1 := by
    intro M hM
    rcases e10 with rfl | ⟨M', rfl, -, h2, -, h4⟩
    · simp at hM
    · rw [List.mem_singleton] at hM
      subst hM
      have htq : queued_divide_ids [t] = [t.task_id] := by
        simp [queued_divide_ids, h4]
      have hmem : t.task_id ∈ queued_divide_ids s.pending := by
        rw [hq, htq]; simp
      refine ⟨h2, hinv.queued_lt _ hmem, hinv.queued_unmerged _ hmem, ?_, h4⟩
      have hnd := hinv.queued_nodup
      rw [hq, htq] at hnd
      intro hin
      rw [List.mem_append] at hin
      rw [List.append_assoc, List.nodup_append] at hnd
      obtain ⟨-, hnd2, hdisj⟩ := hnd
      rcases hin with hin | hin
      · exact hdisj hin (by simp)
      · simp only [List.singleton_append, List.nodup_cons] at hnd2
        exact hnd2.1 hin
  refine ⟨rfl, ?_, ?_, ?_, ?_, ?_, ?_, ?_, ?_, ?_, ?_⟩
  · -- issued_nodup
    show (0 :: issued_task_ids s1.trace).Nodup
    rw [hiss, ← List.cons_append]
    refine List.Nodup.append hinv.issued_nodup ?_ ?_
    · rw [e3]; exact List.nodup_range' _ _
    · intro i hi1 hi2
      have := hfr i hi2
      rw [List.mem_cons] at hi1
      rcases hi1 with rfl | hi1
      · have := hinv.next_pos; omega
      · have := hinv.issued_lt i hi1; omega
  · -- issued_lt
    intro i hi
    show i < s1.next_task
    rw [e4]
    change i ∈ issued_task_ids s1.trace at hi
    rw [hiss, List.mem_append] at hi
    rcases hi with hi | hi
    · have := hinv.issued_lt i hi; omega
    · exact (hfr i hi).2
  · show 0 < s1.next_task
    rw [e4]; have := hinv.next_pos; omega
  · -- merge_nodup
    show (merge_task_ids s1.trace).Nodup
    rw [hmer]
    refine List.Nodup.append hinv.merge_nodup ?_ ?_
    · rcases e10 with rfl | ⟨M, rfl, -⟩ <;> simp
    · intro i hi1 hi2
      rw [List.mem_map] at hi2
      obtain ⟨M, hM, rfl⟩ := hi2
      obtain ⟨h1, -, h3, -, -⟩ := hmid M hM
      rw [h1] at hi1
      exact h3 hi1
  · -- merge_lt
    intro i hi
    show i < s1.next_task
    rw [e4]
    change i ∈ merge_task_ids s1.trace at hi
    rw [hmer, List.mem_append] at hi
    rcases hi with hi | hi
    · have := hinv.merge_lt i hi; omega
    · rw [List.mem_map] at hi
      obtain ⟨M, hM, rfl⟩ := hi
      obtain ⟨h1, h2, -, -, -⟩ := hmid M hM
      omega
  · -- merge_caller
    intro p hp hp2
    change p ∈ submission_log s1.trace at hp
    rw [e2, List.mem_append] at hp
    rcases hp with hp | hp
    · exact hinv.merge_caller p hp hp2
    · rw [List.mem_map] at hp
      obtain ⟨u, hu, rfl⟩ := hp
      rw [List.mem_append] at hu
      rcases hu with hu | hu
      · exact absurd hp2 (hfresh u hu)
      · exact ⟨by rw [(hmid u hu).1, e5], by rw [e6]; exact (hmid u hu).2.2.2.2⟩
  · -- stage_range
    intro p hp
    change p ∈ submission_log s1.trace at hp
    rw [e2, List.mem_append] at hp
    rcases hp with hp | hp
    · exact hinv.stage_range p hp
    · rw [List.mem_map] at hp
      obtain ⟨u, hu, rfl⟩ := hp
      rw [List.mem_append] at hu
      rcases hu with hu | hu
      · rcases e8 u hu with ⟨h1, -⟩ | ⟨h1, -⟩
        · exact Or.inl h1
        · exact Or.inr (Or.inr h1)
      · exact Or.inr (Or.inl (hmerges u hu))
  · -- queued_nodup
    rw [hq']
    refine List.Nodup.append ?_ ?_ ?_
    · exact List.Nodup.sublist (queued_divide_ids_sublist fresh)
        (by rw [e3]; exact List.nodup_range' _ _)
    · have hnd := hinv.queued_nodup
      rw [hq] at hnd
      refine List.Nodup.sublist ?_ hnd
      rw [List.append_assoc]
      exact List.Sublist.append (List.Sublist.refl _) (List.sublist_append_right _ _)
    · intro i hi1 hi2
      have h1 := (hfrq i hi1).1
      have h2 := hinv.queued_lt i (hsubl i hi2)
      omega
  · -- queued_lt
    intro i hi
    rw [hq', List.mem_append] at hi
    show i < s1.next_task
    rw [e4]
    rcases hi with hi | hi
    · exact (hfrq i hi).2
    · have := hinv.queued_lt i (hsubl i hi); omega
  · -- queued_unmerged
    intro i hi
    rw [hq', List.mem_append] at hi
    show i ∉ merge_task_ids s1.trace
    rw [hmer, List.mem_append]
    rintro (hm | hm)
    · rcases hi with hi | hi
      · have h1 := (hfrq i hi).1
        have h2 := hinv.merge_lt i hm
        omega
      · exact hinv.queued_unmerged i (hsubl i hi) hm
    · rw [List.mem_map] at hm
      obtain ⟨M, hM, rfl⟩ := hm
      obtain ⟨h1, h2, -, h4, -⟩ := hmid M hM
      rcases hi with hi | hi
      · have := (hfrq _ hi).1
        omega
      · rw [h1] at hi
        exact h4 (List.mem_append.mpr (List.mem_append.mp hi))

theorem ids_inv_steps (ops : DCOps P R) (fuel : Nat) (input : P) :
    ∀ (n : Nat) (s s' : State (P × R) E), IdsInv s →
      steps (divide_conquer_stages ops fuel input) n s = some s' → IdsInv s' := by
  intro n
  induction n with
  | zero =>
    intro s s' hinv h
    simp only [steps, Option.some.injEq] at h
    rw [← h]; exact hinv
  | succ n ih =>
    intro s s' hinv h
    simp only [steps] at h
    cases hs : step (divide_conquer_stages ops fuel input) s with
    | none => simp [hs] at h
    | some s1 =>
      simp only [hs] at h
      exact ih s1 s' (ids_inv_step ops fuel input s s1 hinv hs) h

theorem ids_inv_launch (node : Nat) (alloc : Nat → Bool) (e : E) :
    IdsInv (State.fresh node alloc e : State (P × R) E).launch := by
  refine ⟨rfl, ?_, ?_, ?_, ?_, ?_, ?_, ?_, ?_, ?_, ?_⟩ <;>
    simp [State.launch, State.fresh, issued_task_ids, merge_task_ids, submission_log,
      queued_divide_ids]

end RunInvariants

section RunDeps
variable {P R E : Type}

theorem deps_inv_step (ops : DCOps P R) (fuel : Nat) (input : P) (s s' : State (P × R) E)
    (hinv : DepsInv s)
    (h : step (divide_conquer_stages ops fuel input) s = some s') : DepsInv s' := by
  obtain ⟨t, pre, post, st, s1, hpend, hst, hfn, rfl⟩ := step_decompose _ _ _ h
  obtain ⟨e0, c, fresh, merges, e1, e2, -, -, -, e6, e7, e8, e9, e10⟩ :=
    dc_stage_effect ops fuel input t st _ s1 hst hfn
  replace e0 : s1.pending = pre ++ post := e0
  replace e1 : s1.submitted = s.submitted ++ (fresh ++ merges) := e1
  replace e2 : submission_log s1.trace
      = submission_log s.trace ++ (fresh ++ merges).map (fun u => (c, u)) := e2
  simp only [hinv.submitted_nil, List.nil_append] at e1
  have hold : ∀ p ∈ submission_log s.trace, p ∈ submission_log s1.trace := by
    intro p hp; rw [e2]; exact List.mem_append_left _ hp
  have hnew : ∀ u ∈ fresh ++ merges, (c, u) ∈ submission_log s1.trace := by
    intro u hu; rw [e2]
    exact List.mem_append_right _ (List.mem_map.mpr ⟨u, hu, rfl⟩)
  have htmem : t ∈ s.pending := by rw [hpend]; simp
  have hmerges : ∀ u ∈ merges, u.stage_id = 2 ∧ u.after_dep = c.after_dep ∧
      u.task_id = t.task_id ∧ t.stage_id ≤ 1 := by
    intro u hu
    rcases e10 with rfl | ⟨M, rfl, h1, h2, h3, h4⟩
    · simp at hu
    · rw [List.mem_singleton] at hu; subst hu; exact ⟨h1, h3, h2, h4⟩
  refine ⟨rfl, ?_, ?_, ?_⟩
  · -- queued_logged
    intro T hT hstage
    change T ∈ s1.submitted ++ s1.pending at hT
    rw [e1, e0, List.mem_append] at hT
    show ∃ parent, (parent, T) ∈ submission_log s1.trace
    rcases hT with hT | hT
    · exact ⟨c, hnew T hT⟩
    · have : T ∈ s.pending := by
        rw [hpend]
        simp only [List.mem_append, List.mem_cons] at hT ⊢
        rcases hT with hT | hT
        · exact Or.inl hT
        · exact Or.inr (Or.inr hT)
      obtain ⟨parent, hparent⟩ := hinv.queued_logged T this hstage
      exact ⟨parent, hold _ hparent⟩
  · -- child_dep
    intro p hp hstage
    change p ∈ submission_log s1.trace at hp
    show (∃ d, p.2.data_location = [d]) ∧
      ∃ M, (p.1, M) ∈ submission_log s1.trace ∧ M.stage_id = 2 ∧ p.2.after_dep = [M.task_id]
    rw [e2, List.mem_append] at hp
    rcases hp with hp | hp
    · obtain ⟨h1, M, h2, h3, h4⟩ := hinv.child_dep p hp hstage
      exact ⟨h1, M, hold _ h2, h3, h4⟩
    · rw [List.mem_map] at hp
      obtain ⟨u, hu, rfl⟩ := hp
      rw [List.mem_append] at hu
      rcases hu with hu | hu
      · rcases e8 u hu with ⟨-, h2, h3, h4⟩ | ⟨h1, -⟩
        · cases hm : merges with
          | nil => exact absurd hm h3
          | cons M ms =>
            have hM : M ∈ merges := by rw [hm]; simp
            obtain ⟨g1, -, g3, -⟩ := hmerges M hM
            exact ⟨h4, M, hnew M (List.mem_append_right _ hM), g1, by rw [h2, g3]⟩
        · simp only at hstage; omega
      · have := (hmerges u hu).1
        simp only at hstage; omega
  · -- merge_dep
    intro p hp hstage
    change p ∈ submission_log s1.trace at hp
    show p.2.after_dep = p.1.after_dep ∧
      ((p.1.stage_id = 0 ∧ ∃ END, (p.1, END) ∈ submission_log s1.trace ∧ END.stage_id = 3 ∧
          p.2.after_dep = [END.task_id]) ∨
        (p.1.stage_id = 1 ∧ ∃ parent M, (parent, p.1) ∈ submission_log s1.trace ∧
          (parent, M) ∈ submission_log s1.trace ∧ M.stage_id = 2 ∧
          p.2.after_dep = [M.task_id]))
    rw [e2, List.mem_append] at hp
    rcases hp with hp | hp
    · obtain ⟨h1, h2⟩ := hinv.merge_dep p hp hstage
      refine ⟨h1, ?_⟩
      rcases h2 with ⟨g1, END, g2, g3, g4⟩ | ⟨g1, parent, M, g2, g3, g4, g5⟩
      · exact Or.inl ⟨g1, END, hold _ g2, g3, g4⟩
      · exact Or.inr ⟨g1, parent, M, hold _ g2, hold _ g3, g4, g5⟩
    · rw [List.mem_map] at hp
      obtain ⟨u, hu, rfl⟩ := hp
      rw [List.mem_append] at hu
      rcases hu with hu | hu
      · rcases e8 u hu with ⟨h1, -⟩ | ⟨h1, -⟩ <;> (simp only at hstage; omega)
      · obtain ⟨-, g2, -, g4⟩ := hmerges u hu
        refine ⟨g2, ?_⟩
        by_cases h0 : t.stage_id = 0
        · obtain ⟨END, hEND, hEND3⟩ := e9 h0
          rcases e8 END hEND with ⟨h1, -⟩ | ⟨-, -, h3⟩
          · omega
          · exact Or.inl ⟨by rw [e6, h0], END, hnew END (List.mem_append_left _ hEND), hEND3,
              by rw [g2, h3]⟩
        · have hc : c = t := e7 h0
          have h1 : t.stage_id = 1 := by omega
          obtain ⟨parent, hparent⟩ := hinv.queued_logged t htmem h1
          obtain ⟨-, M, k2, k3, k4⟩ := hinv.child_dep _ hparent h1
          refine Or.inr ⟨by rw [hc]; exact h1, parent, M, ?_, hold _ k2, k3, ?_⟩
          · rw [hc]; exact hold _ hparent
          · show u.after_dep = [M.task_id]
            rw [g2, hc]; exact k4

theorem deps_inv_steps (ops : DCOps P R) (fuel : Nat) (input : P) :
    ∀ (n : Nat) (s s' : State (P × R) E), DepsInv s →
      steps (divide_conquer_stages ops fuel input) n s = some s' → DepsInv s' := by
  intro n
  induction n with
  | zero =>
    intro s s' hinv h
    simp only [steps, Option.some.injEq] at h
    rw [← h]; exact hinv
  | succ n ih =>
    intro s s' hinv h
    simp only [steps] at h
    cases hs : step (divide_conquer_stages ops fuel input) s with
    | none => simp [hs] at h
    | some s1 =>
      simp only [hs] at h
      exact ih s1 s' (deps_inv_step ops fuel input s s1 hinv hs) h

theorem deps_inv_launch (node : Nat) (alloc : Nat → Bool) (e : E) :
    DepsInv (State.fresh node alloc e : State (P × R) E).launch := by
  refine ⟨rfl, ?_, ?_, ?_⟩ <;>
    simp [State.launch, State.fresh, submission_log]

end RunDeps

/-! ## Divide and conquer: identifiers and dependencies of the task tree -/

section TaskTree
variable {P R E : Type}

/-- C14: in a `divide_conquer` run started on a fresh scheduler, whose initial
task has the identifier 0, after any number of dispatches: the identifiers of
the submitted child DIVIDE tasks and of the END task are pairwise distinct and
differ from that of the initial task; every submitted task is a child DIVIDE,
a MERGE or an END task; a MERGE task carries the identifier of the INIT or
DIVIDE task whose stage function submitted it (no fresh identifier is taken
for it); and no two MERGE tasks carry the same identifier. -/
theorem run_task_ids (ops : DCOps P R) (fuel : Nat) (input : P) (node : Nat)
    (alloc : Nat → Bool) (n : Nat) (s : State (P × R) Unit)
    (h : steps (divide_conquer_stages ops fuel input) n
      (State.fresh node alloc () : State (P × R) Unit).launch = some s) :
    (0 :: issued_task_ids s.trace).Nodup ∧ (merge_task_ids s.trace).Nodup ∧
    (∀ p ∈ submission_log s.trace,
      p.2.stage_id = 1 ∨ p.2.stage_id = 2 ∨ p.2.stage_id = 3) ∧
    (∀ p ∈ submission_log s.trace, p.2.stage_id = 2 →
      p.2.task_id = p.1.task_id ∧ p.1.stage_id ≤ 1) := by
  have hinv := ids_inv_steps ops fuel input n _ s (ids_inv_launch node alloc ()) h
  exact ⟨hinv.issued_nodup, hinv.merge_nodup, hinv.stage_range, hinv.merge_caller⟩

/-- C14, witness: the sum of `[1, 2, 3]` after four dispatches. -/
theorem run_task_ids_witness :
    ∃ s : State (List Int × Int) Unit,
      steps (divide_conquer_stages sum_ops 8 [1, 2, 3]) 4
        (State.fresh 0 (fun _ => true) () : State (List Int × Int) Unit).launch = some s ∧
      (0 :: issued_task_ids s.trace).Nodup ∧ (merge_task_ids s.trace).Nodup ∧
      (∀ p ∈ submission_log s.trace, p.2.stage_id = 2 →
        p.2.task_id = p.1.task_id ∧ p.1.stage_id ≤ 1) := by
  have hsome : (steps (divide_conquer_stages sum_ops 8 [1, 2, 3]) 4
      (State.fresh 0 (fun _ => true) () : State (List Int × Int) Unit).launch).isSome = true := by
    decide
  obtain ⟨s, hs⟩ := Option.isSome_iff_exists.mp hsome
  obtain ⟨h1, h2, -, h4⟩ := run_task_ids sum_ops 8 [1, 2, 3] 0 (fun _ => true) 4 s hs
  exact ⟨s, hs, h1, h2, h4⟩

/-- C14, counterexample: in the parallel sum of `[1, 2, 3]` the child DIVIDE
task of `[2, 3]` has the identifier 3 and so has the MERGE task it submits;
the first MERGE task has the identifier 0 of the initial task. -/
theorem merge_task_shares_identifier :
    (run (divide_conquer_stages sum_ops 8 [1, 2, 3]) 8
        (State.fresh 0 (fun _ => true) () : State (List Int × Int) Unit)).map
      (fun r => (submission_log r.2.trace).map (fun p => (p.2.stage_id, p.2.task_id)))
      = some [(3, 1), (1, 2), (1, 3), (2, 0), (1, 4), (1, 5), (2, 3)] ∧
    ¬ ([1, 2, 3, 0, 4, 5, 3] : List Nat).Nodup ∧
    divide_conquer sum_ops 8 0 (fun _ => true) [1, 2, 3] = some 6 := by
  refine ⟨by decide, by decide, by decide⟩

theorem spawned_tasks_cells (ops : DCOps P R) (nid order node merger : Nat)
    (store : DR → Option (P × R)) :
    ∀ (subs : List P) (slot tid : Nat),
      cells_hold store node slot (subs.map (fun y => (y, ops.empty_result))) →
      List.Forall₂
        (fun c sub => c.stage_id = nid ∧ c.after_dep = [merger] ∧ c.before_dep = [] ∧
          ∃ dr, c.data_location = [dr] ∧ store dr = some (sub, ops.empty_result))
        (spawned_tasks nid order node merger slot tid subs.length) subs := by
  intro subs
  induction subs with
  | nil => intro slot tid _; exact List.Forall₂.nil
  | cons sub subs ih =>
    intro slot tid h
    exact List.Forall₂.cons ⟨rfl, rfl, rfl, _, rfl, h.1⟩ (ih _ _ h.2)

/-- C18, witness: the DIVIDE task of `[1, 2]` on a node with tokens. -/
theorem divide_parallel_leaves_finish_to_merge_witness :
    ∃ (s' : State (List Int × Int) Unit) (children : List TD) (M : TD),
      normal_divide_function sum_ops 5 2 1 sample_task
        (sample_state [1, 2] 0 (fun _ => true)) = some s' ∧
      s'.submitted = [] ++ children ++ [M] ∧ children.length = 2 ∧
      M.stage_id = 2 ∧ M.task_id = 0 ∧ finish_calls s'.trace = [] ∧ s'.finished = [] ∧
      s'.store ⟨0, 0⟩ = some ([1, 2], 0) := by
  obtain ⟨s', children, M, e1, e2, e3, e4, e5, e6, e7, -, e9, -⟩ :=
    divide_parallel_leaves_finish_to_merge sum_ops 5 2 1 sample_task ⟨0, 0⟩
      (sample_state [1, 2] 0 (fun _ => true)) [1, 2] 0 rfl rfl (by decide) rfl rfl
  exact ⟨s', children, M, e1, e2, e3, e4, e5, e6, e7, e9⟩

/-- C18, counterexample: the DIVIDE task of `[1, 2]` takes the parallel branch,
submits two children and the MERGE task and makes no `finish_task` call; in
the whole run the `finish_task` calls are those of the two children (count 0),
of the MERGE task, which has the identifier 0 of the dividing task (count 2),
and of the END task (count 2): none is made by the dividing task and none has
the count 1. -/
theorem divide_parallel_makes_no_finish_call :
    sum_ops.predicate [1, 2] = false ∧
    (normal_divide_function sum_ops 5 2 1 sample_task
        (sample_state [1, 2] 0 (fun _ => true))).map
      (fun s => (s.submitted.map TD.stage_id, finish_calls s.trace, s.finished))
      = some ([1, 1, 2], [], []) ∧
    (run (divide_conquer_stages sum_ops 8 [1, 2]) 8
        (State.fresh 0 (fun _ => true) () : State (List Int × Int) Unit)).map
      (fun r => (finish_calls r.2.trace).map (fun p => (p.1.stage_id, p.1.task_id, p.2)))
      = some [(1, 2, some 0), (1, 3, some 0), (2, 0, some 2), (3, 1, some 2)] := by
  refine ⟨by decide, by decide, by decide⟩

/-- C19: the MERGE task `M` that a DIVIDE task with the single input cell `d`
builds in the parallel branch.  Its `data_location` is `d` followed by the
cells of the sub-problems in the order of `divide`, each holding its
sub-problem with the empty result and each the input cell of the child task of
the same position; its `before_dep` lists the identifiers of the child
tasks, which are pairwise distinct; so `data_location` has one element more
than `before_dep`, that is one more than there are sub-problems. -/
theorem merge_task_shape (ops : DCOps P R) (fuel mid nid : Nat) (task : TD) (d : DR)
    (s : State (P × R) E) (x : P) (r0 : R)
    (hloc : task.data_location = [d]) (hstore : s.store d = some (x, r0))
    (hp : ops.predicate x = false) (hal : s.alloc s.alloc_calls = true) :
    ∃ (s' : State (P × R) E) (children : List TD) (M : TD),
      normal_divide_function ops fuel mid nid task s = some s' ∧
      s'.submitted = s.submitted ++ children ++ [M] ∧
      M.stage_id = mid ∧ (∀ c ∈ children, c.stage_id = nid) ∧
      children.length = (ops.divide x).length ∧
      M.data_location.length = (ops.divide x).length + 1 ∧
      M.data_location.length = M.before_dep.length + 1 ∧
      M.data_location.head? = some d ∧
      List.Forall₂ (fun dr sub => s'.store dr = some (sub, ops.empty_result))
        M.data_location.tail (ops.divide x) ∧
      children.map TD.data_location = M.data_location.tail.map (fun dr => [dr]) ∧
      M.before_dep = children.map TD.task_id ∧ M.before_dep.Nodup ∧
      (∀ b, b ∈ M.before_dep ↔ ∃ c ∈ children, c.task_id = b) := by
  obtain ⟨s', h1, h2, -, -, -, -, -, -, -, -, -, -, h13, -⟩ :=
    normal_divide_parallel_full ops fuel mid nid task d [] s x r0 hloc hstore hp hal
  have hcells := cells_hold_forall₂ s'.store s.node _ s.next_slot h13
  simp only [List.length_map] at hcells
  refine ⟨s', _, _, h1, h2, rfl, ?_, spawned_tasks_length _ _ _ _ _ _ _, ?_, ?_, ?_, ?_, ?_, ?_,
    ?_, ?_⟩
  · intro c hc
    exact (spawned_tasks_fields _ _ _ _ _ _ _ c hc).1
  · simp [hloc, spawned_refs_length]
  · simp [hloc, spawned_refs_length]
  · simp [hloc]
  · simpa [hloc] using hcells
  · simp [hloc, spawned_tasks_locations]
  · simp [spawned_tasks_ids]
  · exact List.nodup_range' _ _
  · intro b
    rw [← spawned_tasks_ids nid task.order s.node task.task_id _ s.next_slot s.next_task,
      List.mem_map]

/-- C19, witness: the DIVIDE task of `[1, 2]` on slot 0 of a node with tokens
builds a MERGE task on the slots 0, 1, 2 that waits for the tasks 1 and 2. -/
theorem merge_task_shape_witness :
    ∃ (s' : State (List Int × Int) Unit) (children : List TD) (M : TD),
      normal_divide_function sum_ops 5 2 1 sample_task
        (sample_state [1, 2] 0 (fun _ => true)) = some s' ∧
      s'.submitted = [] ++ children ++ [M] ∧ children.length = 2 ∧
      M.data_location.length = 3 ∧ M.data_location.length = M.before_dep.length + 1 ∧
      M.data_location.head? = some ⟨0, 0⟩ ∧
      M.before_dep = children.map TD.task_id := by
  obtain ⟨s', children, M, e1, e2, -, -, e5, e6, e7, e8, -, -, e11, -, -⟩ :=
    merge_task_shape sum_ops 5 2 1 sample_task ⟨0, 0⟩
      (sample_state [1, 2] 0 (fun _ => true)) [1, 2] 0 rfl rfl rfl rfl
  exact ⟨s', children, M, e1, e2, e5, e6, e7, e8, e11⟩

/-- C20: in the parallel branch of DIVIDE the MERGE task takes over the
`after_dep` of the running task, and the child task of every sub-problem is
submitted with one input cell, which holds the sub-problem with the empty
result, with no `before_dep` and with the identifier of the MERGE task as its
only `after_dep`.  Hence, in a run of `divide_conquer` after any number of
dispatches: a MERGE task submitted by the INIT stage has the identifier of the
END task as its only `after_dep`; a MERGE task submitted by a child DIVIDE task
has as its only `after_dep` the identifier of the MERGE task that the parent
of that child submitted; and every child DIVIDE task has one input cell and
the identifier of the MERGE task of its parent as its only `after_dep`. -/
theorem merge_after_dep_chain (ops : DCOps P R) (fuel : Nat) :
    (∀ (mid nid : Nat) (task : TD) (d : DR) (s : State (P × R) E) (x : P) (r0 : R),
      task.data_location = [d] → s.store d = some (x, r0) →
      ops.predicate x = false → s.alloc s.alloc_calls = true →
      ∃ (s' : State (P × R) E) (children : List TD) (M : TD),
        normal_divide_function ops fuel mid nid task s = some s' ∧
        s'.submitted = s.submitted ++ children ++ [M] ∧
        M.stage_id = mid ∧ M.after_dep = task.after_dep ∧
        List.Forall₂
          (fun c sub => c.stage_id = nid ∧ c.after_dep = [M.task_id] ∧ c.before_dep = [] ∧
            ∃ dr, c.data_location = [dr] ∧ s'.store dr = some (sub, ops.empty_result))
          children (ops.divide x)) ∧
    (∀ (input : P) (node : Nat) (alloc : Nat → Bool) (n : Nat) (s : State (P × R) Unit),
      steps (divide_conquer_stages ops fuel input) n
        (State.fresh node alloc () : State (P × R) Unit).launch = some s →
      (∀ p ∈ submission_log s.trace, p.2.stage_id = 2 →
        p.2.after_dep = p.1.after_dep ∧
        ((p.1.stage_id = 0 ∧ ∃ END, (p.1, END) ∈ submission_log s.trace ∧ END.stage_id = 3 ∧
            p.2.after_dep = [END.task_id]) ∨
          (p.1.stage_id = 1 ∧ ∃ parent M, (parent, p.1) ∈ submission_log s.trace ∧
            (parent, M) ∈ submission_log s.trace ∧ M.stage_id = 2 ∧
            p.2.after_dep = [M.task_id]))) ∧
      (∀ p ∈ submission_log s.trace, p.2.stage_id = 1 →
        (∃ d, p.2.data_location = [d]) ∧
        ∃ M, (p.1, M) ∈ submission_log s.trace ∧ M.stage_id = 2 ∧
          p.2.after_dep = [M.task_id])) := by
  constructor
  · intro mid nid task d s x r0 hloc hstore hp hal
    obtain ⟨s', h1, h2, -, -, -, -, -, -, -, -, -, -, h13, -⟩ :=
      normal_divide_parallel_full ops fuel mid nid task d [] s x r0 hloc hstore hp hal
    exact ⟨s', _, _, h1, h2, rfl, rfl,
      spawned_tasks_cells ops nid task.order s.node task.task_id s'.store (ops.divide x) _ _ h13⟩
  · intro input node alloc n s h
    have hinv := deps_inv_steps ops fuel input n _ s (deps_inv_launch node alloc ()) h
    exact ⟨hinv.merge_dep, hinv.child_dep⟩

/-- C20, witness: in the completed parallel sum of `[1, 2, 3]` the two MERGE
tasks have the `after_dep` sets {1}, the END task, and {0}, the first MERGE
task. -/
theorem merge_after_dep_chain_witness :
    ∃ s : State (List Int × Int) Unit,
      steps (divide_conquer_stages sum_ops 8 [1, 2, 3]) 7
        (State.fresh 0 (fun _ => true) () : State (List Int × Int) Unit).launch = some s ∧
      ((submission_log s.trace).filter (fun p => decide (p.2.stage_id = 2))).map
        (fun p => (p.2.task_id, p.2.after_dep)) = [(0, [1]), (3, [0])] ∧
      (∀ p ∈ submission_log s.trace, p.2.stage_id = 2 →
        p.2.after_dep = p.1.after_dep ∧
        ((p.1.stage_id = 0 ∧ ∃ END, (p.1, END) ∈ submission_log s.trace ∧ END.stage_id = 3 ∧
            p.2.after_dep = [END.task_id]) ∨
          (p.1.stage_id = 1 ∧ ∃ parent M, (parent, p.1) ∈ submission_log s.trace ∧
            (parent, M) ∈ submission_log s.trace ∧ M.stage_id = 2 ∧
            p.2.after_dep = [M.task_id]))) := by
  have hsome : ((steps (divide_conquer_stages sum_ops 8 [1, 2, 3]) 7
      (State.fresh 0 (fun _ => true) () : State (List Int × Int) Unit).launch).map
      (fun s => ((submission_log s.trace).filter (fun p => decide (p.2.stage_id = 2))).map
        (fun p => (p.2.task_id, p.2.after_dep)))) = some [(0, [1]), (3, [0])] := by
    decide
  obtain ⟨s, hs, hobs⟩ := Option.map_eq_some'.mp hsome
  exact ⟨s, hs, hobs,
    ((@merge_after_dep_chain (List Int) Int Unit sum_ops 8).2 [1, 2, 3] 0 (fun _ => true) 7 s
      hs).1⟩

end TaskTree

/-! ## Stage protocols, order preservation and chain registration -/

section Outcome
variable {α G U Rd : Type}

/-- What a call of a registered closure of a pipeline does, by cases: the
generator stores an item and submits its successor and its own continuation,
or finishes; every other stage read-releases the first input cell of its task
and then either finishes, or stores one item into a new cell and submits one
task on that cell, with the order of its own task. -/
theorem task_func_outcome (key : Nat) (kind : StageKind α G U Rd) (t : TD)
    (s s1 : PState α G U Rd) (h : task_func key kind t s = some s1) :
    s1.pending = s.pending ∧ s1.node = s.node ∧
    ((kind.is_generator = true ∧
        ((∃ v, s1.store = Function.update s.store ⟨s.node, s.next_slot⟩ (some (v, s.env.order)) ∧
            s1.submitted = s.submitted ++
              [TD.mk (t.stage_id + 1) s.next_task s.env.order [s.node] false
                [⟨s.node, s.next_slot⟩] [] [],
               TD.mk t.stage_id (s.next_task + 1) (s.env.order + 1) [s.node] false [] [] []] ∧
            s1.trace = s.trace ++
              [⟨t, Call.set (v, s.env.order) ⟨s.node, s.next_slot⟩⟩,
               ⟨t, Call.set_task (TD.mk (t.stage_id + 1) s.next_task s.env.order [s.node] false
                  [⟨s.node, s.next_slot⟩] [] []) false⟩,
               ⟨t, Call.set_task (TD.mk t.stage_id (s.next_task + 1) (s.env.order + 1) [s.node]
                  false [] [] []) true⟩] ∧
            s1.next_slot = s.next_slot + 1 ∧ s1.next_task = s.next_task + 2) ∨
          (s1.store = s.store ∧ s1.submitted = s.submitted ∧
            s1.trace = s.trace ++ [⟨t, Call.finish_task none⟩] ∧
            s1.next_slot = s.next_slot ∧ s1.next_task = s.next_task))) ∨
      (kind.is_generator = false ∧
        ∃ (d : DR) (ds : List DR) (item : α × Nat),
          t.data_location = d :: ds ∧ s.store d = some item ∧
          ((s1.store = Function.update s.store d none ∧ s1.submitted = s.submitted ∧
              s1.trace = s.trace ++
                [⟨t, Call.get_release d item⟩, ⟨t, Call.finish_task none⟩] ∧
              s1.next_slot = s.next_slot ∧ s1.next_task = s.next_task) ∨
            (kind.is_terminal = false ∧
              ∃ (y : α) (o : Nat) (u : TD),
                s1.store = Function.update (Function.update s.store d none)
                  ⟨s.node, s.next_slot⟩ (some (y, o)) ∧
                s1.submitted = s.submitted ++ [u] ∧
                s1.trace = s.trace ++
                  [⟨t, Call.get_release d item⟩, ⟨t, Call.set (y, o) ⟨s.node, s.next_slot⟩⟩,
                   ⟨t, Call.set_task u false⟩] ∧
                s1.next_slot = s.next_slot + 1 ∧ s.next_task ≤ s1.next_task ∧
                u.data_location = [⟨s.node, s.next_slot⟩] ∧ u.order = t.order ∧
                (u.stage_id = t.stage_id + 1 ∨ u.stage_id = t.stage_id) ∧
                (kind.is_reduce = false → o = item.2))))) := by
  cases kind with
  | generator g =>
    simp only [task_func, generator_task_func] at h
    split at h
    · rename_i v hv
      simp only [Option.some.injEq] at h
      subst h
      refine ⟨rfl, rfl, Or.inl ⟨rfl, Or.inl ⟨v, rfl, ?_, ?_, rfl, rfl⟩⟩⟩
      · simp [State.set_task, State.get_task_id, State.set, State.get_node_id]
      · simp [State.set_task, State.get_task_id, State.set, State.get_node_id]
    · simp only [Option.some.injEq] at h
      subst h
      exact ⟨rfl, rfl, Or.inl ⟨rfl, Or.inr ⟨rfl, rfl, rfl, rfl, rfl⟩⟩⟩
  | consumer c =>
    simp only [task_func, consumer_task_func] at h
    split at h
    · simp at h
    · rename_i d ds hloc
      split at h
      · simp at h
      · rename_i item s2 hgr
        simp only [State.get_release] at hgr
        split at hgr
        · simp at hgr
        · rename_i v hstore
          simp only [Option.some.injEq, Prod.mk.injEq] at hgr h
          obtain ⟨rfl, rfl⟩ := hgr
          subst h
          refine ⟨rfl, rfl, Or.inr ⟨rfl, d, ds, v, hloc, hstore, Or.inl ⟨rfl, rfl, ?_, rfl, rfl⟩⟩⟩
          simp [State.finish_task]
  | farm_consumer c =>
    simp only [task_func, consumer_task_func] at h
    split at h
    · simp at h
    · rename_i d ds hloc
      split at h
      · simp at h
      · rename_i item s2 hgr
        simp only [State.get_release] at hgr
        split at hgr
        · simp at hgr
        · rename_i v hstore
          simp only [Option.some.injEq, Prod.mk.injEq] at hgr h
          obtain ⟨rfl, rfl⟩ := hgr
          subst h
          refine ⟨rfl, rfl, Or.inr ⟨rfl, d, ds, v, hloc, hstore, Or.inl ⟨rfl, rfl, ?_, rfl, rfl⟩⟩⟩
          simp [State.finish_task]
  | no_pattern op =>
    simp only [task_func, no_pattern_task_func] at h
    split at h
    · simp at h
    · rename_i d ds hloc
      split at h
      · simp at h
      · rename_i item s2 hgr
        simp only [State.get_release] at hgr
        split at hgr
        · simp at hgr
        · rename_i v hstore
          simp only [Option.some.injEq, Prod.mk.injEq] at hgr h
          obtain ⟨rfl, rfl⟩ := hgr
          subst h
          refine ⟨rfl, rfl, Or.inr ⟨rfl, d, ds, v, hloc, hstore, Or.inr ⟨rfl, _, _, _, rfl, rfl, ?_,
            rfl, ?_, rfl, rfl, Or.inl rfl, fun _ => rfl⟩⟩⟩
          · simp [State.set_task, State.get_task_id, State.set, State.get_node_id]
          · simp [State.set_task, State.get_task_id, State.set]
  | no_pattern_end op =>
    simp only [task_func, no_pattern_task_func] at h
    split at h
    · simp at h
    · rename_i d ds hloc
      split at h
      · simp at h
      · rename_i item s2 hgr
        simp only [State.get_release] at hgr
        split at hgr
        · simp at hgr
        · rename_i v hstore
          simp only [Option.some.injEq, Prod.mk.injEq] at hgr h
          obtain ⟨rfl, rfl⟩ := hgr
          subst h
          refine ⟨rfl, rfl, Or.inr ⟨rfl, d, ds, v, hloc, hstore, Or.inr ⟨rfl, _, _, _, rfl, rfl, ?_,
            rfl, ?_, rfl, rfl, Or.inl rfl, fun _ => rfl⟩⟩⟩
          · simp [State.set_task, State.get_task_id, State.set, State.get_node_id]
          · simp [State.set_task, State.get_task_id, State.set]
  | filter p =>
    simp only [task_func, filter_task_func] at h
    split at h
    · simp at h
    · rename_i d ds hloc
      split at h
      · simp at h
      · rename_i item s2 hgr
        simp only [State.get_release] at hgr
        split at hgr
        · simp at hgr
        · rename_i v hstore
          simp only [Option.some.injEq, Prod.mk.injEq] at hgr
          obtain ⟨rfl, rfl⟩ := hgr
          split at h
          · simp only [Option.some.injEq] at h
            subst h
            refine ⟨rfl, rfl, Or.inr ⟨rfl, d, ds, v, hloc, hstore, Or.inr ⟨rfl, v.1, v.2, _, rfl, rfl,
              ?_, rfl, ?_, rfl, rfl, Or.inl rfl, fun _ => rfl⟩⟩⟩
            · simp [State.set_task, State.get_task_id, State.set, State.get_node_id]
            · simp [State.set_task, State.get_task_id, State.set]
          · simp only [Option.some.injEq] at h
            subst h
            refine ⟨rfl, rfl, Or.inr ⟨rfl, d, ds, v, hloc, hstore, Or.inl ⟨rfl, rfl, ?_, rfl, rfl⟩⟩⟩
            simp [State.finish_task]
  | reduce r =>
    simp only [task_func, reduce_task_func] at h
    split at h
    · simp at h
    · rename_i d ds hloc
      split at h
      · simp at h
      · rename_i item s2 hgr
        simp only [State.get_release] at hgr
        split at hgr
        · simp at hgr
        · rename_i v hstore
          simp only [Option.some.injEq, Prod.mk.injEq] at hgr
          obtain ⟨rfl, rfl⟩ := hgr
          split at h
          · simp only [Option.some.injEq] at h
            subst h
            refine ⟨rfl, rfl, Or.inr ⟨rfl, d, ds, v, hloc, hstore, Or.inr ⟨rfl, _, _, _, rfl, rfl,
              ?_, rfl, ?_, rfl, rfl, Or.inl rfl, fun hr => by simp [StageKind.is_reduce] at hr⟩⟩⟩
            · simp [State.set_task, State.get_task_id, State.set, State.get_node_id]
            · simp [State.set_task, State.get_task_id, State.set]
          · simp only [Option.some.injEq] at h
            subst h
            refine ⟨rfl, rfl, Or.inr ⟨rfl, d, ds, v, hloc, hstore, Or.inl ⟨rfl, rfl, ?_, rfl, rfl⟩⟩⟩
            simp [State.finish_task]
  | iteration f p =>
    simp only [task_func, iteration_task_func] at h
    split at h
    · simp at h
    · rename_i d ds hloc
      split at h
      · simp at h
      · rename_i item s2 hgr
        simp only [State.get_release] at hgr
        split at hgr
        · simp at hgr
        · rename_i v hstore
          simp only [Option.some.injEq, Prod.mk.injEq] at hgr
          obtain ⟨rfl, rfl⟩ := hgr
          split at h
          · simp only [Option.some.injEq] at h
            subst h
            refine ⟨rfl, rfl, Or.inr ⟨rfl, d, ds, v, hloc, hstore, Or.inr ⟨rfl, _, _, _, rfl, rfl,
              ?_, rfl, ?_, rfl, rfl, Or.inl rfl, fun _ => rfl⟩⟩⟩
            · simp [State.set_task, State.get_task_id, State.set, State.get_node_id]
            · simp [State.set_task, State.get_task_id, State.set]
          · simp only [Option.some.injEq] at h
            subst h
            refine ⟨rfl, rfl, Or.inr ⟨rfl, d, ds, v, hloc, hstore, Or.inr ⟨rfl, _, _, _, rfl, rfl,
              ?_, rfl, ?_, rfl, rfl, Or.inr rfl, fun _ => rfl⟩⟩⟩
            · simp [State.set_task, State.set]
            · simp [State.set_task, State.set]

end Outcome

section InitStage
variable {P R E : Type}

/-- C21: the INIT stage stores the input with the empty result into the cell
`dr0` that `set` allocates, takes a new identifier for the END task, submits
the END task (input `dr0`, `before_dep` the identifier of the INIT task, no
`after_dep`) and then runs the DIVIDE stage function on its own task, whose
`data_location` is now `[dr0]` and whose `after_dep` is the identifier of the
END task.  Whatever the DIVIDE protocol submits, child and MERGE tasks, comes
after the END task. -/
theorem init_stage_protocol (ops : DCOps P R) (fuel mid nid eid : Nat) (input : P)
    (task : TD) (s : State (P × R) E) :
    (∃ s1 : State (P × R) E,
      init_divide_function ops fuel mid nid eid input task s
        = normal_divide_function ops fuel mid nid
            (TD.mk task.stage_id task.task_id task.order [s.node] false
              [⟨s.node, s.next_slot⟩] task.before_dep [s.next_task]) s1 ∧
      s1.store = Function.update s.store ⟨s.node, s.next_slot⟩
        (some (input, ops.empty_result)) ∧
      s1.trace = s.trace ++
        [⟨task, Call.set (input, ops.empty_result) ⟨s.node, s.next_slot⟩⟩,
         ⟨TD.mk task.stage_id task.task_id task.order [s.node] false
            [⟨s.node, s.next_slot⟩] task.before_dep [s.next_task],
          Call.set_task
            (TD.mk eid s.next_task task.order [s.node] false [⟨s.node, s.next_slot⟩]
              [task.task_id] []) true⟩] ∧
      s1.submitted = s.submitted ++
        [TD.mk eid s.next_task task.order [s.node] false [⟨s.node, s.next_slot⟩]
          [task.task_id] []] ∧
      s1.next_slot = s.next_slot + 1 ∧ s1.next_task = s.next_task + 1 ∧
      s1.pending = s.pending ∧ s1.finished = s.finished) ∧
    (∀ s' : State (P × R) E,
      init_divide_function ops fuel mid nid eid input task s = some s' →
      ∃ rest : List TD,
        s'.submitted = s.submitted ++
          TD.mk eid s.next_task task.order [s.node] false [⟨s.node, s.next_slot⟩]
            [task.task_id] [] :: rest ∧
        (∀ u ∈ rest, u.stage_id = nid ∨ u.stage_id = mid)) := by
  constructor
  · refine ⟨State.set_task (s.set task (input, ops.empty_result)).2.get_task_id.2
        (TD.mk task.stage_id task.task_id task.order [s.node] false
          [⟨s.node, s.next_slot⟩] task.before_dep [s.next_task])
        (TD.mk eid s.next_task task.order [s.node] false [⟨s.node, s.next_slot⟩]
          [task.task_id] []) true, rfl, rfl, ?_, rfl, rfl, rfl, rfl, rfl⟩
    simp [State.set, State.get_task_id, State.set_task]
  · intro s' h
    simp only [init_divide_function, State.set, State.get_task_id, State.get_node_id] at h
    obtain ⟨-, -, e3⟩ := normal_divide_effect ops fuel mid nid _ _ s' h
    simp only [State.set_task] at e3
    rcases e3 with ⟨e3, -, -⟩ | ⟨n, M, e3, -, -, e6, -, -, -⟩
    · exact ⟨[], by rw [e3]; rfl, by simp⟩
    · refine ⟨spawned_tasks nid task.order s.node task.task_id (s.next_slot + 1)
        (s.next_task + 1) n ++ [M], by rw [e3, List.append_assoc]; rfl, ?_⟩
      intro u hu
      rw [List.mem_append] at hu
      rcases hu with hu | hu
      · exact Or.inl (spawned_tasks_fields _ _ _ _ _ _ _ u hu).1
      · rw [List.mem_singleton] at hu; rw [hu]; exact Or.inr e6

/-- C21, witness: the INIT task of the parallel sum of `[1, 2]` submits the END
task 1, then the child tasks 2 and 3, then the MERGE task. -/
theorem init_stage_protocol_witness :
    ∃ (s' : State (List Int × Int) Unit) (rest : List TD),
      init_divide_function sum_ops 8 2 1 3 [1, 2] (TD.mk 0 0 0 [0] false [] [] [])
        (State.fresh 0 (fun _ => true) () : State (List Int × Int) Unit).launch = some s' ∧
      s'.submitted = [] ++ TD.mk 3 1 0 [0] false [⟨0, 0⟩] [0] [] :: rest ∧
      (∀ u ∈ rest, u.stage_id = 1 ∨ u.stage_id = 2) := by
  have hsome : (init_divide_function sum_ops 8 2 1 3 [1, 2] (TD.mk 0 0 0 [0] false [] [] [])
      (State.fresh 0 (fun _ => true) () : State (List Int × Int) Unit).launch).isSome = true := by
    decide
  obtain ⟨s', hs⟩ := Option.isSome_iff_exists.mp hsome
  obtain ⟨rest, h1, h2⟩ :=
    (init_stage_protocol sum_ops 8 2 1 3 [1, 2] (TD.mk 0 0 0 [0] false [] [] [])
      (State.fresh 0 (fun _ => true) () : State (List Int × Int) Unit).launch).2 s' hs
  exact ⟨s', rest, hs, h1, h2⟩

end InitStage

section GeneratorStage
variable {α G U Rd : Type}

/-- C22: the dispatch of a generator task (stage 0) whose callable yields the
value `v` while the counter `order` is `n`.  The stage stores `(v, n)` into
the cell `set` allocates, submits the successor task (stage 1, order `n`,
local to the current node, not hard, that cell as its input), raises the
counter, submits its own continuation (stage 0, order `n + 1`, no input
cell), and makes no `finish_task` call: the task is not finished. -/
theorem generator_yield_protocol (stages : List (Stage (α × Nat) (PipeEnv G U Rd)))
    (s : PState α G U Rd) (t : TD) (rest : List TD) (st : Stage (α × Nat) (PipeEnv G U Rd))
    (generate_op : G → Option α × G) (v : α)
    (hp : s.pending = t :: rest) (hsub : s.submitted = []) (hbd : t.before_dep = [])
    (hid : t.stage_id = 0)
    (hst : stages.get? t.stage_id = some st) (hfn : st.fn = generator_task_func generate_op)
    (hgen : (generate_op s.env.gen).1 = some v) :
    ∃ s1 : PState α G U Rd, step stages s = some s1 ∧
      s1.store = Function.update s.store ⟨s.node, s.next_slot⟩ (some (v, s.env.order)) ∧
      s1.trace = s.trace ++
        [⟨t, Call.set (v, s.env.order) ⟨s.node, s.next_slot⟩⟩,
         ⟨t, Call.set_task (TD.mk 1 s.next_task s.env.order [s.node] false
            [⟨s.node, s.next_slot⟩] [] []) false⟩,
         ⟨t, Call.set_task (TD.mk 0 (s.next_task + 1) (s.env.order + 1) [s.node] false
            [] [] []) true⟩] ∧
      s1.pending =
        TD.mk 1 s.next_task s.env.order [s.node] false [⟨s.node, s.next_slot⟩] [] [] ::
        TD.mk 0 (s.next_task + 1) (s.env.order + 1) [s.node] false [] [] [] :: rest ∧
      s1.env.order = s.env.order + 1 ∧ s1.env.gen = (generate_op s.env.gen).2 ∧
      finish_calls s1.trace = finish_calls s.trace ∧
      s1.finished = s.finished ∧ s1.terminal = s.terminal := by
  obtain ⟨s1, h1, h2, -, h4, h5, h6, -, -, -, h10, h11⟩ :=
    step_generator_yield stages s t rest st generate_op v hp hsub hbd hst hfn hgen
  rw [hid] at h2 h6
  refine ⟨s1, h1, h4, h6, h2, by rw [h5], by rw [h5], ?_, h10, h11⟩
  rw [h6, finish_calls_append]
  simp [finish_calls]

/-- C22, witness: the generator of `[5, 6]` on a fresh scheduler stores
`(5, 0)` and queues the successor with order 0 and its continuation with
order 1. -/
theorem generator_yield_protocol_witness :
    ∃ s1 : PState Int (List Int) (List Int) (List Int),
      step [⟨false, true, generator_task_func list_generator⟩]
        (State.fresh 0 (fun _ => true) ⟨[5, 6], 0, [], fun _ => [], fun _ => 0⟩ :
          PState Int (List Int) (List Int) (List Int)).launch = some s1 ∧
      s1.store ⟨0, 0⟩ = some (5, 0) ∧
      s1.pending = [TD.mk 1 1 0 [0] false [⟨0, 0⟩] [] [], TD.mk 0 2 1 [0] false [] [] []] ∧
      s1.env.order = 1 ∧ finish_calls s1.trace = [] ∧ s1.finished = [] := by
  obtain ⟨s1, e1, e2, -, e4, e5, -, e7, e8, -⟩ :=
    generator_yield_protocol
      ([⟨false, true, generator_task_func list_generator⟩] :
        List (Stage (Int × Nat) (PipeEnv (List Int) (List Int) (List Int))))
      (State.fresh 0 (fun _ => true) ⟨[5, 6], 0, [], fun _ => [], fun _ => 0⟩ :
          PState Int (List Int) (List Int) (List Int)).launch
      (TD.mk 0 0 0 [0] false [] [] []) []
      ⟨false, true, generator_task_func list_generator⟩ list_generator 5
      rfl rfl rfl rfl rfl rfl rfl
  exact ⟨s1, e1, by rw [e2]; simp [State.launch, State.fresh], e4, e5, e7, e8⟩

end GeneratorStage

section OrderLemmas
variable {α G U Rd : Type}

theorem stored_orders_append (a b : List (Entry (α × Nat))) :
    stored_orders (a ++ b) = stored_orders a ++ stored_orders b := by
  simp [stored_orders, List.filterMap_append]

theorem submitted_inputs_append {C : Type} (a b : List (Entry C)) :
    submitted_inputs (a ++ b) = submitted_inputs a ++ submitted_inputs b := by
  simp [submitted_inputs, List.filterMap_append]

theorem queued_inputs_append (a b : List TD) :
    queued_inputs (a ++ b) = queued_inputs a ++ queued_inputs b := by
  simp [queued_inputs, List.filterMap_append]

theorem mem_queued_inputs (pending : List TD) (d : DR) :
    d ∈ queued_inputs pending ↔ ∃ T ∈ pending, ∃ ds, T.data_location = d :: ds := by
  simp only [queued_inputs, List.mem_filterMap]
  constructor
  · rintro ⟨T, hT, h⟩
    refine ⟨T, hT, ?_⟩
    cases hl : T.data_location with
    | nil => simp [hl] at h
    | cons d' ds => simp [hl] at h; exact ⟨ds, by rw [h]⟩
  · rintro ⟨T, hT, ds, h⟩
    exact ⟨T, hT, by simp [h]⟩

/-- What a call of a closure other than that of a reduce stage does to the
cells and the queue, when the input cell of the task holds an item with the
order of the task. -/
theorem stage_effect_on_orders (key : Nat) (kind : StageKind α G U Rd)
    (hk : kind.is_reduce = false) (t : TD) (s s1 : PState α G U Rd)
    (h : task_func key kind t s = some s1)
    (ht : ∀ d ds, t.data_location = d :: ds → ∃ x, s.store d = some (x, t.order)) :
    s1.pending = s.pending ∧ s.next_slot ≤ s1.next_slot ∧
    ∃ (new : List TD) (es : List (Entry (α × Nat))),
      s1.submitted = s.submitted ++ new ∧ s1.trace = s.trace ++ es ∧
      (∀ d' : DR, d'.slot_id < s.next_slot → t.data_location.head? ≠ some d' →
        s1.store d' = s.store d') ∧
      (∀ u ∈ new, ∀ d ds, u.data_location = d :: ds →
        d = ⟨s.node, s.next_slot⟩ ∧ s1.next_slot = s.next_slot + 1 ∧
        ∃ x, s1.store d = some (x, u.order)) ∧
      (queued_inputs new = [] ∨ queued_inputs new = [⟨s.node, s.next_slot⟩]) ∧
      (∀ p ∈ submitted_inputs es, p ∈ stored_orders es) ∧
      (stored_orders es = [] ∨
        ∃ o, stored_orders es = [(⟨s.node, s.next_slot⟩, o)] ∧
          s1.next_slot = s.next_slot + 1) := by
  obtain ⟨h1, -, h3⟩ := task_func_outcome key kind t s s1 h
  refine ⟨h1, ?_⟩
  rcases h3 with ⟨-, ⟨v, e1, e2, e3, e4, -⟩ | ⟨e1, e2, e3, e4, -⟩⟩ |
    ⟨-, d, ds, item, hloc, hstore, ⟨e1, e2, e3, e4, -⟩ |
      ⟨-, y, o, u, e1, e2, e3, e4, -, e6, e7, -, e9⟩⟩
  · -- the generator yields
    refine ⟨by omega, _, _, e2, e3, ?_, ?_, ?_, ?_, ?_⟩
    · intro d' hd' _
      have : d' ≠ ⟨s.node, s.next_slot⟩ := by
        intro hh; rw [hh] at hd'; simp at hd'
      rw [e1, Function.update_noteq this]
    · intro u hu d0 ds0 hd0
      simp only [List.mem_cons, List.mem_singleton, List.not_mem_nil, or_false] at hu
      rcases hu with rfl | rfl
      · simp only [List.cons.injEq] at hd0
        obtain ⟨rfl, -⟩ := hd0
        exact ⟨rfl, e4, v, by rw [e1]; simp⟩
      · simp at hd0
    · right; simp [queued_inputs]
    · intro p hp
      simp [submitted_inputs, stored_orders] at hp ⊢
      exact hp
    · right; exact ⟨s.env.order, by simp [stored_orders], e4⟩
  · -- the generator is done
    refine ⟨by omega, [], _, by simpa using e2, e3, ?_, by simp, Or.inl rfl, by
      simp [submitted_inputs], Or.inl (by simp [stored_orders])⟩
    intro d' _ _
    rw [e1]
  · -- read and finish
    refine ⟨by omega, [], _, by simpa using e2, e3, ?_, by simp, Or.inl rfl, by
      simp [submitted_inputs], Or.inl (by simp [stored_orders])⟩
    intro d' _ hne
    have : d' ≠ d := by
      intro hh; rw [hloc, hh] at hne; simp at hne
    rw [e1, Function.update_noteq this]
  · -- read, store and submit
    obtain ⟨x, hx⟩ := ht d ds hloc
    have ho : o = t.order := by
      rw [e9 hk]
      rw [hstore] at hx
      simp only [Option.some.injEq] at hx
      rw [hx]
    refine ⟨by omega, [u], _, e2, e3, ?_, ?_, ?_, ?_, ?_⟩
    · intro d' hd' hne
      have h1 : d' ≠ ⟨s.node, s.next_slot⟩ := by
        intro hh; rw [hh] at hd'; simp at hd'
      have h2 : d' ≠ d := by
        intro hh; rw [hloc, hh] at hne; simp at hne
      rw [e1, Function.update_noteq h1, Function.update_noteq h2]
    · intro u' hu' d0 ds0 hd0
      rw [List.mem_singleton] at hu'
      subst hu'
      rw [e6] at hd0
      simp only [List.cons.injEq] at hd0
      obtain ⟨rfl, -⟩ := hd0
      exact ⟨rfl, e4, y, by rw [e1, e7, ho]; simp⟩
    · right; simp [queued_inputs, e6]
    · intro p hp
      simp [submitted_inputs, stored_orders, e6, e7, ho] at hp ⊢
      exact hp
    · right; exact ⟨o, by simp [stored_orders], e4⟩

theorem order_inv_step (stages : List (Stage (α × Nat) (PipeEnv G U Rd)))
    (htbl : ∀ i st, stages.get? i = some st →
      ∃ key kind, st.fn = task_func key kind ∧ kind.is_reduce = false)
    (s s' : PState α G U Rd) (hinv : OrderInv s) (h : step stages s = some s') :
    OrderInv s' := by
  obtain ⟨t, pre, post, st, s1, hpend, hst, hfn, rfl⟩ := step_decompose _ _ _ h
  obtain ⟨key, kind, hkind, hk⟩ := htbl _ _ hst
  rw [hkind] at hfn
  have htmem : t ∈ s.pending := by rw [hpend]; simp
  have hold : ∀ T ∈ pre ++ post, T ∈ s.pending := by
    intro T hT
    rw [hpend]
    simp only [List.mem_append, List.mem_cons] at hT ⊢
    rcases hT with hT | hT
    · exact Or.inl hT
    · exact Or.inr (Or.inr hT)
  obtain ⟨e0, e1, new, es, e2, e3, e4, e5, e6, e7, e8⟩ :=
    stage_effect_on_orders key kind hk t _ s1 hfn
      (fun d ds hd => (hinv.queued_cell t htmem d ds hd).1)
  replace e0 : s1.pending = pre ++ post := e0
  replace e1 : s.next_slot ≤ s1.next_slot := e1
  replace e2 : s1.submitted = s.submitted ++ new := e2
  replace e3 : s1.trace = s.trace ++ es := e3
  replace e4 : ∀ d' : DR, d'.slot_id < s.next_slot → t.data_location.head? ≠ some d' →
      s1.store d' = s.store d' := e4
  replace e5 : ∀ u ∈ new, ∀ d ds, u.data_location = d :: ds →
      d = ⟨s.node, s.next_slot⟩ ∧ s1.next_slot = s.next_slot + 1 ∧
      ∃ x, s1.store d = some (x, u.order) := e5
  replace e6 : queued_inputs new = [] ∨ queued_inputs new = [⟨s.node, s.next_slot⟩] := e6
  replace e8 : stored_orders es = [] ∨
      ∃ o, stored_orders es = [(⟨s.node, s.next_slot⟩, o)] ∧
        s1.next_slot = s.next_slot + 1 := e8
  simp only [hinv.submitted_nil, List.nil_append] at e2
  -- the input cell of another queued task is not the one of the dispatched task
  have hother : ∀ T ∈ pre ++ post, ∀ d ds, T.data_location = d :: ds →
      t.data_location.head? ≠ some d := by
    intro T hT d ds hd hhead
    have hnd := hinv.queued_distinct
    rw [hpend, queued_inputs_append, ← List.singleton_append, queued_inputs_append] at hnd
    have htd : queued_inputs [t] = [d] := by
      simp [queued_inputs, hhead]
    rw [htd] at hnd
    have hdin : d ∈ queued_inputs pre ++ queued_inputs post := by
      rw [← queued_inputs_append, mem_queued_inputs]
      exact ⟨T, hT, ds, hd⟩
    rw [List.nodup_append] at hnd
    obtain ⟨-, hnd2, hdisj⟩ := hnd
    rw [List.mem_append] at hdin
    rcases hdin with hdin | hdin
    · exact hdisj hdin (by simp)
    · simp only [List.singleton_append, List.nodup_cons] at hnd2
      exact hnd2.1 hdin
  refine ⟨rfl, ?_, ?_, ?_, ?_, ?_⟩
  · -- queued_cell
    intro T hT d ds hd
    change T ∈ s1.submitted ++ s1.pending at hT
    show (∃ x, s1.store d = some (x, T.order)) ∧ d.slot_id < s1.next_slot
    rw [e2, e0, List.mem_append] at hT
    rcases hT with hT | hT
    · obtain ⟨rfl, g2, g3⟩ := e5 T hT d ds hd
      exact ⟨g3, by rw [g2]; simp⟩
    · obtain ⟨⟨x, hx⟩, hlt⟩ := hinv.queued_cell T (hold T hT) d ds hd
      refine ⟨⟨x, ?_⟩, by omega⟩
      rw [e4 d hlt (hother T hT d ds hd)]
      exact hx
  · -- queued_distinct
    show (queued_inputs (s1.submitted ++ s1.pending)).Nodup
    rw [e2, e0, queued_inputs_append]
    have hnd : (queued_inputs (pre ++ post)).Nodup := by
      have := hinv.queued_distinct
      rw [hpend, queued_inputs_append, ← List.singleton_append, queued_inputs_append] at this
      rw [queued_inputs_append]
      refine List.Nodup.sublist ?_ this
      exact List.Sublist.append (List.Sublist.refl _) (List.sublist_append_right _ _)
    rcases e6 with e6 | e6
    · rw [e6]; simpa using hnd
    · rw [e6]
      simp only [List.singleton_append, List.nodup_cons]
      refine ⟨?_, hnd⟩
      intro hin
      rw [mem_queued_inputs] at hin
      obtain ⟨T, hT, ds, hd⟩ := hin
      have := (hinv.queued_cell T (hold T hT) _ ds hd).2
      simp at this
  · -- logged
    intro p hp
    change p ∈ submitted_inputs s1.trace at hp
    show p ∈ stored_orders s1.trace
    rw [e3, submitted_inputs_append, List.mem_append] at hp
    rw [e3, stored_orders_append, List.mem_append]
    rcases hp with hp | hp
    · exact Or.inl (hinv.logged p hp)
    · exact Or.inr (e7 p hp)
  · -- stored_once
    show ((stored_orders s1.trace).map Prod.fst).Nodup
    rw [e3, stored_orders_append, List.map_append]
    rcases e8 with e8 | ⟨o, e8, -⟩
    · rw [e8]; simpa using hinv.stored_once
    · rw [e8]
      refine List.Nodup.append hinv.stored_once (by simp) ?_
      intro d hd1 hd2
      simp only [List.map_cons, List.map_nil, List.mem_singleton] at hd2
      rw [List.mem_map] at hd1
      obtain ⟨p, hp, rfl⟩ := hd1
      have := hinv.stored_lt p hp
      rw [hd2] at this
      simp at this
  · -- stored_lt
    intro p hp
    change p ∈ stored_orders s1.trace at hp
    show p.1.slot_id < s1.next_slot
    rw [e3, stored_orders_append, List.mem_append] at hp
    rcases hp with hp | hp
    · have := hinv.stored_lt p hp; omega
    · rcases e8 with e8 | ⟨o, e8, e9⟩
      · rw [e8] at hp; simp at hp
      · rw [e8, List.mem_singleton] at hp
        rw [hp, e9]; simp

theorem order_inv_steps (stages : List (Stage (α × Nat) (PipeEnv G U Rd)))
    (htbl : ∀ i st, stages.get? i = some st →
      ∃ key kind, st.fn = task_func key kind ∧ kind.is_reduce = false) :
    ∀ (n : Nat) (s s' : PState α G U Rd), OrderInv s → steps stages n s = some s' →
      OrderInv s' := by
  intro n
  induction n with
  | zero =>
    intro s s' hinv h
    simp only [steps, Option.some.injEq] at h
    rw [← h]; exact hinv
  | succ n ih =>
    intro s s' hinv h
    simp only [steps] at h
    cases hs : step stages s with
    | none => simp [hs] at h
    | some s1 =>
      simp only [hs] at h
      exact ih s1 s' (order_inv_step stages htbl s s1 hinv hs) h

theorem order_inv_launch (node : Nat) (alloc : Nat → Bool) (e : PipeEnv G U Rd) :
    OrderInv (State.fresh node alloc e : PState α G U Rd).launch := by
  refine ⟨rfl, ?_, ?_, ?_, ?_, ?_⟩ <;>
    simp [State.launch, State.fresh, submitted_inputs, stored_orders, queued_inputs]

end OrderLemmas

section OrderPreservation
variable {α G U Rd : Type}

theorem forall₂_mem_left {A B : Type} {Rel : A → B → Prop} :
    ∀ {l1 : List A} {l2 : List B}, List.Forall₂ Rel l1 l2 →
      ∀ a ∈ l1, ∃ b ∈ l2, Rel a b := by
  intro l1 l2 h
  induction h with
  | nil => intro a ha; simp at ha
  | cons hd _ ih =>
    intro a ha
    rw [List.mem_cons] at ha
    rcases ha with rfl | ha
    · exact ⟨_, List.mem_cons_self _ _, hd⟩
    · obtain ⟨b, hb, hr⟩ := ih a ha
      exact ⟨b, List.mem_cons_of_mem _ hb, hr⟩

theorem registers_stage_reduce (outer par src : Bool) (kind : StageKind α G U Rd)
    (leaf : Pattern α U Rd)
    (h : registers_stage outer (Action.register par src kind) leaf)
    (hleaf : leaf.is_reduce = false) : kind.is_reduce = false := by
  cases leaf with
  | plain op =>
    simp only [registers_stage, Action.register.injEq] at h
    rcases h with ⟨-, -, rfl⟩ | ⟨-, -, rfl⟩ <;> rfl
  | farm f =>
    simp only [registers_stage, Action.register.injEq] at h
    rcases h with ⟨-, -, rfl⟩ | ⟨-, -, rfl⟩ <;> rfl
  | filter p =>
    simp only [registers_stage, Action.register.injEq] at h
    obtain ⟨-, -, rfl⟩ := h; rfl
  | reduce r => simp [Pattern.is_reduce] at hleaf
  | iteration f p =>
    simp only [registers_stage, Action.register.injEq] at h
    obtain ⟨-, -, rfl⟩ := h; rfl
  | iteration_pipeline ts p => simp [registers_stage] at h
  | pipeline ts => simp [registers_stage] at h

theorem pipeline_table_kinds (generate_op : G → Option α × G) (chain : List (Pattern α U Rd))
    (acts : List (Action α G U Rd)) (hacts : pipeline generate_op chain = some acts)
    (hred : ∀ p ∈ Pattern.leaves_of chain, p.is_reduce = false) :
    ∀ i st, (table_of acts ([] : List (Stage (α × Nat) (PipeEnv G U Rd)))).get? i = some st →
      ∃ key kind, st.fn = task_func key kind ∧ kind.is_reduce = false := by
  intro i st hst
  unfold pipeline at hacts
  cases hd : (do_pipeline false chain : Option (List (Action α G U Rd))) with
  | none => simp [hd] at hacts
  | some acts' =>
    simp only [hd, Option.some.injEq] at hacts
    obtain ⟨regs, hregs, hall⟩ := do_pipeline_aux_policy _ _ _ _ hd
    obtain ⟨par, src, kind, key, hmem, hfn⟩ := table_of_new acts [] i st (by simp) hst
    refine ⟨key, kind, hfn, ?_⟩
    rw [← hacts, hregs] at hmem
    simp only [List.mem_cons, List.mem_append, List.mem_singleton, Action.register.injEq] at hmem
    rcases hmem with ⟨-, -, rfl⟩ | hmem | hmem | hmem
    · rfl
    · obtain ⟨leaf, hleaf, hr⟩ := forall₂_mem_left hall _ hmem
      exact registers_stage_reduce _ _ _ _ _ hr (hred leaf hleaf)
    · cases hmem
    · cases hmem

/-- C23: the dispatch of a task of a plain callable stage that has
successors (the closure of a farm transformer has the same body), whose input
cell holds `(x, ord)`.  The stage read-releases the input cell, once, stores
the transformed value with the same `ord` into the cell `set` allocates, and
submits one task: stage `stage_id + 1`, the order of its own task, that cell
as its only input.  In a pipeline without reduce stages, after any number of
dispatches and in the state a completed pipeline call returns, every
submitted task with an input cell has the order that was stored into that
cell, every cell was stored once, and the input cell of every queued task
holds an item with the order of the task. -/
theorem plain_stage_keeps_order (stages : List (Stage (α × Nat) (PipeEnv G U Rd)))
    (s : PState α G U Rd) (t : TD) (rest : List TD) (st : Stage (α × Nat) (PipeEnv G U Rd))
    (transform_op : α → U → α × U) (d : DR) (ds : List DR) (x : α) (ord : Nat)
    (hp : s.pending = t :: rest) (hsub : s.submitted = []) (hbd : t.before_dep = [])
    (hst : stages.get? t.stage_id = some st) (hfn : st.fn = no_pattern_task_func transform_op)
    (hloc : t.data_location = d :: ds) (hstore : s.store d = some (x, ord)) :
    (∃ s1 : PState α G U Rd, step stages s = some s1 ∧
      s1.trace = s.trace ++
        [⟨t, Call.get_release d (x, ord)⟩,
         ⟨t, Call.set ((transform_op x s.env.user).1, ord) ⟨s.node, s.next_slot⟩⟩,
         ⟨t, Call.set_task (TD.mk (t.stage_id + 1) s.next_task t.order [s.node] false
            [⟨s.node, s.next_slot⟩] [] []) false⟩] ∧
      released_cells s1.trace = released_cells s.trace ++ [d] ∧
      s1.store = Function.update (Function.update s.store d none) ⟨s.node, s.next_slot⟩
        (some ((transform_op x s.env.user).1, ord)) ∧
      s1.pending =
        TD.mk (t.stage_id + 1) s.next_task t.order [s.node] false [⟨s.node, s.next_slot⟩] [] [] ::
        rest ∧
      s1.finished = s.finished) ∧
    (∀ (generate_op : G → Option α × G) (chain : List (Pattern α U Rd))
      (acts : List (Action α G U Rd)),
      pipeline generate_op chain = some acts →
      (∀ p ∈ Pattern.leaves_of chain, p.is_reduce = false) →
      ∀ (node : Nat) (alloc : Nat → Bool) (g0 : G) (u0 : U) (rd0 : Rd)
        (s' : PState α G U Rd),
        ((∃ n, steps (table_of acts []) n (pipeline_start acts node alloc g0 u0 rd0).launch
            = some s') ∨
          (∃ m, pipeline_run m node alloc g0 u0 rd0 generate_op chain = some s')) →
        (∀ p ∈ submitted_inputs s'.trace, p ∈ stored_orders s'.trace) ∧
        ((stored_orders s'.trace).map Prod.fst).Nodup ∧
        (∀ T ∈ s'.pending, ∀ d' ds', T.data_location = d' :: ds' →
          ∃ y, s'.store d' = some (y, T.order))) := by
  constructor
  · obtain ⟨s1, h1, h2, -, h4, -, h6, -, -, -, h10, -⟩ :=
      step_no_pattern stages s t rest st transform_op d ds x ord hp hsub hbd hst hfn hloc hstore
    refine ⟨s1, h1, h6, ?_, h4, h2, h10⟩
    rw [h6, released_cells_append]; rfl
  · intro generate_op chain acts hacts hred node alloc g0 u0 rd0 s' hs
    have htbl := pipeline_table_kinds generate_op chain acts hacts hred
    have hreach : ∃ n, steps (table_of acts []) n
        (pipeline_start acts node alloc g0 u0 rd0).launch = some s' := by
      rcases hs with hs | ⟨m, hrun⟩
      · exact hs
      · obtain ⟨regs, hshape, hregs⟩ := pipeline_actions generate_op chain acts hacts
        simp only [pipeline_run, hacts] at hrun
        rw [hshape] at hrun
        obtain ⟨t', ht'⟩ := perform_registrations m _ _ _ s' (by
          intro a ha
          simp only [List.mem_cons] at ha
          rcases ha with rfl | ha
          · exact ⟨_, _, _, rfl⟩
          · obtain ⟨par, src, kind, h1, _⟩ := hregs a ha
            exact ⟨par, src, kind, h1⟩) hrun
        rw [← hshape] at ht'
        exact run_steps _ m _ s' t' ht'
    obtain ⟨n, hn⟩ := hreach
    have hinv := order_inv_steps (table_of acts []) htbl n _ s'
      (order_inv_launch node alloc _) hn
    exact ⟨hinv.logged, hinv.stored_once,
      fun T hT d' ds' hd' => (hinv.queued_cell T hT d' ds' hd').1⟩

/-- C23, witness: the plain stage `x + 1` on the item `(3, 0)` of slot 0; and
the completed pipeline of `[5, 6, 7]` through a filter and that stage, where
the three successors of the generator and the two of each later stage carry
the orders stored in their cells. -/
theorem plain_stage_keeps_order_witness :
    (∃ s1 : PState Int (List Int) (List Int) (List Int),
      step [⟨false, false, no_pattern_task_func (pure_op (fun x : Int => x + 1))⟩]
        (sample_item_state 3) = some s1 ∧
      s1.trace =
        [⟨sample_item_task, Call.get_release ⟨0, 0⟩ (3, 0)⟩,
         ⟨sample_item_task, Call.set (4, 0) ⟨0, 1⟩⟩,
         ⟨sample_item_task, Call.set_task (TD.mk 1 1 0 [0] false [⟨0, 1⟩] [] []) false⟩] ∧
      released_cells s1.trace = [⟨0, 0⟩]) ∧
    (∃ s' : PState Int (List Int) (List Int) (List Int),
      pipeline_run 20 0 (fun _ => true) [5, 6, 7] [] [] list_generator
        [Pattern.filter (fun x => decide (x % 2 = 1)), Pattern.plain (pure_op (fun x => x + 1)),
         Pattern.plain collect] = some s' ∧
      submitted_inputs s'.trace
        = [(⟨0, 0⟩, 0), (⟨0, 1⟩, 0), (⟨0, 2⟩, 0), (⟨0, 3⟩, 1), (⟨0, 4⟩, 2), (⟨0, 5⟩, 2),
           (⟨0, 6⟩, 2)] ∧
      (∀ p ∈ submitted_inputs s'.trace, p ∈ stored_orders s'.trace)) := by
  have hthm := plain_stage_keeps_order
      ([⟨false, false, no_pattern_task_func (pure_op (fun x : Int => x + 1))⟩] :
        List (Stage (Int × Nat) (PipeEnv (List Int) (List Int) (List Int))))
      (sample_item_state 3) sample_item_task []
      ⟨false, false, no_pattern_task_func (pure_op (fun x : Int => x + 1))⟩
      (pure_op (fun x : Int => x + 1)) ⟨0, 0⟩ [] 3 0 rfl rfl rfl rfl rfl rfl rfl
  obtain ⟨⟨s1, e1, e2, e3, -, -, -⟩, hrun⟩ := hthm
  refine ⟨⟨s1, e1, e2, e3⟩, ?_⟩
  have hsome : (pipeline_run 20 0 (fun _ => true) [5, 6, 7] [] ([] : List Int) list_generator
      [Pattern.filter (fun x => decide (x % 2 = 1)), Pattern.plain (pure_op (fun x => x + 1)),
       Pattern.plain collect]).map (fun s => submitted_inputs s.trace)
      = some [(⟨0, 0⟩, 0), (⟨0, 1⟩, 0), (⟨0, 2⟩, 0), (⟨0, 3⟩, 1), (⟨0, 4⟩, 2), (⟨0, 5⟩, 2),
           (⟨0, 6⟩, 2)] := by
    decide
  obtain ⟨s', hs', hobs⟩ := Option.map_eq_some'.mp hsome
  refine ⟨s', hs', hobs, ?_⟩
  have hpipe : (pipeline list_generator
      [Pattern.filter (fun x => decide (x % 2 = 1)), Pattern.plain (pure_op (fun x => x + 1)),
       Pattern.plain collect] :
      Option (List (Action Int (List Int) (List Int) (List Int)))).isSome = true := rfl
  obtain ⟨acts, hacts⟩ := Option.isSome_iff_exists.mp hpipe
  exact (hrun list_generator _ acts hacts (by
    intro p hp
    simp [Pattern.leaves_of, Pattern.leaves] at hp
    rcases hp with rfl | rfl | rfl <;> rfl) 0 (fun _ => true) [5, 6, 7] [] [] s'
    (Or.inr ⟨20, hs'⟩)).1

end OrderPreservation

section ChainLemmas
variable {α G U Rd : Type}

theorem supported_of_append : ∀ (as bs : List (Pattern α U Rd)),
    Pattern.supported_of (as ++ bs) = (Pattern.supported_of as && Pattern.supported_of bs) := by
  intro as bs
  induction as with
  | nil => simp [Pattern.supported_of]
  | cons a as ih => simp [Pattern.supported_of, ih, Bool.and_assoc]

theorem leaves_ne_nil_aux : ∀ (n : Nat),
    (∀ p : Pattern α U Rd, Pattern.weight p ≤ n → Pattern.supported p = true →
      Pattern.leaves p ≠ []) ∧
    (∀ ps : List (Pattern α U Rd), Pattern.weights ps ≤ n → Pattern.supported_of ps = true →
      ps ≠ [] → Pattern.leaves_of ps ≠ []) := by
  intro n
  induction n with
  | zero =>
    constructor
    · intro p hp
      cases p <;> simp [Pattern.weight] at hp
    · intro ps hps _ hne
      cases ps with
      | nil => exact absurd rfl hne
      | cons p ps =>
        exfalso
        simp only [Pattern.weights] at hps
        cases p <;> simp [Pattern.weight] at hps
  | succ n ih =>
    have hpat : ∀ p : Pattern α U Rd, Pattern.weight p ≤ n + 1 → Pattern.supported p = true →
        Pattern.leaves p ≠ [] := by
      intro p hp hs
      cases p with
      | plain op => simp [Pattern.leaves]
      | farm f => simp [Pattern.leaves]
      | filter f => simp [Pattern.leaves]
      | reduce r => simp [Pattern.leaves]
      | iteration f q => simp [Pattern.leaves]
      | iteration_pipeline ts q => simp [Pattern.supported] at hs
      | pipeline ts =>
        simp only [Pattern.supported, Bool.and_eq_true, Bool.not_eq_true',
          List.isEmpty_eq_false] at hs
        simp only [Pattern.weight] at hp
        simp only [Pattern.leaves]
        exact ih.2 ts (by omega) hs.2 (by
          intro h; rw [h] at hs; simp at hs)
    refine ⟨hpat, ?_⟩
    intro ps hps hs hne
    cases ps with
    | nil => exact absurd rfl hne
    | cons p ps =>
      simp only [Pattern.supported_of, Bool.and_eq_true] at hs
      simp only [Pattern.weights] at hps
      simp only [Pattern.leaves_of]
      intro h
      rw [List.append_eq_nil] at h
      exact hpat p (by omega) hs.1 h.1

theorem leaves_of_ne_nil (ps : List (Pattern α U Rd)) (hs : Pattern.supported_of ps = true)
    (hne : ps ≠ []) : Pattern.leaves_of ps ≠ [] :=
  (leaves_ne_nil_aux (Pattern.weights ps)).2 ps (le_refl _) hs hne

theorem last_of_append {A : Type} (l1 l2 front : List A) (last : A)
    (h : l1 ++ l2 = front ++ [last]) (hne : l2 ≠ []) : ∃ front', l2 = front' ++ [last] := by
  rcases List.eq_nil_or_concat l2 with h2 | ⟨L, b, h2⟩
  · exact absurd h2 hne
  · rw [List.concat_eq_append] at h2
    rw [h2, ← List.append_assoc] at h
    have := List.append_inj' h rfl
    simp only [List.cons.injEq, and_true] at this
    exact ⟨L, by rw [h2, this.2]⟩

theorem do_pipeline_aux_total : ∀ (n : Nat) (b : Bool) (chain : List (Pattern α U Rd))
    (front : List (Pattern α U Rd)) (last : Pattern α U Rd),
    Pattern.supported_of chain = true → Pattern.weights chain + 1 ≤ n →
    Pattern.leaves_of chain = front ++ [last] → last.is_terminal = true →
    ∃ acts : List (Action α G U Rd), do_pipeline_aux n b chain = some acts := by
  intro n
  induction n with
  | zero => intro b chain front last _ h; omega
  | succ n ih =>
    intro b chain front last hs hw hl hlast
    cases chain with
    | nil => simp [Pattern.leaves_of] at hl
    | cons pat other =>
      simp only [Pattern.supported_of, Bool.and_eq_true] at hs
      obtain ⟨hs1, hs2⟩ := hs
      -- a stage with successors: the rest of the chain is translated
      have hrest : ∀ (o : Pattern α U Rd) (os : List (Pattern α U Rd)), other = o :: os →
          Pattern.weight pat = 1 → Pattern.leaves pat = [pat] →
          ∃ acts : List (Action α G U Rd), do_pipeline_aux n b other = some acts := by
        intro o os ho hwp hlp
        have hne : other ≠ [] := by rw [ho]; simp
        simp only [Pattern.leaves_of] at hl
        obtain ⟨front', hf⟩ := last_of_append _ _ _ _ hl (leaves_of_ne_nil other hs2 hne)
        simp only [Pattern.weights, hwp] at hw
        exact ih b other front' last hs2 (by omega) hf hlast
      -- a stage without successors is the last of the chain
      have hend : other = [] → Pattern.leaves pat = [pat] → pat.is_terminal = true := by
        intro ho hlp
        rw [ho] at hl
        simp only [Pattern.leaves_of, hlp, List.append_nil] at hl
        have := List.append_inj' (show [] ++ [pat] = front ++ [last] from hl) rfl
        simp only [List.cons.injEq, and_true] at this
        rw [this.2]; exact hlast
      cases pat with
      | plain op =>
        cases other with
        | nil =>
          simp only [do_pipeline_aux]
          exact ⟨_, rfl⟩
        | cons o os =>
          obtain ⟨acts, ha⟩ := hrest o os rfl rfl rfl
          simp only [do_pipeline_aux, ha]
          exact ⟨_, rfl⟩
      | farm f =>
        cases other with
        | nil =>
          simp only [do_pipeline_aux]
          exact ⟨_, rfl⟩
        | cons o os =>
          obtain ⟨acts, ha⟩ := hrest o os rfl rfl rfl
          simp only [do_pipeline_aux, ha]
          exact ⟨_, rfl⟩
      | filter p =>
        cases other with
        | nil => exact absurd (hend rfl rfl) (by simp [Pattern.is_terminal])
        | cons o os =>
          obtain ⟨acts, ha⟩ := hrest o os rfl rfl rfl
          simp only [do_pipeline_aux, ha]
          exact ⟨_, rfl⟩
      | reduce r =>
        cases other with
        | nil => exact absurd (hend rfl rfl) (by simp [Pattern.is_terminal])
        | cons o os =>
          obtain ⟨acts, ha⟩ := hrest o os rfl rfl rfl
          simp only [do_pipeline_aux, ha]
          exact ⟨_, rfl⟩
      | iteration f p =>
        cases other with
        | nil => exact absurd (hend rfl rfl) (by simp [Pattern.is_terminal])
        | cons o os =>
          obtain ⟨acts, ha⟩ := hrest o os rfl rfl rfl
          simp only [do_pipeline_aux, ha]
          exact ⟨_, rfl⟩
      | iteration_pipeline ts p => simp [Pattern.supported] at hs1
      | pipeline ts =>
        simp only [Pattern.supported, Bool.and_eq_true] at hs1
        simp only [do_pipeline_aux]
        apply ih b (ts ++ other) front last
        · rw [supported_of_append, hs1.2, hs2]; rfl
        · rw [weights_append]
          simp only [Pattern.weights, Pattern.weight] at hw
          omega
        · rw [leaves_of_append]
          simpa [Pattern.leaves_of, Pattern.leaves] using hl
        · exact hlast

theorem do_pipeline_aux_terminal : ∀ (n : Nat) (b : Bool) (chain : List (Pattern α U Rd))
    (acts : List (Action α G U Rd)), do_pipeline_aux n b chain = some acts →
    ∃ (init : List (Action α G U Rd)) (par : Bool) (kind : StageKind α G U Rd),
      acts = init ++ [Action.register par false kind, Action.run] ∧
      kind.is_terminal = true ∧
      ∀ a ∈ init, ∃ p k, a = Action.register p false k ∧ k.is_terminal = false ∧
        k.is_generator = false := by
  intro n
  induction n with
  | zero => intro b chain acts h; simp [do_pipeline_aux] at h
  | succ n ih =>
    intro b chain acts h
    have hcons : ∀ (p : Bool) (k : StageKind α G U Rd) (other : List (Pattern α U Rd)),
        k.is_terminal = false → k.is_generator = false →
        (match do_pipeline_aux n b other with
          | none => none
          | some acts' => some (Action.register p false k :: acts')) = some acts →
        ∃ (init : List (Action α G U Rd)) (par : Bool) (kind : StageKind α G U Rd),
          acts = init ++ [Action.register par false kind, Action.run] ∧
          kind.is_terminal = true ∧
          ∀ a ∈ init, ∃ p k, a = Action.register p false k ∧ k.is_terminal = false ∧
            k.is_generator = false := by
      intro p k other hk1 hk2 h'
      cases hrec : (do_pipeline_aux n b other : Option (List (Action α G U Rd))) with
      | none => simp [hrec] at h'
      | some acts' =>
        simp only [hrec, Option.some.injEq] at h'
        obtain ⟨init, par, kind, rfl, hkind, hinit⟩ := ih b other acts' hrec
        refine ⟨Action.register p false k :: init, par, kind, by rw [← h']; rfl, hkind, ?_⟩
        intro a ha
        rw [List.mem_cons] at ha
        rcases ha with rfl | ha
        · exact ⟨p, k, rfl, hk1, hk2⟩
        · exact hinit a ha
    cases chain with
    | nil => simp [do_pipeline_aux] at h
    | cons pat other =>
      cases pat with
      | plain op =>
        cases other with
        | nil =>
          simp only [do_pipeline_aux, Option.some.injEq] at h
          exact ⟨[], false, .consumer op, by rw [← h]; rfl, rfl, by simp⟩
        | cons o os =>
          simp only [do_pipeline_aux, register_by_eq] at h
          exact hcons b (.no_pattern op) _ rfl rfl h
      | farm op =>
        cases other with
        | nil =>
          simp only [do_pipeline_aux, Option.some.injEq] at h
          exact ⟨[], true, .farm_consumer op, by rw [← h]; rfl, rfl, by simp⟩
        | cons o os =>
          simp only [do_pipeline_aux, register_by_eq] at h
          exact hcons true (.no_pattern_end op) _ rfl rfl h
      | filter p =>
        simp only [do_pipeline_aux, register_by_eq] at h
        exact hcons b (.filter p) _ rfl rfl h
      | reduce r =>
        simp only [do_pipeline_aux] at h
        exact hcons false (.reduce r) _ rfl rfl h
      | iteration f p =>
        simp only [do_pipeline_aux, register_by_eq] at h
        exact hcons b (.iteration f p) _ rfl rfl h
      | iteration_pipeline ts p => simp [do_pipeline_aux] at h
      | pipeline ts =>
        simp only [do_pipeline_aux] at h
        exact ih b _ acts h

theorem table_of_registrations : ∀ (regs : List (Action α G U Rd))
    (tbl : List (Stage (α × Nat) (PipeEnv G U Rd))),
    (∀ a ∈ regs, ∃ par src kind, a = Action.register par src kind) →
    (table_of (regs ++ [Action.run]) tbl).length = tbl.length + regs.length ∧
    ∀ i par src kind, regs.get? i = some (Action.register par src kind) →
      (table_of (regs ++ [Action.run]) tbl).get? (tbl.length + i)
        = some ⟨par, src, task_func (tbl.length + i) kind⟩ := by
  intro regs
  induction regs with
  | nil =>
    intro tbl _
    simp [table_of]
  | cons a regs ih =>
    intro tbl hregs
    obtain ⟨par, src, kind, rfl⟩ := hregs a (by simp)
    obtain ⟨h1, h2⟩ := ih (tbl ++ [⟨par, src, task_func tbl.length kind⟩])
      (fun a' ha' => hregs a' (by simp [ha']))
    simp only [List.cons_append, table_of, List.append_eq]
    constructor
    · rw [h1]; simp; omega
    · intro i par' src' kind' hi
      cases i with
      | zero =>
        simp only [List.get?_cons_zero, Option.some.injEq, Action.register.injEq] at hi
        obtain ⟨rfl, rfl, rfl⟩ := hi
        rw [Nat.add_zero, table_of_old _ _ tbl.length (by simp)]
        simp
      | succ i =>
        simp only [List.get?_cons_succ] at hi
        have := h2 i par' src' kind' hi
        simp only [List.length_append, List.length_singleton] at this
        rw [show tbl.length + (i + 1) = tbl.length + 1 + i by omega]
        exact this

/-- The tasks a registered closure of a pipeline submits go to its own stage
or to the next one; the closure of a terminal stage submits none. -/
theorem task_func_submits (key : Nat) (kind : StageKind α G U Rd) (t : TD)
    (s s1 : PState α G U Rd) (h : task_func key kind t s = some s1) :
    ∃ new : List TD, s1.submitted = s.submitted ++ new ∧
      (∀ u ∈ new, u.stage_id = t.stage_id + 1 ∨ u.stage_id = t.stage_id) ∧
      (kind.is_terminal = true → new = []) := by
  obtain ⟨-, -, h3⟩ := task_func_outcome key kind t s s1 h
  rcases h3 with ⟨hg, ⟨v, -, e2, -⟩ | ⟨-, e2, -⟩⟩ |
    ⟨-, d, ds, item, -, -, ⟨-, e2, -⟩ | ⟨hterm, y, o, u, -, e2, -, -, -, -, -, e8, -⟩⟩
  · refine ⟨_, e2, ?_, ?_⟩
    · intro u hu
      simp only [List.mem_cons, List.mem_singleton, List.not_mem_nil, or_false] at hu
      rcases hu with rfl | rfl
      · exact Or.inl rfl
      · exact Or.inr rfl
    · intro hk
      cases kind <;> simp [StageKind.is_terminal, StageKind.is_generator] at hk hg
  · exact ⟨[], by simpa using e2, by simp, fun _ => rfl⟩
  · exact ⟨[], by simpa using e2, by simp, fun _ => rfl⟩
  · refine ⟨[u], e2, ?_, ?_⟩
    · intro u' hu'
      rw [List.mem_singleton] at hu'
      rw [hu']; exact e8
    · intro hk; rw [hk] at hterm; cases hterm

end ChainLemmas

section ChainRegistration
variable {α G U Rd : Type}

/-- C25: a chain that the header translates (no iteration over a pipeline, no
empty nested pipeline) and whose last stage, nested pipelines spliced in, is a
plain callable or a farm.  `pipeline` registers the generator closure, then
one closure per stage of the chain, in chain order, the last one that of a
terminal stage, and calls `run` once, last.  The stage table has one entry
more than the chain has stages, the entry `i` holding the closure of the
registration `i`; a task of stage `i` submits tasks to the stages `i + 1` and
`i` only, all within the table, and a task of the last stage submits none. -/
theorem pipeline_registers_chain (generate_op : G → Option α × G)
    (chain front : List (Pattern α U Rd)) (last : Pattern α U Rd)
    (hsup : Pattern.supported_of chain = true)
    (hleaves : Pattern.leaves_of chain = front ++ [last])
    (hlast : last.is_terminal = true) :
    ∃ (acts regs : List (Action α G U Rd)) (par : Bool) (kind : StageKind α G U Rd),
      pipeline generate_op chain = some acts ∧
      acts = Action.register false true (.generator generate_op) ::
        regs ++ [Action.register par false kind, Action.run] ∧
      List.Forall₂ (registers_stage false) (regs ++ [Action.register par false kind])
        (Pattern.leaves_of chain) ∧
      regs.length + 1 = (Pattern.leaves_of chain).length ∧
      kind.is_terminal = true ∧
      (∀ a ∈ regs, ∃ p k, a = Action.register p false k ∧ k.is_terminal = false ∧
        k.is_generator = false) ∧
      (table_of acts ([] : List (Stage (α × Nat) (PipeEnv G U Rd)))).length
        = (Pattern.leaves_of chain).length + 1 ∧
      (∀ i p src k,
        (Action.register false true (.generator generate_op) ::
          regs ++ [Action.register par false kind]).get? i = some (Action.register p src k) →
        (table_of acts ([] : List (Stage (α × Nat) (PipeEnv G U Rd)))).get? i
          = some ⟨p, src, task_func i k⟩) ∧
      (∀ (i : Nat) (st : Stage (α × Nat) (PipeEnv G U Rd)) (t : TD) (s s' : PState α G U Rd),
        (table_of acts []).get? i = some st → t.stage_id = i → st.fn t s = some s' →
        ∃ new : List TD, s'.submitted = s.submitted ++ new ∧
          (∀ u ∈ new, (u.stage_id = i + 1 ∨ u.stage_id = i) ∧
            u.stage_id < (table_of acts ([] : List (Stage (α × Nat) (PipeEnv G U Rd)))).length) ∧
          (i = (Pattern.leaves_of chain).length → new = [])) := by
  obtain ⟨acts', hd⟩ := do_pipeline_aux_total (G := G) (Pattern.weights chain + 1) false chain
    front last hsup (le_refl _) hleaves hlast
  obtain ⟨regs0, hregs0, hall⟩ := do_pipeline_aux_policy _ _ _ _ hd
  obtain ⟨init, par, kind, hterm, hkind, hinit⟩ := do_pipeline_aux_terminal _ _ _ _ hd
  have hsplit : regs0 = init ++ [Action.register par false kind] := by
    rw [hregs0] at hterm
    have : regs0 ++ [Action.run] = (init ++ [Action.register par false kind]) ++ [Action.run] := by
      rw [hterm]; simp
    exact (List.append_inj' this rfl).1
  have hlen : regs0.length = (Pattern.leaves_of chain).length := hall.length_eq
  have hpipe : pipeline generate_op chain
      = some (Action.register false true (.generator generate_op) :: acts') := by
    unfold pipeline do_pipeline
    rw [hd]
  have hacts : Action.register false true (.generator generate_op) :: acts'
      = (Action.register false true (.generator generate_op) :: regs0) ++ [Action.run] := by
    rw [hregs0]; rfl
  have hallreg : ∀ a ∈ Action.register false true (.generator generate_op) :: regs0,
      ∃ p src k, a = Action.register p src k := by
    intro a ha
    rw [List.mem_cons] at ha
    rcases ha with rfl | ha
    · exact ⟨_, _, _, rfl⟩
    · rw [hsplit, List.mem_append, List.mem_singleton] at ha
      rcases ha with ha | rfl
      · obtain ⟨p, k, h1, -⟩ := hinit a ha
        exact ⟨p, false, k, h1⟩
      · exact ⟨_, _, _, rfl⟩
  obtain ⟨htl, htg⟩ := table_of_registrations
    (Action.register false true (.generator generate_op) :: regs0)
    ([] : List (Stage (α × Nat) (PipeEnv G U Rd))) hallreg
  rw [← hacts] at htl htg
  simp only [List.length_nil, Nat.zero_add, List.length_cons] at htl htg
  refine ⟨_, init, par, kind, hpipe, ?_, ?_, ?_, hkind, hinit, ?_, ?_, ?_⟩
  · rw [hacts, hsplit]; simp
  · rw [← hsplit]; exact hall
  · rw [← hlen, hsplit]; simp
  · rw [htl, hlen]
  · intro i p src k hi
    apply htg
    rw [hsplit]
    exact hi
  · intro i st t s s' hst hti hfn
    have hilt : i < regs0.length + 1 := by
      rw [← htl]
      exact List.get?_eq_some.mp hst |>.1
    obtain ⟨a, ha⟩ : ∃ a, (Action.register false true (.generator generate_op) :: regs0).get? i
        = some a := by
      have : i < (Action.register false true (.generator generate_op) :: regs0).length := by
        simpa using hilt
      exact ⟨_, List.get?_eq_get this⟩
    obtain ⟨p, src, k, rfl⟩ := hallreg a (List.get?_mem ha)
    have hentry := htg i p src k ha
    rw [hst, Option.some.injEq] at hentry
    rw [hentry] at hfn
    obtain ⟨new, h1, h2, h3⟩ := task_func_submits i k t s s' hfn
    have hlastk : i = (Pattern.leaves_of chain).length → k.is_terminal = true := by
      intro hi
      rw [← hlen, hsplit] at hi
      simp only [List.length_append, List.length_singleton] at hi
      rw [hsplit, hi] at ha
      have : (Action.register false true (.generator generate_op) ::
          (init ++ [Action.register par false kind])).get? (init.length + 1)
          = some (Action.register par false kind) := by
        simp
      rw [this, Option.some.injEq, Action.register.injEq] at ha
      rw [← ha.2.2]; exact hkind
    refine ⟨new, h1, ?_, fun hi => h3 (hlastk hi)⟩
    intro u hu
    have hnew : new ≠ [] := List.ne_nil_of_mem hu
    have hik : i ≠ (Pattern.leaves_of chain).length := fun hi => hnew (h3 (hlastk hi))
    have hu2 := h2 u hu
    rw [hti] at hu2
    refine ⟨hu2, ?_⟩
    rw [htl]
    rcases hu2 with hu2 | hu2 <;> omega

/-- C25, witness: a farm, a filter, a nested pipeline of an iteration and a
plain callable, and the consumer: five stages, six table entries. -/
theorem pipeline_registers_chain_witness :
    ∃ (acts regs : List (Action Int (List Int) (List Int) (List Int))) (par : Bool)
      (kind : StageKind Int (List Int) (List Int) (List Int)),
      pipeline list_generator
        [Pattern.farm (pure_op (fun x => 2 * x)), Pattern.filter (fun x => decide (x % 4 = 0)),
         Pattern.pipeline [Pattern.iteration (fun x => x / 2) (fun x => decide (x > 0)),
           Pattern.plain (pure_op (fun x => x + 1))],
         Pattern.plain collect] = some acts ∧
      acts = Action.register false true (.generator list_generator) ::
        regs ++ [Action.register par false kind, Action.run] ∧
      regs.length + 1 = 5 ∧ kind.is_terminal = true ∧
      (table_of acts ([] : List (Stage (Int × Nat)
        (PipeEnv (List Int) (List Int) (List Int))))).length = 6 := by
  obtain ⟨acts, regs, par, kind, h1, h2, -, h4, h5, -, h7, -, -⟩ :=
    pipeline_registers_chain (list_generator : List Int → Option Int × List Int)
      ([Pattern.farm (pure_op (fun x => 2 * x)), Pattern.filter (fun x => decide (x % 4 = 0)),
        Pattern.pipeline [Pattern.iteration (fun x => x / 2) (fun x => decide (x > 0)),
          Pattern.plain (pure_op (fun x => x + 1))],
        Pattern.plain collect] : List (Pattern Int (List Int) (List Int)))
      [Pattern.farm (pure_op (fun x => 2 * x)), Pattern.filter (fun x => decide (x % 4 = 0)),
        Pattern.iteration (fun x => x / 2) (fun x => decide (x > 0)),
        Pattern.plain (pure_op (fun x => x + 1))]
      (Pattern.plain collect) rfl rfl rfl
  exact ⟨acts, regs, par, kind, h1, h2, h4, h5, h7⟩

end ChainRegistration

section MapReduceProperties

variable {It Identity Transformer Combiner Result : Type}

/-- C26: for every OpenMP policy, range, identity, transformer and combiner
the single-sequence `map_reduce` returns the policy's `map_reduce` on the
one-element iterator tuple of `first`, the distance from `first` to `last` and
the same identity, transformer and combiner; the multi-sequence overload
passes the tuple of `first` and the other iterators with the same remaining
arguments, and with no other sequence returns what the single-sequence
overload returns. -/
theorem map_reduce_delegates (distance : It → It → Int)
    (ex : parallel_execution_omp It Identity Transformer Combiner Result)
    (first last : It) (identity : Identity) (transform_op : Transformer)
    (combine_op : Combiner) (other_firsts : List It) :
    map_reduce distance ex first last identity transform_op combine_op
      = ex.map_reduce [first] (distance first last) identity transform_op combine_op ∧
    map_reduce_multi distance ex first last identity transform_op combine_op other_firsts
      = ex.map_reduce (first :: other_firsts) (distance first last) identity transform_op
          combine_op ∧
    map_reduce_multi distance ex first last identity transform_op combine_op []
      = map_reduce distance ex first last identity transform_op combine_op :=
  ⟨rfl, rfl, rfl⟩

end MapReduceProperties

section LeftIdentity
variable {P R E : Type}

/-- C24: when the value-initialised result is a left identity of `combine`,
`divide` is well-founded and returns at least one sub-problem on every
problem that is not a base case, the sequential divide-and-conquer returns a
value and `divide_conquer` returns that same value on every node and for every
sequence of `allocate_tokens` outcomes, once the fuel is large enough;
associativity of `combine` is not assumed.  Without the left identity the two
differ: with the product, whose value-initialised result is 0, the parallel
run on `[2, 3]` returns 0 and the sequential one 6. -/
theorem divide_conquer_left_identity (ops : DCOps P R) (size : P → Nat)
    (h_wf : ∀ x, ops.predicate x = false → ∀ y ∈ ops.divide x, size y < size x)
    (h_ne : ∀ x, ops.predicate x = false → ops.divide x ≠ [])
    (h_id : ∀ r, ops.combine ops.empty_result r = r) (input : P) :
    (∃ v : R, (∃ n, ∀ m, n ≤ m → seq_divide_conquer ops m input = some v) ∧
      ∀ (node : Nat) (alloc : Nat → Bool),
        ∃ n, ∀ m, n ≤ m → divide_conquer ops m node alloc input = some v) ∧
    (prod_ops.combine prod_ops.empty_result 6 ≠ 6 ∧
      seq_divide_conquer prod_ops 8 [2, 3] = some 6 ∧
      divide_conquer prod_ops 8 0 (fun _ => true) [2, 3] = some 0) := by
  obtain ⟨f, v, hv⟩ := seq_divide_conquer_total ops size h_wf h_ne (size input) input (le_refl _)
  refine ⟨⟨v, ⟨f, fun m hm => seq_divide_conquer_mono ops hm hv⟩, fun node alloc =>
    ⟨max f (tree_steps ops f input + 1), fun m hm => ?_⟩⟩, by decide, by decide, by decide⟩
  exact divide_conquer_of_seq ops h_id node alloc input f v hv m
    (le_trans (le_max_left _ _) hm) (le_trans (le_max_right _ _) hm)

/-- C24, witness: the combiner `2 * a + b` is not associative and has 0 as a
left identity; on `[1, 2, 3, 4]` the sequential and the parallel
divide-and-conquer agree, whatever the tokens. -/
theorem divide_conquer_left_identity_witness :
    skew_ops.combine (skew_ops.combine 1 1) 1 ≠ skew_ops.combine 1 (skew_ops.combine 1 1) ∧
    ∃ v : Int, (∃ n, ∀ m, n ≤ m → seq_divide_conquer skew_ops m [1, 2, 3, 4] = some v) ∧
      ∀ (node : Nat) (alloc : Nat → Bool),
        ∃ n, ∀ m, n ≤ m → divide_conquer skew_ops m node alloc [1, 2, 3, 4] = some v :=
  ⟨by decide,
   (divide_conquer_left_identity skew_ops List.length sum_ops_wf
    (fun _ _ => by simp [skew_ops, sum_ops, halves])
    (fun r => by simp [skew_ops, sum_ops]) [1, 2, 3, 4]).1⟩

end LeftIdentity

/-! ## The farm and filter pipeline under any schedule -/

section FlowLemmas
variable {α U Rd : Type}

theorem dispatch_eq_step {C E : Type} (stages : List (Stage C E)) (i : Nat) (s : State C E)
    (t : TD) (ht : s.pending.get? i = some t) (hbd : t.before_dep = []) :
    dispatch stages i s = step stages { s with pending := t :: s.pending.eraseIdx i } := by
  have hr : ready s.finished t = true := ready_of_before_dep_nil _ _ hbd
  simp only [dispatch, ht, hr, if_true, step, pick]

theorem pending_perm_of_get {A : Type} (l : List A) (i : Nat) (t : A)
    (ht : l.get? i = some t) : List.Perm (t :: l.eraseIdx i) l := by
  induction l generalizing i with
  | nil => simp at ht
  | cons a l ih =>
    cases i with
    | zero =>
      simp only [List.get?_cons_zero, Option.some.injEq] at ht
      subst ht
      simp
    | succ i =>
      simp only [List.get?_cons_succ] at ht
      simp only [List.eraseIdx_cons_succ]
      exact (List.Perm.swap a t _).trans ((ih i ht).cons a)

theorem survivors_nil (f : α → α) (p : α → Bool) (k : Nat) : survivors f p k [] = [] := rfl

theorem survivors_cons (f : α → α) (p : α → Bool) (k : Nat) (x : α) (xs : List α) :
    survivors f p k (x :: xs)
      = (if p (f x) then [(f x, k)] else []) ++ survivors f p (k + 1) xs := by
  simp only [survivors, List.map_cons, List.enumFrom_cons, List.filter_cons]
  split <;> simp

theorem flow_inv_reorder (f : α → α) (p : α → Bool) (c : α → U → U) (u0 : U)
    (target : List (α × Nat)) (s : PState α (List α) U Rd) (l : List TD)
    (hl : List.Perm l s.pending) (h : FlowInv f p c u0 target s) :
    FlowInv f p c u0 target { s with pending := l } ∧
      (l.map (work ({ s with pending := l } : PState α (List α) U Rd))).sum
        = (s.pending.map (work s)).sum := by
  refine ⟨⟨h.submitted_nil, ?_, ?_, ?_, ?_, ?_, ?_, h.user⟩, ?_⟩
  · intro t ht; exact h.queued_ready t (hl.mem_iff.mp ht)
  · have := (hl.filter (fun t => decide (t.stage_id = 0))).length_eq
    simp only at this ⊢
    rw [this]; exact h.source_once
  · intro t ht; exact h.queued_cell t (hl.mem_iff.mp ht)
  · intro d hd; exact h.queued_old d ((hl.filterMap _).mem_iff.mp hd)
  · exact ((hl.filterMap _).nodup_iff).mpr h.queued_distinct
  · refine List.Perm.trans ?_ h.account
    exact List.Perm.append_left _ (hl.flatMap_right _)
  · exact (hl.map (work s)).sum_eq

end FlowLemmas

section FlowEffect
variable {α U Rd : Type}

theorem owed_congr (f : α → α) (p : α → Bool) (s s' : PState α (List α) U Rd) (r : TD)
    (henv : r.stage_id = 0 → s'.env.gen = s.env.gen ∧ s'.env.order = s.env.order)
    (hcell : r.data_location.head?.bind s'.store = r.data_location.head?.bind s.store) :
    owed f p s' r = owed f p s r := by
  unfold owed
  rw [hcell]
  split
  · rename_i h0
    rw [(henv h0).1, (henv h0).2]
  all_goals rfl

theorem work_congr (s s' : PState α (List α) U Rd) (r : TD)
    (henv : r.stage_id = 0 → s'.env.gen = s.env.gen) : work s' r = work s r := by
  unfold work
  split
  · rename_i h0
    rw [henv h0]
  all_goals rfl

theorem queued_inputs_cons (t : TD) (rest : List TD) :
    queued_inputs (t :: rest) = t.data_location.head?.toList ++ queued_inputs rest := by
  unfold queued_inputs
  cases h : t.data_location.head? <;> simp [List.filterMap_cons, h]

theorem mem_queued_inputs_of (l : List TD) (r : TD) (d : DR) (hr : r ∈ l)
    (hd : r.data_location.head? = some d) : d ∈ queued_inputs l := by
  unfold queued_inputs
  rw [List.mem_filterMap]
  exact ⟨r, hr, hd⟩

theorem flow_inv_of_effect (f : α → α) (p : α → Bool) (c : α → U → U) (u0 : U)
    (target : List (α × Nat)) (s s' : PState α (List α) U Rd) (t : TD) (rest new : List TD)
    (h : FlowInv f p c u0 target s) (hp : s.pending = t :: rest)
    (hsub : s'.submitted = []) (hpend : s'.pending = new ++ rest)
    (hslot : s.next_slot ≤ s'.next_slot)
    (hstore : ∀ d, d.slot_id < s.next_slot → t.data_location.head? ≠ some d →
      s'.store d = s.store d)
    (henv : t.stage_id ≠ 0 → s'.env.gen = s.env.gen ∧ s'.env.order = s.env.order)
    (hnew : ∀ u ∈ new, u.before_dep = [] ∧ u.stage_id ≤ 3 ∧
      (u.stage_id = 0 → t.stage_id = 0) ∧
      (u.stage_id ≠ 0 → ∃ d, u.data_location = [d] ∧ ∃ v, s'.store d = some v))
    (hnew_src : (new.filter (fun u => decide (u.stage_id = 0))).length ≤ 1)
    (hnew_nodup : (queued_inputs new).Nodup)
    (hnew_fresh : ∀ d ∈ queued_inputs new, s.next_slot ≤ d.slot_id ∧ d.slot_id < s'.next_slot)
    (hacc : reads_of 3 s'.trace ++ new.flatMap (owed f p s')
      = reads_of 3 s.trace ++ owed f p s t)
    (huser : s'.env.user = (reads_of 3 s'.trace).foldl (fun u y => c y.1 u) u0)
    (hwork : (new.map (work s')).sum + 1 ≤ work s t) :
    FlowInv f p c u0 target s' ∧
      (s'.pending.map (work s')).sum + 1 ≤ (s.pending.map (work s)).sum := by
  have hsrc := h.source_once
  have hnd := h.queued_distinct
  have hold := h.queued_old
  rw [hp] at hsrc hnd hold
  rw [queued_inputs_cons] at hnd hold
  -- the queued tasks other than `t` see the same cell and the same counters
  have hrest_src : ∀ r ∈ rest, r.stage_id = 0 → t.stage_id ≠ 0 := by
    intro r hr h0 ht0
    have hmem : r ∈ rest.filter (fun u => decide (u.stage_id = 0)) := by
      rw [List.mem_filter]; exact ⟨hr, by simp [h0]⟩
    have hpos := List.length_pos_of_mem hmem
    simp only [List.filter_cons, ht0, decide_True, if_true, List.length_cons] at hsrc
    omega
  have hrest_cell : ∀ r ∈ rest,
      r.data_location.head?.bind s'.store = r.data_location.head?.bind s.store := by
    intro r hr
    cases hd : r.data_location.head? with
    | none => rfl
    | some d =>
      show s'.store d = s.store d
      have hmem : d ∈ queued_inputs rest := mem_queued_inputs_of rest r d hr hd
      apply hstore d (hold d (List.mem_append_right _ hmem))
      intro ht
      rw [ht] at hnd
      simp only [Option.toList_some, List.singleton_append, List.nodup_cons] at hnd
      exact hnd.1 hmem
  have howed : ∀ r ∈ rest, owed f p s' r = owed f p s r := fun r hr =>
    owed_congr f p s s' r (fun h0 => henv (hrest_src r hr h0)) (hrest_cell r hr)
  have hwork_rest : ∀ r ∈ rest, work s' r = work s r := fun r hr =>
    work_congr s s' r (fun h0 => (henv (hrest_src r hr h0)).1)
  refine ⟨⟨hsub, ?_, ?_, ?_, ?_, ?_, ?_, huser⟩, ?_⟩
  · intro u hu
    rw [hpend, List.mem_append] at hu
    rcases hu with hu | hu
    · exact ⟨(hnew u hu).1, (hnew u hu).2.1⟩
    · exact h.queued_ready u (by rw [hp]; exact List.mem_cons_of_mem _ hu)
  · rw [hpend, List.filter_append, List.length_append]
    by_cases ht0 : t.stage_id = 0
    · simp only [List.filter_cons, ht0, decide_True, if_true, List.length_cons] at hsrc
      omega
    · have : new.filter (fun u => decide (u.stage_id = 0)) = [] := by
        rw [List.filter_eq_nil_iff]
        intro u hu
        simp only [decide_eq_true_eq]
        exact fun h0 => ht0 ((hnew u hu).2.2.1 h0)
      rw [this]
      simp only [List.filter_cons, ht0, decide_False, List.length_nil, Nat.zero_add] at hsrc ⊢
      simpa using hsrc
  · intro u hu hu0
    rw [hpend, List.mem_append] at hu
    rcases hu with hu | hu
    · exact (hnew u hu).2.2.2 hu0
    · obtain ⟨d, hd, v, hv⟩ := h.queued_cell u (by rw [hp]; exact List.mem_cons_of_mem _ hu) hu0
      refine ⟨d, hd, v, ?_⟩
      have := hrest_cell u hu
      rw [hd] at this
      replace this : s'.store d = s.store d := this
      rw [this]; exact hv
  · intro d hd
    rw [hpend, queued_inputs_append, List.mem_append] at hd
    rcases hd with hd | hd
    · exact (hnew_fresh d hd).2
    · exact Nat.lt_of_lt_of_le (hold d (List.mem_append_right _ hd)) hslot
  · rw [hpend, queued_inputs_append, List.nodup_append]
    refine ⟨hnew_nodup, (List.nodup_append.mp hnd).2.1, ?_⟩
    intro d hd1 hd2
    have h1 := (hnew_fresh d hd1).1
    have h2 := hold d (List.mem_append_right _ hd2)
    omega
  · refine List.Perm.trans (List.Perm.of_eq ?_) h.account
    rw [hpend, hp, List.flatMap_append, ← List.append_assoc, hacc, List.flatMap_cons,
      List.append_assoc]
    congr 2
    exact List.flatMap_congr howed
  · rw [hpend, hp, List.map_append, List.sum_append, List.map_cons, List.sum_cons]
    have : (rest.map (work s')).sum = (rest.map (work s)).sum := by
      congr 1
      exact List.map_congr_left hwork_rest
    omega

end FlowEffect

section FlowStep
variable {α U Rd : Type}

theorem owed_source (f : α → α) (p : α → Bool) (s : PState α (List α) U Rd) (t : TD)
    (ht : t.stage_id = 0) : owed f p s t = survivors f p s.env.order s.env.gen := by
  unfold owed; rw [ht]

theorem owed_farm (f : α → α) (p : α → Bool) (s : PState α (List α) U Rd) (t : TD)
    (d : DR) (ds : List DR) (x : α) (i : Nat)
    (ht : t.stage_id = 1) (hd : t.data_location = d :: ds) (hv : s.store d = some (x, i)) :
    owed f p s t = if p (f x) then [(f x, i)] else [] := by
  unfold owed; rw [ht, hd]
  rw [show (d :: ds).head?.bind s.store = some (_, i) from hv]

theorem owed_filter (f : α → α) (p : α → Bool) (s : PState α (List α) U Rd) (t : TD)
    (d : DR) (ds : List DR) (y : α) (i : Nat)
    (ht : t.stage_id = 2) (hd : t.data_location = d :: ds) (hv : s.store d = some (y, i)) :
    owed f p s t = if p y then [(y, i)] else [] := by
  unfold owed; rw [ht, hd]
  rw [show (d :: ds).head?.bind s.store = some (_, i) from hv]

theorem owed_sink (f : α → α) (p : α → Bool) (s : PState α (List α) U Rd) (t : TD)
    (d : DR) (ds : List DR) (y : α) (i : Nat)
    (ht : t.stage_id = 3) (hd : t.data_location = d :: ds) (hv : s.store d = some (y, i)) :
    owed f p s t = [(y, i)] := by
  unfold owed; rw [ht, hd]
  rw [show (d :: ds).head?.bind s.store = some (_, i) from hv]

theorem flow_step (stages : List (Stage (α × Nat) (PipeEnv (List α) U Rd)))
    (st0 st1 st2 st3 : Stage (α × Nat) (PipeEnv (List α) U Rd))
    (f : α → α) (p : α → Bool) (c : α → U → U)
    (h0 : stages.get? 0 = some st0) (hf0 : st0.fn = generator_task_func list_generator)
    (h1 : stages.get? 1 = some st1) (hf1 : st1.fn = no_pattern_task_func (pure_op f))
    (h2 : stages.get? 2 = some st2) (hf2 : st2.fn = filter_task_func p)
    (h3 : stages.get? 3 = some st3) (hf3 : st3.fn = consumer_task_func (sink_op c))
    (u0 : U) (target : List (α × Nat)) (s : PState α (List α) U Rd) (t : TD) (rest : List TD)
    (hp : s.pending = t :: rest) (h : FlowInv f p c u0 target s) :
    ∃ s' : PState α (List α) U Rd, step stages s = some s' ∧ FlowInv f p c u0 target s' ∧
      (s'.pending.map (work s')).sum + 1 ≤ (s.pending.map (work s)).sum := by
  have hmem : t ∈ s.pending := by rw [hp]; exact List.mem_cons_self _ _
  obtain ⟨hbd, hle⟩ := h.queued_ready t hmem
  have hcases : t.stage_id = 0 ∨ t.stage_id = 1 ∨ t.stage_id = 2 ∨ t.stage_id = 3 := by omega
  rcases hcases with ht | ht | ht | ht
  · -- the generator
    cases hg : s.env.gen with
    | nil =>
      obtain ⟨s1, e1, e2, e3, e4, e5, e6, e7, -, -, -, -⟩ := step_generator_done stages s t rest
        st0 list_generator hp h.submitted_nil hbd (by rw [ht]; exact h0) hf0 (by rw [hg]; rfl)
      have hreads : reads_of 3 s1.trace = reads_of 3 s.trace := by
        rw [e6, reads_of_append]; simp [reads_of]
      refine ⟨s1, e1, flow_inv_of_effect f p c u0 target s s1 t rest [] h hp e3 (by simpa using e2)
        (by omega) (fun d _ _ => by rw [e4]) (fun hne => absurd ht hne) (by simp) (by simp)
        (by simp [queued_inputs]) (by simp [queued_inputs]) ?_ ?_ ?_⟩
      · rw [hreads, owed_source f p s t ht, hg]; simp [survivors]
      · rw [hreads, e5]; exact h.user
      · simp [work, ht, hg]
    | cons x g =>
      obtain ⟨s1, e1, e2, e3, e4, e5, e6, e7, -, e9, -, -⟩ := step_generator_yield stages s t rest
        st0 list_generator x hp h.submitted_nil hbd (by rw [ht]; exact h0) hf0 (by rw [hg]; rfl)
      have hreads : reads_of 3 s1.trace = reads_of 3 s.trace := by
        rw [e6, reads_of_append]; simp [reads_of, ht]
      have hfresh : s1.store ⟨s.node, s.next_slot⟩ = some (x, s.env.order) := by
        rw [e4]; simp
      refine ⟨s1, e1, flow_inv_of_effect f p c u0 target s s1 t rest
        [TD.mk (t.stage_id + 1) s.next_task s.env.order [s.node] false [⟨s.node, s.next_slot⟩] [] [],
         TD.mk t.stage_id (s.next_task + 1) (s.env.order + 1) [s.node] false [] [] []]
        h hp e3 e2 (by omega) ?_ (fun hne => absurd ht hne) ?_ ?_ ?_ ?_ ?_ ?_ ?_⟩
      · intro d hd _
        rw [e4, Function.update_noteq]
        intro hd'; rw [hd'] at hd; simp at hd
      · intro u hu
        simp only [List.mem_cons, List.mem_singleton, List.not_mem_nil, or_false] at hu
        rcases hu with rfl | rfl
        · refine ⟨rfl, by simp [ht], by simp [ht], fun _ => ⟨_, rfl, _, hfresh⟩⟩
        · exact ⟨rfl, by simp [ht], fun _ => ht, fun hne => absurd ht hne⟩
      · simp [List.filter_cons, ht]
      · simp [queued_inputs]
      · intro d hd
        simp only [queued_inputs, List.filterMap_cons, List.head?_cons, List.head?_nil,
          List.filterMap_nil, List.mem_singleton] at hd
        subst hd
        simp only [e7]; omega
      · rw [hreads, owed_source f p s t ht, hg, survivors_cons]
        simp only [List.flatMap_cons, List.flatMap_nil, List.append_nil]
        rw [owed_farm f p s1 _ ⟨s.node, s.next_slot⟩ [] x s.env.order (by simp [ht]) rfl hfresh,
          owed_source f p s1
            (TD.mk t.stage_id (s.next_task + 1) (s.env.order + 1) [s.node] false [] [] []) ht, e5]
        simp [hg, list_generator]
      · rw [hreads, e5]; exact h.user
      · simp [work, ht, hg, e5, list_generator]
        omega
  · -- the farm
    obtain ⟨d, hd, ⟨x, i⟩, hv⟩ := h.queued_cell t hmem (by omega)
    obtain ⟨s1, e1, e2, e3, e4, e5, e6, e7, -, e9, -, -⟩ := step_no_pattern stages s t rest st1
      (pure_op f) d [] x i hp h.submitted_nil hbd (by rw [ht]; exact h1) hf1 hd hv
    have hreads : reads_of 3 s1.trace = reads_of 3 s.trace := by
      rw [e6, reads_of_append]; simp [reads_of, ht]
    have hfresh : s1.store ⟨s.node, s.next_slot⟩ = some (f x, i) := by
      rw [e4]; simp [pure_op]
    refine ⟨s1, e1, flow_inv_of_effect f p c u0 target s s1 t rest
      [TD.mk (t.stage_id + 1) s.next_task t.order [s.node] false [⟨s.node, s.next_slot⟩] [] []]
      h hp e3 e2 (by omega) ?_ (fun _ => by rw [e5]; exact ⟨rfl, rfl⟩) ?_ ?_ ?_ ?_ ?_ ?_ ?_⟩
    · intro d' hd' hne
      rw [e4, Function.update_noteq, Function.update_noteq]
      · intro hdd; apply hne; rw [hd, hdd]; rfl
      · intro hdd; rw [hdd] at hd'; simp at hd'
    · intro u hu
      simp only [List.mem_singleton] at hu
      subst hu
      exact ⟨rfl, by simp [ht], by simp [ht], fun _ => ⟨_, rfl, _, hfresh⟩⟩
    · simp [List.filter_cons, ht]
    · simp [queued_inputs]
    · intro d' hd'
      simp only [queued_inputs, List.filterMap_cons, List.head?_cons,
        List.filterMap_nil, List.mem_singleton] at hd'
      subst hd'
      simp only [e7]; omega
    · rw [hreads, owed_farm f p s t d [] x i ht hd hv]
      simp only [List.flatMap_cons, List.flatMap_nil, List.append_nil]
      rw [owed_filter f p s1 _ ⟨s.node, s.next_slot⟩ [] (f x) i (by simp [ht]) rfl hfresh]
    · rw [hreads, e5]; exact h.user
    · simp [work, ht]
  · -- the filter
    obtain ⟨d, hd, ⟨y, i⟩, hv⟩ := h.queued_cell t hmem (by omega)
    by_cases hpy : p y = true
    · obtain ⟨s1, e1, e2, e3, e4, e5, e6, e7, -, e9, -, -⟩ := step_filter_pass stages s t rest st2
        p d [] y i hp h.submitted_nil hbd (by rw [ht]; exact h2) hf2 hd hv hpy
      have hreads : reads_of 3 s1.trace = reads_of 3 s.trace := by
        rw [e6, reads_of_append]; simp [reads_of, ht]
      have hfresh : s1.store ⟨s.node, s.next_slot⟩ = some (y, i) := by
        rw [e4]; simp
      refine ⟨s1, e1, flow_inv_of_effect f p c u0 target s s1 t rest
        [TD.mk (t.stage_id + 1) s.next_task t.order [s.node] false [⟨s.node, s.next_slot⟩] [] []]
        h hp e3 e2 (by omega) ?_ (fun _ => by rw [e5]; exact ⟨rfl, rfl⟩) ?_ ?_ ?_ ?_ ?_ ?_ ?_⟩
      · intro d' hd' hne
        rw [e4, Function.update_noteq, Function.update_noteq]
        · intro hdd; apply hne; rw [hd, hdd]; rfl
        · intro hdd; rw [hdd] at hd'; simp at hd'
      · intro u hu
        simp only [List.mem_singleton] at hu
        subst hu
        exact ⟨rfl, by simp [ht], by simp [ht], fun _ => ⟨_, rfl, _, hfresh⟩⟩
      · simp [List.filter_cons, ht]
      · simp [queued_inputs]
      · intro d' hd'
        simp only [queued_inputs, List.filterMap_cons, List.head?_cons,
          List.filterMap_nil, List.mem_singleton] at hd'
        subst hd'
        simp only [e7]; omega
      · rw [hreads, owed_filter f p s t d [] y i ht hd hv]
        simp only [List.flatMap_cons, List.flatMap_nil, List.append_nil]
        rw [owed_sink f p s1 _ ⟨s.node, s.next_slot⟩ [] y i (by simp [ht]) rfl hfresh]
        simp [hpy]
      · rw [hreads, e5]; exact h.user
      · simp [work, ht]
    · simp only [Bool.not_eq_true] at hpy
      obtain ⟨s1, e1, e2, e3, e4, e5, e6, e7, -, e9, -, -⟩ := step_filter_drop stages s t rest st2
        p d [] y i hp h.submitted_nil hbd (by rw [ht]; exact h2) hf2 hd hv hpy
      have hreads : reads_of 3 s1.trace = reads_of 3 s.trace := by
        rw [e6, reads_of_append]; simp [reads_of, ht]
      refine ⟨s1, e1, flow_inv_of_effect f p c u0 target s s1 t rest [] h hp e3
        (by simpa using e2) (by omega) ?_ (fun _ => by rw [e5]; exact ⟨rfl, rfl⟩) (by simp)
        (by simp) (by simp [queued_inputs]) (by simp [queued_inputs]) ?_ ?_ ?_⟩
      · intro d' hd' hne
        rw [e4, Function.update_noteq]
        intro hdd; apply hne; rw [hd, hdd]; rfl
      · rw [hreads, owed_filter f p s t d [] y i ht hd hv]
        simp [hpy]
      · rw [hreads, e5]; exact h.user
      · simp [work, ht]
  · -- the consumer
    obtain ⟨d, hd, ⟨y, i⟩, hv⟩ := h.queued_cell t hmem (by omega)
    obtain ⟨s1, e1, e2, e3, e4, e5, e6, e7, -, e9, -, -⟩ := step_consumer stages s t rest st3
      (sink_op c) d [] y i hp h.submitted_nil hbd (by rw [ht]; exact h3) hf3 hd hv
    have hreads : reads_of 3 s1.trace = reads_of 3 s.trace ++ [(y, i)] := by
      rw [e6, reads_of_append]; simp [reads_of, ht]
    refine ⟨s1, e1, flow_inv_of_effect f p c u0 target s s1 t rest [] h hp e3
      (by simpa using e2) (by omega) ?_ (fun _ => by rw [e5]; exact ⟨rfl, rfl⟩) (by simp)
      (by simp) (by simp [queued_inputs]) (by simp [queued_inputs]) ?_ ?_ ?_⟩
    · intro d' hd' hne
      rw [e4, Function.update_noteq]
      intro hdd; apply hne; rw [hd, hdd]; rfl
    · rw [hreads, owed_sink f p s t d [] y i ht hd hv]
      simp
    · rw [hreads, e5, List.foldl_append]
      simp only [List.foldl_cons, List.foldl_nil, sink_op]
      rw [h.user]
    · simp [work, ht]

end FlowStep

section FlowRun
variable {α U Rd : Type}

theorem dispatch_some_lt {C E : Type} (stages : List (Stage C E)) (i : Nat) (s s' : State C E)
    (h : dispatch stages i s = some s') : i < s.pending.length := by
  unfold dispatch at h
  cases ht : s.pending.get? i with
  | none => rw [ht] at h; simp at h
  | some t => exact (List.get?_eq_some.mp ht).1

theorem flow_dispatch (stages : List (Stage (α × Nat) (PipeEnv (List α) U Rd)))
    (st0 st1 st2 st3 : Stage (α × Nat) (PipeEnv (List α) U Rd))
    (f : α → α) (p : α → Bool) (c : α → U → U)
    (h0 : stages.get? 0 = some st0) (hf0 : st0.fn = generator_task_func list_generator)
    (h1 : stages.get? 1 = some st1) (hf1 : st1.fn = no_pattern_task_func (pure_op f))
    (h2 : stages.get? 2 = some st2) (hf2 : st2.fn = filter_task_func p)
    (h3 : stages.get? 3 = some st3) (hf3 : st3.fn = consumer_task_func (sink_op c))
    (u0 : U) (target : List (α × Nat)) (s : PState α (List α) U Rd) (i : Nat)
    (hi : i < s.pending.length) (h : FlowInv f p c u0 target s) :
    ∃ s' : PState α (List α) U Rd, dispatch stages i s = some s' ∧ FlowInv f p c u0 target s' ∧
      (s'.pending.map (work s')).sum + 1 ≤ (s.pending.map (work s)).sum := by
  have ht : s.pending.get? i = some (s.pending.get ⟨i, hi⟩) := List.get?_eq_get hi
  have hmem : s.pending.get ⟨i, hi⟩ ∈ s.pending := List.get_mem _ _ _
  have hbd := (h.queued_ready _ hmem).1
  obtain ⟨hinv, hsum⟩ := flow_inv_reorder f p c u0 target s
    (s.pending.get ⟨i, hi⟩ :: s.pending.eraseIdx i) (pending_perm_of_get _ _ _ ht) h
  obtain ⟨s', e1, e2, e3⟩ := flow_step stages st0 st1 st2 st3 f p c h0 hf0 h1 hf1 h2 hf2 h3 hf3
    u0 target _ _ _ rfl hinv
  refine ⟨s', ?_, e2, ?_⟩
  · rw [dispatch_eq_step stages i s _ ht hbd]; exact e1
  · rw [← hsum]; exact e3

theorem flow_dispatches (stages : List (Stage (α × Nat) (PipeEnv (List α) U Rd)))
    (st0 st1 st2 st3 : Stage (α × Nat) (PipeEnv (List α) U Rd))
    (f : α → α) (p : α → Bool) (c : α → U → U)
    (h0 : stages.get? 0 = some st0) (hf0 : st0.fn = generator_task_func list_generator)
    (h1 : stages.get? 1 = some st1) (hf1 : st1.fn = no_pattern_task_func (pure_op f))
    (h2 : stages.get? 2 = some st2) (hf2 : st2.fn = filter_task_func p)
    (h3 : stages.get? 3 = some st3) (hf3 : st3.fn = consumer_task_func (sink_op c))
    (u0 : U) (target : List (α × Nat)) :
    ∀ (sched : List Nat) (s s' : PState α (List α) U Rd), FlowInv f p c u0 target s →
      dispatches stages sched s = some s' →
      FlowInv f p c u0 target s' ∧
        sched.length + (s'.pending.map (work s')).sum ≤ (s.pending.map (work s)).sum := by
  intro sched
  induction sched with
  | nil =>
    intro s s' h hrun
    simp only [dispatches, Option.some.injEq] at hrun
    subst hrun
    exact ⟨h, by simp⟩
  | cons i sched ih =>
    intro s s' h hrun
    simp only [dispatches] at hrun
    cases hd : dispatch stages i s with
    | none => rw [hd] at hrun; simp at hrun
    | some s1 =>
      rw [hd] at hrun
      obtain ⟨s2, e1, e2, e3⟩ := flow_dispatch stages st0 st1 st2 st3 f p c h0 hf0 h1 hf1 h2 hf2
        h3 hf3 u0 target s i (dispatch_some_lt stages i s s1 hd) h
      rw [hd, Option.some.injEq] at e1
      subst e1
      obtain ⟨e4, e5⟩ := ih s1 s' e2 hrun
      refine ⟨e4, ?_⟩
      simp only [List.length_cons]
      omega

/-- C6: the pipeline (generator, farm(f), filter(p), consumer) on a scheduler
that dispatches the queued tasks in any order, each once.  Whatever the
schedule, a run takes at most `4 * |xs| + 1` dispatches, any queued task can
be dispatched next, and the consumer has so far been invoked, once each, on
items among the `(f x, index of x)` with `p (f x)` true, in the order its
stage read them.  When the queue is empty, every submitted task has run, and
the consumer has been invoked exactly once on each of these items and on
nothing else. -/
theorem farm_filter_any_schedule (xs : List α) (f : α → α) (p : α → Bool) (c : α → U → U)
    (node : Nat) (alloc : Nat → Bool) (u0 : U) (rd0 : Rd) :
    ∃ acts : List (Action α (List α) U Rd),
      pipeline list_generator
        [Pattern.farm (pure_op f), Pattern.filter p, Pattern.plain (sink_op c)] = some acts ∧
      ∀ (sched : List Nat) (s : PState α (List α) U Rd),
        dispatches (table_of acts []) sched (pipeline_start acts node alloc xs u0 rd0).launch
          = some s →
        sched.length ≤ 4 * xs.length + 1 ∧
        (∀ i, i < s.pending.length → ∃ s', dispatch (table_of acts []) i s = some s') ∧
        s.env.user = (reads_of 3 s.trace).foldl (fun u y => c y.1 u) u0 ∧
        List.Subperm (reads_of 3 s.trace)
          (((xs.map f).enum.filter (fun iy => p iy.2)).map (fun iy => (iy.2, iy.1))) ∧
        (s.pending = [] → List.Perm (reads_of 3 s.trace)
          (((xs.map f).enum.filter (fun iy => p iy.2)).map (fun iy => (iy.2, iy.1)))) := by
  refine ⟨[Action.register false true (.generator list_generator),
    Action.register true false (.no_pattern_end (pure_op f)),
    Action.register false false (.filter p),
    Action.register false false (.consumer (sink_op c)), Action.run], rfl, ?_⟩
  intro sched s hrun
  have hstart : FlowInv f p c u0 (survivors f p 0 xs)
      (pipeline_start ([Action.register false true (.generator list_generator),
        Action.register true false (.no_pattern_end (pure_op f)),
        Action.register false false (.filter p),
        Action.register false false (.consumer (sink_op c)), Action.run] :
          List (Action α (List α) U Rd)) node alloc xs u0 rd0).launch := by
    refine ⟨rfl, ?_, ?_, ?_, ?_, ?_, ?_, rfl⟩
    · intro t ht
      simp only [State.launch, List.mem_singleton] at ht
      subst ht
      exact ⟨rfl, by simp⟩
    · simp [State.launch]
    · intro t ht hne
      simp only [State.launch, List.mem_singleton] at ht
      subst ht
      simp at hne
    · intro d hd
      simp [State.launch, queued_inputs] at hd
    · simp [State.launch, queued_inputs]
    · refine List.Perm.of_eq ?_
      show reads_of 3 [] ++ [_].flatMap _ = _
      simp only [reads_of, List.filterMap_nil, List.nil_append, List.flatMap_cons,
        List.flatMap_nil, List.append_nil]
      rw [owed_source _ _ _ _ rfl]
      rfl
  obtain ⟨hinv, hbound⟩ := flow_dispatches
    ([⟨false, true, generator_task_func list_generator⟩,
      ⟨true, false, no_pattern_task_func (pure_op f)⟩,
      ⟨false, false, filter_task_func p⟩,
      ⟨false, false, consumer_task_func (sink_op c)⟩] :
      List (Stage (α × Nat) (PipeEnv (List α) U Rd))) _ _ _ _ f p c
    rfl rfl rfl rfl rfl rfl rfl rfl u0 _ sched _ s hstart hrun
  refine ⟨?_, ?_, hinv.user, ?_, ?_⟩
  · have hw : (((pipeline_start ([Action.register false true (.generator list_generator),
        Action.register true false (.no_pattern_end (pure_op f)),
        Action.register false false (.filter p),
        Action.register false false (.consumer (sink_op c)), Action.run] :
          List (Action α (List α) U Rd)) node alloc xs u0 rd0).launch.pending.map
        (work (pipeline_start ([Action.register false true (.generator list_generator),
        Action.register true false (.no_pattern_end (pure_op f)),
        Action.register false false (.filter p),
        Action.register false false (.consumer (sink_op c)), Action.run] :
          List (Action α (List α) U Rd)) node alloc xs u0 rd0).launch)).sum)
        = 4 * xs.length + 1 := by
      simp [State.launch, work, pipeline_start, State.fresh, env_of, init_closure]
    omega
  · intro i hi
    obtain ⟨s', e1, -, -⟩ := flow_dispatch
      ([⟨false, true, generator_task_func list_generator⟩,
      ⟨true, false, no_pattern_task_func (pure_op f)⟩,
      ⟨false, false, filter_task_func p⟩,
      ⟨false, false, consumer_task_func (sink_op c)⟩] :
      List (Stage (α × Nat) (PipeEnv (List α) U Rd))) _ _ _ _ f p c
      rfl rfl rfl rfl rfl rfl rfl rfl u0 _ s i hi hinv
    exact ⟨s', e1⟩
  · exact (List.sublist_append_left _ _).subperm.trans hinv.account.subperm
  · intro hdone
    have := hinv.account
    rw [hdone] at this
    simpa using this

end FlowRun

section FlowWitness

set_option maxRecDepth 100000

/-- C6, witness: `xs = [0..9]`, `f = x -> 2x`, `p = x % 4 == 0` and a consumer
that appends to a list, under the schedule that runs the generator to its end
first and then the item tasks youngest first: the consumer receives 16, 12, 8,
4, 0, the items 0, 4, 8, 12, 16 with the orders 0, 2, 4, 6, 8 up to order. -/
theorem farm_filter_any_schedule_witness :
    ∃ (acts : List (Action Int (List Int) (List Int) (List Int)))
      (s : PState Int (List Int) (List Int) (List Int)),
      pipeline list_generator
        [Pattern.farm (pure_op (fun x => 2 * x)), Pattern.filter (fun x => decide (x % 4 = 0)),
         Pattern.plain (sink_op (fun x u => u ++ [x]))] = some acts ∧
      dispatches (table_of acts []) generator_first_schedule
        (pipeline_start acts 0 (fun _ => true) [0, 1, 2, 3, 4, 5, 6, 7, 8, 9] [] []).launch
          = some s ∧
      s.pending = [] ∧ s.env.user = [16, 12, 8, 4, 0] ∧
      List.Perm (reads_of 3 s.trace) [(0, 0), (4, 2), (8, 4), (12, 6), (16, 8)] := by
  obtain ⟨acts, hacts, hall⟩ := @farm_filter_any_schedule Int (List Int) (List Int)
    [0, 1, 2, 3, 4, 5, 6, 7, 8, 9] (fun x : Int => 2 * x) (fun x => decide (x % 4 = 0))
    (fun x (u : List Int) => u ++ [x]) 0 (fun _ => true) [] []
  have hconc : acts = [Action.register false true (.generator list_generator),
      Action.register true false (.no_pattern_end (pure_op (fun x : Int => 2 * x))),
      Action.register false false (.filter (fun x => decide (x % 4 = 0))),
      Action.register false false (.consumer (sink_op (fun x (u : List Int) => u ++ [x]))),
      Action.run] := by
    have : (pipeline list_generator
        [Pattern.farm (pure_op (fun x : Int => 2 * x)),
         Pattern.filter (fun x => decide (x % 4 = 0)),
         Pattern.plain (sink_op (fun x (u : List Int) => u ++ [x]))] :
        Option (List (Action Int (List Int) (List Int) (List Int)))) = some _ := rfl
    rw [this, Option.some.injEq] at hacts
    exact hacts.symm
  have hrun : (dispatches (table_of acts []) generator_first_schedule
      (pipeline_start acts 0 (fun _ => true) [0, 1, 2, 3, 4, 5, 6, 7, 8, 9] [] []).launch).map
        (fun s => (s.pending, s.env.user)) = some ([], [16, 12, 8, 4, 0]) := by
    rw [hconc]; rfl
  cases hs : dispatches (table_of acts []) generator_first_schedule
      (pipeline_start acts 0 (fun _ => true) [0, 1, 2, 3, 4, 5, 6, 7, 8, 9] [] []).launch with
  | none => rw [hs] at hrun; simp at hrun
  | some s =>
    rw [hs] at hrun
    simp only [Option.map_some', Option.some.injEq, Prod.mk.injEq] at hrun
    obtain ⟨-, -, -, -, hperm⟩ := hall generator_first_schedule s hs
    exact ⟨acts, s, hacts, hs, hrun.1, hrun.2, hperm hrun.1⟩

end FlowWitness


end Grppi
